import Mathlib

/-!
# Order book matching engine: embedding and verified properties

Shallow embedding of `include/order.hpp`, `src/orderbook.cpp`, the worker of
`src/main_server.cpp` and `src/json_utils.cpp`.

Conventions of the embedding.

* A `double` is a value of the type `Double`: NaN, one of the two infinities, or a
  finite value, which is a rational number (every finite `double` is one).  The
  comparisons `<`, `<=` and `==` are false as soon as one side is NaN; the difference
  of two finite values is rounded to the nearest binary64 value, ties to the even
  significand, and overflows to an infinity (`Double.ofRat`); `inf - inf` is NaN.  The
  literal `1e-12` is the binary64 value nearest to `1 / 10 ^ 12`, which is
  `4951760157141521 / 2 ^ 92`; `1e15` and `0.0` are exact.  The two zeros are one
  value, and so are all NaNs.  The theorems hold for every value of `Double`, whether
  its finite part is a binary64 value or not; the concrete prices of the examples are
  binary64 values.
* `uint64_t` values are natural numbers; where the source can wrap (the liquidity
  accumulator of `handleFOK`, the telemetry counters) the arithmetic is taken
  modulo `2 ^ 64` explicitly.
* `std::priority_queue<Order, std::vector<Order>, Cmp>` is its underlying vector,
  a `List Order`, with `top` the front element, `push` = `push_back` followed by
  `std::push_heap`, and `pop` = `std::pop_heap` followed by `pop_back`.  The two heap
  algorithms are the binary-heap routines of the GNU C++ library.
* A call that mutates the book and the order takes both and returns both.  The clock
  reading `endProcess` of `processOrder` is an input.
* Every loop is a structurally recursive function on a fuel argument; the callers
  pass a bound which is proved sufficient below.
* In the JSON functions a `std::string` is its sequence of characters, and a
  `std::map<std::string, std::string>` is the list of its entries in strictly
  increasing key order; `std::string::find` returns `none` for `npos`.
* The book mutex is not represented: a call has the book for itself from its
  beginning to its end.
-/

namespace OrderBookSystem

/-! ## Binary heap on a vector (`std::push_heap`, `std::pop_heap`) -/

section Heap

variable {α : Type}

/-- Exchange the entries at positions `i` and `j` of the vector. -/
def swapAt (l : List α) (i j : Nat) : List α :=
  match l[i]?, l[j]? with
  | some a, some b => (l.set i b).set j a
  | _, _ => l

/-- The climbing phase of `std::push_heap` (`__push_heap`): the value at index `i`
moves up as long as its parent, at index `(i - 1) / 2`, compares less than it. -/
def siftUp (comp : α → α → Bool) : Nat → List α → Nat → List α
  | 0, l, _ => l
  | fuel + 1, l, i =>
    if i = 0 then l
    else
      match l[(i - 1) / 2]?, l[i]? with
      | some p, some v =>
        if comp p v then siftUp comp fuel (swapAt l ((i - 1) / 2) i) ((i - 1) / 2) else l
      | _, _ => l

/-- The sinking phase of `std::pop_heap` (`__adjust_heap`): the value at index `i`
goes down to a leaf, each time changing places with the right child unless the right
child compares less than the left one (or is absent).  Returns the vector and the
index reached. -/
def sinkToLeaf (comp : α → α → Bool) : Nat → List α → Nat → List α × Nat
  | 0, l, i => (l, i)
  | fuel + 1, l, i =>
    match l[2 * i + 1]?, l[2 * i + 2]? with
    | some lc, some rc =>
      if comp rc lc then sinkToLeaf comp fuel (swapAt l i (2 * i + 1)) (2 * i + 1)
      else sinkToLeaf comp fuel (swapAt l i (2 * i + 2)) (2 * i + 2)
    | some _, none => (swapAt l i (2 * i + 1), 2 * i + 1)
    | none, _ => (l, i)

/-- The call `priority_queue::push(x)`: `push_back`, then `std::push_heap`. -/
def heapPush (comp : α → α → Bool) (l : List α) (x : α) : List α :=
  siftUp comp l.length (l ++ [x]) l.length

/-- The call `priority_queue::pop()`: `std::pop_heap`, then `pop_back`.  The last
value takes the place of the root, sinks to a leaf and climbs back. -/
def heapPop (comp : α → α → Bool) (l : List α) : List α :=
  match l.getLast? with
  | none => l
  | some v =>
    let r := sinkToLeaf comp l.dropLast.length (l.dropLast.set 0 v) 0
    siftUp comp r.2 r.1 r.2

/-- The test `std::is_heap`: no entry compares greater than its parent. -/
def isHeap (comp : α → α → Bool) (l : List α) : Bool :=
  (List.range l.length).all fun i =>
    match l[(i - 1) / 2]?, l[i]? with
    | some p, some v => i == 0 || !comp p v
    | _, _ => true

end Heap

/-! ## The type `double` -/

/-- A value of the type `double` (IEEE binary64): not-a-number, an infinity with its
sign, or a finite value, which is a rational number.  The two zeros are one value and
so are all the NaNs: no operation of the program tells them apart. -/
inductive Double where
  | nan : Double
  | inf (negative : Bool) : Double
  | fin (q : ℚ) : Double
  deriving DecidableEq, Repr

namespace Double

/-- The power `2 ^ k` for an integer `k`. -/
def pow2 (k : Int) : ℚ :=
  if 0 ≤ k then ((2 ^ k.toNat : Nat) : ℚ) else 1 / ((2 ^ (-k).toNat : Nat) : ℚ)

/-- The search for the binary logarithm of `n`, rounded down: `k` counts the times
`n` has been halved, until it is below 2. -/
def log2Loop : Nat → Nat → Nat → Nat
  | 0, _, k => k
  | fuel + 1, n, k => if n < 2 then k else log2Loop fuel (n / 2) (k + 1)

/-- The binary logarithm of `n`, rounded down (0 for `n = 0`). -/
def log2 (n : Nat) : Nat := log2Loop n n 0

/-- The binade of the positive rational `n / d`: the integer `e` with
`2 ^ e ≤ n / d < 2 ^ (e + 1)`. -/
def binade (n d : Nat) : Int :=
  let k : Int := (log2 n : Int) - (log2 d : Int)
  if 0 ≤ k then
    if d * 2 ^ k.toNat ≤ n then k else k - 1
  else
    if d ≤ n * 2 ^ (-k).toNat then k else k - 1

/-- The binary64 value nearest to the positive rational `n / d`, ties to the even
significand, before the test for overflow: a multiple of the unit in the last place
`2 ^ (e - 52)`, where `e` is the binade of `n / d` and at least `-1022`. -/
def roundMagnitude (n d : Nat) : ℚ :=
  let ulpExp : Int := max (binade n d) (-1022) - 52
  let num : Nat := n * 2 ^ (-ulpExp).toNat
  let den : Nat := d * 2 ^ ulpExp.toNat
  let m : Nat :=
    if 2 * (num % den) < den then num / den
    else if den < 2 * (num % den) then num / den + 1
    else if (num / den) % 2 = 0 then num / den
    else num / den + 1
  (m : ℚ) * pow2 ulpExp

/-- The conversion of a real value to `double`, as done for the result of an
arithmetic operation and for a literal: round to nearest, ties to even, and overflow
to an infinity. -/
def ofRat (x : ℚ) : Double :=
  if x = 0 then fin 0
  else if (2 : ℚ) ^ 1024 ≤ roundMagnitude x.num.natAbs x.den then inf (decide (x < 0))
  else if x < 0 then fin (- roundMagnitude x.num.natAbs x.den)
  else fin (roundMagnitude x.num.natAbs x.den)

/-- The comparison `a < b`: false when one of the two is NaN. -/
def lt : Double → Double → Bool
  | nan, _ => false
  | inf _, nan => false
  | inf n1, inf n2 => n1 && !n2
  | inf n1, fin _ => n1
  | fin _, nan => false
  | fin _, inf n2 => !n2
  | fin p, fin q => decide (p < q)

/-- The comparison `a <= b`: false when one of the two is NaN. -/
def le : Double → Double → Bool
  | nan, _ => false
  | inf _, nan => false
  | inf n1, inf n2 => n1 || !n2
  | inf n1, fin _ => n1
  | fin _, nan => false
  | fin _, inf n2 => !n2
  | fin p, fin q => decide (p ≤ q)

/-- The comparison `a == b`: false when one of the two is NaN. -/
def eq : Double → Double → Bool
  | inf n1, inf n2 => n1 == n2
  | fin p, fin q => decide (p = q)
  | _, _ => false

/-- The difference `a - b`. -/
def sub : Double → Double → Double
  | nan, _ => nan
  | inf _, nan => nan
  | inf n1, inf n2 => if n1 = n2 then nan else inf n1
  | inf n1, fin _ => inf n1
  | fin _, nan => nan
  | fin _, inf n2 => inf (!n2)
  | fin p, fin q => ofRat (p - q)

/-- The test `std::isfinite`: neither NaN nor an infinity. -/
def isFinite : Double → Bool
  | fin _ => true
  | _ => false

/-- The test `std::isnan`. -/
def isNaN : Double → Bool
  | nan => true
  | _ => false

/-- The value is one of the type `double`: the conversion of a finite value to
`double` returns it unchanged. -/
def isBinary64 : Double → Bool
  | fin q => decide (ofRat q = fin q)
  | _ => true

/-- The function `std::fabs`. -/
def fabs : Double → Double
  | nan => nan
  | inf _ => inf false
  | fin q => fin |q|

instance : LT Double := ⟨fun a b => lt a b = true⟩

instance : LE Double := ⟨fun a b => le a b = true⟩

instance (a b : Double) : Decidable (a < b) := inferInstanceAs (Decidable (lt a b = true))

instance (a b : Double) : Decidable (a ≤ b) := inferInstanceAs (Decidable (le a b = true))

instance : Sub Double := ⟨sub⟩

end Double

/-- The literal `1e-12`: the `double` nearest to `1 / 10 ^ 12`. -/
def lit1em12 : Double := Double.fin (4951760157141521 / 2 ^ 92)

/-- The literal `1e15`. -/
def lit1e15 : Double := Double.fin (10 ^ 15)

/-! ## Orders and comparators (`order.hpp`, `orderbook.cpp` lines 9-22) -/

/-- The record `struct Order`.  `recvTimestamp` is the tick count of the time point,
`clientAddr` stands for the socket address. -/
structure Order where
  orderId : Nat
  type : String
  action : String
  price : Double
  quantity : Nat
  remainingQuantity : Nat
  status : String
  isStopOrder : Bool
  stopPrice : Double
  recvTimestamp : Int
  clientAddr : Nat
  clientAddrLen : Nat
  deriving DecidableEq, Repr

/-- The constructor `Order::Order(orderId, type, action, price, quantity)`. -/
def Order.mk5 (orderId : Nat) (type action : String) (price : Double) (quantity : Nat) : Order :=
  { orderId := orderId, type := type, action := action, price := price,
    quantity := quantity, remainingQuantity := quantity, status := "open",
    isStopOrder := false, stopPrice := Double.fin 0, recvTimestamp := 0,
    clientAddr := 0, clientAddrLen := 16 }

/-- The method `Order::isBuy`. -/
def Order.isBuy (o : Order) : Bool := o.action == "buy"

/-- The method `Order::isSell`. -/
def Order.isSell (o : Order) : Bool := o.action == "sell"

/-- The call `BuyOrderComparator::operator()`: `true` when `a` has lower priority
than `b` on the bid side. -/
def BuyOrderComparator (a b : Order) : Bool :=
  if Double.fabs (a.price - b.price) < lit1em12 then
    decide (a.recvTimestamp > b.recvTimestamp)
  else
    decide (a.price < b.price)

/-- The call `SellOrderComparator::operator()`: `true` when `a` has lower priority
than `b` on the ask side. -/
def SellOrderComparator (a b : Order) : Bool :=
  if Double.fabs (a.price - b.price) < lit1em12 then
    decide (a.recvTimestamp > b.recvTimestamp)
  else
    decide (a.price > b.price)

/-! ## The book (`orderbook.hpp`) -/

/-- The state of `class OrderBook`: the two priority queues and the four counters. -/
structure OrderBook where
  m_buyOrders : List Order
  m_sellOrders : List Order
  m_ordersProcessed : Nat
  m_totalLatencyNs : Nat
  m_minLatencyNs : Nat
  m_maxLatencyNs : Nat
  deriving DecidableEq, Repr

/-- The constructor `OrderBook::OrderBook()`: empty queues, counters at their
initial values (`UINT64_MAX` for the minimum). -/
def OrderBook.new : OrderBook :=
  { m_buyOrders := [], m_sellOrders := [], m_ordersProcessed := 0,
    m_totalLatencyNs := 0, m_minLatencyNs := 2 ^ 64 - 1, m_maxLatencyNs := 0 }

/-! ## Crossing (`orderbook.cpp` lines 117-173) -/

/-- The loop of `OrderBook::matchBuyOrder` on the aggressor and the ask queue. -/
def matchBuyLoop : Nat → Order → List Order → Order × List Order
  | 0, buyOrder, sells => (buyOrder, sells)
  | fuel + 1, buyOrder, sells =>
    if buyOrder.remainingQuantity > 0 then
      match sells.head? with
      | none => (buyOrder, sells)
      | some topSell =>
        let effectiveBuyPrice : Double :=
          if buyOrder.type = "market" then lit1e15 else buyOrder.price
        if effectiveBuyPrice < topSell.price then (buyOrder, sells)
        else
          let popped := heapPop SellOrderComparator sells
          let tradedQty := min buyOrder.remainingQuantity topSell.remainingQuantity
          let buyOrder1 :=
            { buyOrder with remainingQuantity := buyOrder.remainingQuantity - tradedQty }
          let topSell1 :=
            { topSell with remainingQuantity := topSell.remainingQuantity - tradedQty }
          let topSell2 :=
            if topSell1.remainingQuantity = 0 then { topSell1 with status := "executed" }
            else { topSell1 with status := "partially_filled" }
          let sells2 :=
            if topSell2.remainingQuantity > 0 then heapPush SellOrderComparator popped topSell2
            else popped
          matchBuyLoop fuel buyOrder1 sells2
    else (buyOrder, sells)

/-- The method `OrderBook::matchBuyOrder`. -/
def matchBuyOrder (b : OrderBook) (buyOrder : Order) : OrderBook × Order :=
  let r := matchBuyLoop b.m_sellOrders.length buyOrder b.m_sellOrders
  ({ b with m_sellOrders := r.2 }, r.1)

/-- The loop of `OrderBook::matchSellOrder` on the aggressor and the bid queue. -/
def matchSellLoop : Nat → Order → List Order → Order × List Order
  | 0, sellOrder, buys => (sellOrder, buys)
  | fuel + 1, sellOrder, buys =>
    if sellOrder.remainingQuantity > 0 then
      match buys.head? with
      | none => (sellOrder, buys)
      | some topBuy =>
        let effectiveSellPrice : Double :=
          if sellOrder.type = "market" then Double.fin 0 else sellOrder.price
        if topBuy.price < effectiveSellPrice then (sellOrder, buys)
        else
          let popped := heapPop BuyOrderComparator buys
          let tradedQty := min sellOrder.remainingQuantity topBuy.remainingQuantity
          let sellOrder1 :=
            { sellOrder with remainingQuantity := sellOrder.remainingQuantity - tradedQty }
          let topBuy1 :=
            { topBuy with remainingQuantity := topBuy.remainingQuantity - tradedQty }
          let topBuy2 :=
            if topBuy1.remainingQuantity = 0 then { topBuy1 with status := "executed" }
            else { topBuy1 with status := "partially_filled" }
          let buys2 :=
            if topBuy2.remainingQuantity > 0 then heapPush BuyOrderComparator popped topBuy2
            else popped
          matchSellLoop fuel sellOrder1 buys2
    else (sellOrder, buys)

/-- The method `OrderBook::matchSellOrder`. -/
def matchSellOrder (b : OrderBook) (sellOrder : Order) : OrderBook × Order :=
  let r := matchSellLoop b.m_buyOrders.length sellOrder b.m_buyOrders
  ({ b with m_buyOrders := r.2 }, r.1)

/-! ## Stop-loss, immediate-or-cancel, fill-or-kill (`orderbook.cpp` lines 189-296) -/

/-- The local `bestSell` of `handleStopLoss`: the price of the top ask, `1e15` when
there is none. -/
def bestSell (b : OrderBook) : Double :=
  match b.m_sellOrders.head? with
  | some t => t.price
  | none => lit1e15

/-- The local `bestBuy` of `handleStopLoss`: the price of the top bid, `0.0` when
there is none. -/
def bestBuy (b : OrderBook) : Double :=
  match b.m_buyOrders.head? with
  | some t => t.price
  | none => Double.fin 0

/-- The method `OrderBook::handleStopLoss`: the order is rewritten, the book is only
read. -/
def handleStopLoss (b : OrderBook) (o : Order) : Order :=
  if o.isBuy then
    if bestSell b ≤ o.stopPrice then { o with type := "market" }
    else { o with type := "limit", price := o.stopPrice }
  else
    if bestBuy b ≥ o.stopPrice then { o with type := "market" }
    else { o with type := "limit", price := o.stopPrice }

/-- The method `OrderBook::handleIOC`; the third component is the returned flag. -/
def handleIOC (b : OrderBook) (o : Order) : OrderBook × Order × Bool :=
  let originalQty := o.remainingQuantity
  let r : OrderBook × Order :=
    if o.isBuy then matchBuyOrder b o
    else if o.isSell then matchSellOrder b o
    else (b, o)
  let o1 := { r.2 with remainingQuantity := 0 }
  (r.1, o1, decide (o1.remainingQuantity < originalQty))

/-- The feasibility scan of `OrderBook::handleFOK` for a buy, on the copy `tempQueue`
of the ask queue; returns `accumQty`, a 64-bit counter. -/
def fokScanBuy : Nat → Order → List Order → Nat → Nat
  | 0, _, _, accumQty => accumQty
  | fuel + 1, o, tempQueue, accumQty =>
    if accumQty < o.remainingQuantity then
      match tempQueue.head? with
      | none => accumQty
      | some topSell =>
        let effectiveBuyPrice : Double := if o.type = "fok" then o.price else lit1e15
        if effectiveBuyPrice < topSell.price then accumQty
        else
          fokScanBuy fuel o (heapPop SellOrderComparator tempQueue)
            ((accumQty + topSell.remainingQuantity) % 2 ^ 64)
    else accumQty

/-- The feasibility scan of `OrderBook::handleFOK` for a sell, on the copy
`tempQueue` of the bid queue. -/
def fokScanSell : Nat → Order → List Order → Nat → Nat
  | 0, _, _, accumQty => accumQty
  | fuel + 1, o, tempQueue, accumQty =>
    if accumQty < o.remainingQuantity then
      match tempQueue.head? with
      | none => accumQty
      | some topBuy =>
        let effectiveSellPrice : Double := if o.type = "fok" then o.price else Double.fin 0
        if topBuy.price < effectiveSellPrice then accumQty
        else
          fokScanSell fuel o (heapPop BuyOrderComparator tempQueue)
            ((accumQty + topBuy.remainingQuantity) % 2 ^ 64)
    else accumQty

/-- The method `OrderBook::handleFOK`; the third component is the returned flag. -/
def handleFOK (b : OrderBook) (o : Order) : OrderBook × Order × Bool :=
  if o.isBuy then
    let accumQty := fokScanBuy b.m_sellOrders.length o b.m_sellOrders 0
    if accumQty ≥ o.remainingQuantity then
      let r := matchBuyOrder b o
      (r.1, r.2, true)
    else (b, o, false)
  else
    let accumQty := fokScanSell b.m_buyOrders.length o b.m_buyOrders 0
    if accumQty ≥ o.remainingQuantity then
      let r := matchSellOrder b o
      (r.1, r.2, true)
    else (b, o, false)

/-! ## Dispatch and telemetry (`orderbook.cpp` lines 27-115) -/

/-- The latency sample `latNs`: the signed tick difference converted to `uint64_t`. -/
def latencyNs (endProcess : Int) (o : Order) : Nat :=
  ((endProcess - o.recvTimestamp) % 2 ^ 64).toNat

/-- The telemetry update closing `processOrder`: two `fetch_add` and the two
compare-exchange loops, on 64-bit counters. -/
def recordLatency (b : OrderBook) (latNs : Nat) : OrderBook :=
  { b with
    m_ordersProcessed := (b.m_ordersProcessed + 1) % 2 ^ 64
    m_totalLatencyNs := (b.m_totalLatencyNs + latNs) % 2 ^ 64
    m_minLatencyNs := if latNs < b.m_minLatencyNs then latNs else b.m_minLatencyNs
    m_maxLatencyNs := if latNs > b.m_maxLatencyNs then latNs else b.m_maxLatencyNs }

/-- The chain of branches on the order type in `processOrder` (source lines 53-103),
entered after the cancel and stop-loss branches. -/
def dispatchOrder (b : OrderBook) (o : Order) : OrderBook × Order :=
  if o.type = "ioc" then
    let r := handleIOC b o
    if !r.2.2 then
      (r.1, { r.2.1 with status := if r.2.1.quantity = 0 then "executed" else "ioc_no_fill" })
    else (r.1, r.2.1)
  else if o.type = "fok" then
    let r := handleFOK b o
    if !r.2.2 then
      (r.1, { r.2.1 with remainingQuantity := r.2.1.quantity, status := "fok_no_fill" })
    else (r.1, r.2.1)
  else if o.type = "market" ∨ o.type = "limit" then
    if o.isBuy then
      let r := matchBuyOrder b o
      if r.2.remainingQuantity > 0 ∧ r.2.type = "limit" then
        ({ r.1 with m_buyOrders := heapPush BuyOrderComparator r.1.m_buyOrders r.2 }, r.2)
      else if r.2.remainingQuantity = 0 then (r.1, { r.2 with status := "executed" })
      else if r.2.remainingQuantity < r.2.quantity then
        (r.1, { r.2 with status := "partially_filled" })
      else (r.1, r.2)
    else if o.isSell then
      let r := matchSellOrder b o
      if r.2.remainingQuantity > 0 ∧ r.2.type = "limit" then
        ({ r.1 with m_sellOrders := heapPush SellOrderComparator r.1.m_sellOrders r.2 }, r.2)
      else if r.2.remainingQuantity = 0 then (r.1, { r.2 with status := "executed" })
      else if r.2.remainingQuantity < r.2.quantity then
        (r.1, { r.2 with status := "partially_filled" })
      else (r.1, r.2)
    else (b, { o with status := "rejected" })
  else (b, { o with status := "rejected" })

/-- The order after the stop-loss branch of `processOrder` (source lines 49-51). -/
def afterStopLoss (b : OrderBook) (o : Order) : Order :=
  if o.type = "stop-loss" then handleStopLoss b o else o

/-- The method `OrderBook::processOrder`. -/
def processOrder (b : OrderBook) (endProcess : Int) (o : Order) : OrderBook × Order :=
  if o.type = "cancel" then
    let o1 := { o with status := "cancelled" }
    (recordLatency b (latencyNs endProcess o1), o1)
  else
    let r := dispatchOrder b (afterStopLoss b o)
    (recordLatency r.1 (latencyNs endProcess r.2), r.2)

/-! ## Confirmations (`orderbook.cpp` lines 175-185, `main_server.cpp` lines 67-86) -/

/-- The fields `OrderBook::buildConfirmation` writes into the message, before they
are rendered as text, together with the return address copied by the worker. -/
structure ConfirmationFields where
  order_id : Nat
  status : String
  filled_quantity : Nat
  remaining_quantity : Nat
  average_price : Double
  clientAddr : Nat
  clientAddrLen : Nat
  deriving DecidableEq, Repr

/-- The method `OrderBook::buildConfirmation` (field values). -/
def buildConfirmation (o : Order) (filledQuantity : Nat) (avgPrice : Double) :
    ConfirmationFields :=
  { order_id := o.orderId, status := o.status, filled_quantity := filledQuantity,
    remaining_quantity := o.remainingQuantity, average_price := avgPrice,
    clientAddr := o.clientAddr, clientAddrLen := o.clientAddrLen }

/-- One iteration of `serverWorkerThread` on the order popped from the queue. -/
def serverWorkerThread (b : OrderBook) (endProcess : Int) (o0 : Order) :
    OrderBook × ConfirmationFields :=
  let r := processOrder b endProcess o0
  let o := r.2
  let filledQty := if o.quantity > o.remainingQuantity then o.quantity - o.remainingQuantity else 0
  let avgPrice : Double := if filledQty > 0 then o.price else Double.fin 0
  (r.1, buildConfirmation o filledQty avgPrice)

/-! ## Specification vocabulary: heap order and strict weak orderings -/

section HeapOrderDefs

variable {α : Type}

/-- The heap condition on a vector: no entry compares greater than its parent. -/
def HeapOrdered (comp : α → α → Bool) (l : List α) : Prop :=
  ∀ i p v, 0 < i → l[(i - 1) / 2]? = some p → l[i]? = some v → comp p v = false

/-- What `std::priority_queue` asks of its comparator, on the values satisfying `P`:
it is asymmetric and "not less" is transitive (a strict weak ordering). -/
structure WeakOrderOn (comp : α → α → Bool) (P : α → Prop) : Prop where
  asymm : ∀ a b, P a → P b → comp a b = true → comp b a = false
  trans : ∀ a b c, P a → P b → P c → comp a b = false → comp b c = false → comp a c = false

/-- The heap condition with the pair (parent of `k`, `k`) left out, and the children
of `k` already below the parent of `k`: the state of the climbing phase. -/
def ClimbInv (comp : α → α → Bool) (l : List α) (k : Nat) : Prop :=
  (∀ i p v, 0 < i → i ≠ k → l[(i - 1) / 2]? = some p → l[i]? = some v → comp p v = false) ∧
  (∀ i g v, 0 < k → 0 < i → (i - 1) / 2 = k → l[(k - 1) / 2]? = some g → l[i]? = some v →
    comp g v = false)

/-- The heap condition with every pair involving `k` left out, and the children of
`k` already below the parent of `k`: the state of the sinking phase. -/
def SinkInv (comp : α → α → Bool) (l : List α) (k : Nat) : Prop :=
  (∀ i p v, 0 < i → i ≠ k → (i - 1) / 2 ≠ k → l[(i - 1) / 2]? = some p → l[i]? = some v →
    comp p v = false) ∧
  (∀ i g v, 0 < k → 0 < i → (i - 1) / 2 = k → l[(k - 1) / 2]? = some g → l[i]? = some v →
    comp g v = false)

end HeapOrderDefs

/-! ## Specification vocabulary: input contracts, reachable books, liquidity -/

/-- The input contract of the resting-order invariant: status `open` and nothing
filled yet. -/
def FreshOrder (o : Order) : Prop := o.status = "open" ∧ o.remainingQuantity = o.quantity

/-- The books reachable from the freshly constructed one by calls of `processOrder`
on orders satisfying `ok`, with any clock readings. -/
inductive ReachableBy (ok : Order → Prop) : OrderBook → Prop where
  | init : ReachableBy ok OrderBook.new
  | step {b : OrderBook} (endProcess : Int) (o : Order) :
      ReachableBy ok b → ok o → ReachableBy ok (processOrder b endProcess o).1

/-- A set of prices any two of which are equal, `p == q`, or at least `1e-12` apart,
`fabs(p - q) >= 1e-12`, both tests as the program evaluates them.  No such set holds
a NaN. -/
def SeparatedPrices (S : Set Double) : Prop :=
  ∀ p ∈ S, ∀ q ∈ S, Double.eq p q = true ∨ lit1em12 ≤ Double.fabs (p - q)

/-- A set of finite prices: neither NaN nor an infinity. -/
def FinitePrices (S : Set Double) : Prop := ∀ p ∈ S, p.isFinite = true

/-- The orders whose limit price and stop price are both taken from `S`. -/
def PricedIn (S : Set Double) (o : Order) : Prop := o.price ∈ S ∧ o.stopPrice ∈ S

/-- The prices of the orders resting in a queue. -/
def restingPrices (q : List Order) : Set Double := { p | ∃ x ∈ q, x.price = p }

/-- The quantity resting in the queue `q` on orders that pass the price test: the
sum of `remainingQuantity` over the orders at which `stops` is false. -/
def liquidity (stops : Order → Bool) (q : List Order) : Nat :=
  ((q.filter fun x => !stops x).map Order.remainingQuantity).sum

/-! ## The loops of the source, stated once for both sides -/

/-- The resting order `top` after a trade of `tradedQty`: the statements of the
crossing loops between `pop` and the `push` back. -/
def fillTop (top : Order) (tradedQty : Nat) : Order :=
  if top.remainingQuantity - tradedQty = 0 then
    { top with remainingQuantity := top.remainingQuantity - tradedQty, status := "executed" }
  else
    { top with remainingQuantity := top.remainingQuantity - tradedQty,
               status := "partially_filled" }

/-- The queue after a trade of `tradedQty` against its top: the top is popped and,
when some of it is left, pushed back. -/
def requeue (comp : Order → Order → Bool) (q : List Order) (top : Order) (tradedQty : Nat) :
    List Order :=
  if (fillTop top tradedQty).remainingQuantity > 0 then
    heapPush comp (heapPop comp q) (fillTop top tradedQty)
  else heapPop comp q

/-- The common shape of the loops of `matchBuyOrder` and `matchSellOrder`: `comp` is
the comparator of the opposite queue and `stops top` the price test that ends the
loop.  Used to state the lemmas once for both sides. -/
def crossLoop (comp : Order → Order → Bool) (stops : Order → Bool) :
    Nat → Order → List Order → Order × List Order
  | 0, agg, q => (agg, q)
  | fuel + 1, agg, q =>
    if agg.remainingQuantity > 0 then
      match q.head? with
      | none => (agg, q)
      | some top =>
        if stops top then (agg, q)
        else
          crossLoop comp stops fuel
            { agg with remainingQuantity :=
                agg.remainingQuantity - min agg.remainingQuantity top.remainingQuantity }
            (requeue comp q top (min agg.remainingQuantity top.remainingQuantity))
    else (agg, q)

/-- The price test of `matchBuyOrder`: `effectiveBuyPrice < topSell.price`. -/
def buyStops (buyOrder : Order) (topSell : Order) : Bool :=
  decide ((if buyOrder.type = "market" then lit1e15 else buyOrder.price) < topSell.price)

/-- The price test of `matchSellOrder`: `topBuy.price < effectiveSellPrice`. -/
def sellStops (sellOrder : Order) (topBuy : Order) : Bool :=
  decide (topBuy.price < (if sellOrder.type = "market" then Double.fin 0 else sellOrder.price))

/-- The run of the loop of `matchBuyOrder` on the book `b`, as a `crossLoop`. -/
def buyCross (b : OrderBook) (o : Order) : Order × List Order :=
  crossLoop SellOrderComparator (buyStops o) b.m_sellOrders.length o b.m_sellOrders

/-- The run of the loop of `matchSellOrder` on the book `b`, as a `crossLoop`. -/
def sellCross (b : OrderBook) (o : Order) : Order × List Order :=
  crossLoop BuyOrderComparator (sellStops o) b.m_buyOrders.length o b.m_buyOrders

/-- The common shape of the two feasibility scans of `handleFOK`: `need` is the
order's `remainingQuantity`.  Used to state the lemmas once for both sides. -/
def scanLoop (comp : Order → Order → Bool) (stops : Order → Bool) (need : Nat) :
    Nat → List Order → Nat → Nat
  | 0, _, accumQty => accumQty
  | fuel + 1, tempQueue, accumQty =>
    if accumQty < need then
      match tempQueue.head? with
      | none => accumQty
      | some top =>
        if stops top then accumQty
        else
          scanLoop comp stops need fuel (heapPop comp tempQueue)
            ((accumQty + top.remainingQuantity) % 2 ^ 64)
    else accumQty

/-- The price test of the scan of `handleFOK` for a buy. -/
def fokBuyStops (o : Order) (topSell : Order) : Bool :=
  decide ((if o.type = "fok" then o.price else lit1e15) < topSell.price)

/-- The price test of the scan of `handleFOK` for a sell. -/
def fokSellStops (o : Order) (topBuy : Order) : Bool :=
  decide (topBuy.price < (if o.type = "fok" then o.price else Double.fin 0))

/-- The outcome of the feasibility scan of `handleFOK`: the test
`accumQty >= o.remainingQuantity`. -/
def fokFeasible (b : OrderBook) (o : Order) : Bool :=
  if o.isBuy then
    decide (fokScanBuy b.m_sellOrders.length o b.m_sellOrders 0 ≥ o.remainingQuantity)
  else
    decide (fokScanSell b.m_buyOrders.length o b.m_buyOrders 0 ≥ o.remainingQuantity)

/-! ## Concrete orders and books used in witnesses and counterexamples -/

/-- The limit buy of scenario S1: id 1, price 50, quantity 100. -/
def exBuy1 : Order := { Order.mk5 1 "limit" "buy" (.fin 50) 100 with recvTimestamp := 1 }

/-- The limit sell of scenario S2: id 2, price 49, quantity 50. -/
def exSell2 : Order := { Order.mk5 2 "limit" "sell" (.fin 49) 50 with recvTimestamp := 2 }

/-- The book of scenario S1 after the limit buy. -/
def exBookS1 : OrderBook := (processOrder OrderBook.new 1 exBuy1).1

/-- The book of scenario S2 after the limit sell. -/
def exBookS2 : OrderBook := (processOrder exBookS1 2 exSell2).1

/-- The bid of scenario S1 as it rests after scenario S2: 50 left, status
`partially_filled`. -/
def exBidAfterS2 : Order :=
  { exBuy1 with remainingQuantity := 50, status := "partially_filled" }

/-- A limit buy at 48 for 10. -/
def exBuy48 : Order := { Order.mk5 3 "limit" "buy" (.fin 48) 10 with recvTimestamp := 2 }

/-- The book with the bid of scenario S1 and the bid at 48. -/
def exBookTwoBids : OrderBook := (processOrder exBookS1 2 exBuy48).1

/-- A cancel request as in the test `OrderBookTest.CancelOrder`. -/
def exCancel : Order := { Order.mk5 200 "cancel" "buy" (.fin 0) 0 with recvTimestamp := 3 }

/-- Two asks at the same price 50, the first received earlier. -/
def exAskA : Order := { Order.mk5 10 "limit" "sell" (.fin 50) 10 with recvTimestamp := 1 }

/-- The later of the two asks at price 50. -/
def exAskB : Order := { Order.mk5 11 "limit" "sell" (.fin 50) 10 with recvTimestamp := 2 }

/-- The book holding the two asks at price 50. -/
def exBookTwoAsks : OrderBook :=
  (processOrder (processOrder OrderBook.new 1 exAskA).1 2 exAskB).1

/-- A limit buy at 50 for 4. -/
def exLimitBuy4 : Order := { Order.mk5 12 "limit" "buy" (.fin 50) 4 with recvTimestamp := 3 }

/-- Two asks at the same price `2e15`, above the `1e15` a market buy is given as its
effective price; the first received earlier. -/
def exHighAskA : Order :=
  { Order.mk5 10 "limit" "sell" (.fin (2 * 10 ^ 15)) 10 with recvTimestamp := 1 }

/-- The later of the two asks at price `2e15`. -/
def exHighAskB : Order :=
  { Order.mk5 11 "limit" "sell" (.fin (2 * 10 ^ 15)) 10 with recvTimestamp := 2 }

/-- The book holding the two asks at price `2e15`. -/
def exBookHighAsks : OrderBook :=
  (processOrder (processOrder OrderBook.new 1 exHighAskA).1 2 exHighAskB).1

/-- A market buy for 4. -/
def exMarketBuy4 : Order := { Order.mk5 12 "market" "buy" (.fin 0) 4 with recvTimestamp := 3 }

/-- The resting ask of scenario S3: id 10, price 51, quantity 100. -/
def exAsk51 : Order := { Order.mk5 10 "limit" "sell" (.fin 51) 100 with recvTimestamp := 1 }

/-- The market buy of scenario S3: id 11, quantity 50. -/
def exMarketBuy50 : Order := { Order.mk5 11 "market" "buy" (.fin 0) 50 with recvTimestamp := 2 }

/-- The book of scenario S3 before the market buy. -/
def exBookS3 : OrderBook := (processOrder OrderBook.new 1 exAsk51).1

/-- One ask at 50 for 10, as in scenarios S5 and S6. -/
def exAsk50 : Order := { Order.mk5 40 "limit" "sell" (.fin 50) 10 with recvTimestamp := 1 }

/-- The book of scenarios S5 and S6. -/
def exBookS6 : OrderBook := (processOrder OrderBook.new 1 exAsk50).1

/-- The fill-or-kill buy of scenario S6: id 41, price 50, quantity 20. -/
def exFokBuy20 : Order := { Order.mk5 41 "fok" "buy" (.fin 50) 20 with recvTimestamp := 2 }

/-- A fill-or-kill buy at 50 for 5 whose status field already reads `fok_no_fill`
when it is handed to `processOrder` (an order object killed before and submitted
again). -/
def exFokBuyStale : Order :=
  { Order.mk5 42 "fok" "buy" (.fin 50) 5 with recvTimestamp := 3, status := "fok_no_fill" }

/-- Four limit buys received in this order, at prices `1`, `1 + 3/2^42`, `1` and
`1 + 6/2^42` (all exact `double` values): the second is within `1e-12` of the first
and of the fourth, the fourth is more than `1e-12` above the first. -/
def exBid1 : Order := { Order.mk5 1 "limit" "buy" (.fin 1) 10 with recvTimestamp := 1 }

/-- The second of the four bids, at `1 + 3/2^42`. -/
def exBid2 : Order :=
  { Order.mk5 2 "limit" "buy" (.fin (1 + 3 / 2 ^ 42)) 10 with recvTimestamp := 2 }

/-- The third of the four bids, at `1`. -/
def exBid3 : Order := { Order.mk5 3 "limit" "buy" (.fin 1) 10 with recvTimestamp := 3 }

/-- The fourth of the four bids, at `1 + 6/2^42`. -/
def exBid4 : Order :=
  { Order.mk5 4 "limit" "buy" (.fin (1 + 6 / 2 ^ 42)) 10 with recvTimestamp := 4 }

/-- The book after the four bids, processed in the order received. -/
def exBookFourBids : OrderBook :=
  (processOrder (processOrder (processOrder (processOrder OrderBook.new 1 exBid1).1 2
    exBid2).1 3 exBid3).1 4 exBid4).1

/-- An ask at `50 + 2^-41`, within `1e-12` of 50, received first. -/
def exAskNear : Order :=
  { Order.mk5 50 "limit" "sell" (.fin (50 + 1 / 2 ^ 41)) 10 with recvTimestamp := 1 }

/-- An ask at 50 received second. -/
def exAskAt50 : Order := { Order.mk5 51 "limit" "sell" (.fin 50) 10 with recvTimestamp := 2 }

/-- The book after the two asks `exAskNear` and `exAskAt50`. -/
def exBookNearAsks : OrderBook :=
  (processOrder (processOrder OrderBook.new 1 exAskNear).1 2 exAskAt50).1

/-- A fill-or-kill buy at 50 for 5. -/
def exFokBuy5 : Order := { Order.mk5 52 "fok" "buy" (.fin 50) 5 with recvTimestamp := 3 }

/-- An ask at 50 for `2^64 - 2`. -/
def exAskHuge : Order :=
  { Order.mk5 60 "limit" "sell" (.fin 50) (2 ^ 64 - 2) with recvTimestamp := 1 }

/-- An ask at 50 for 3. -/
def exAskThree : Order := { Order.mk5 61 "limit" "sell" (.fin 50) 3 with recvTimestamp := 2 }

/-- The book after the asks `exAskHuge` and `exAskThree`. -/
def exBookHugeAsks : OrderBook :=
  (processOrder (processOrder OrderBook.new 1 exAskHuge).1 2 exAskThree).1

/-- A fill-or-kill buy at 50 for `2^64 - 1`. -/
def exFokBuyHuge : Order :=
  { Order.mk5 62 "fok" "buy" (.fin 50) (2 ^ 64 - 1) with recvTimestamp := 3 }

/-! ## Specification vocabulary: resting totals and filled copies -/

/-- The quantity resting in a queue: the sum of `remainingQuantity` over its orders. -/
def restingTotal (q : List Order) : Nat := (q.map Order.remainingQuantity).sum

/-- The resting order `x` is the order `y` after fills: the two agree in every field
but `remainingQuantity` and `status`. -/
def FilledCopyOf (x y : Order) : Prop :=
  x = { y with remainingQuantity := x.remainingQuantity, status := x.status }

/-! ## Further concrete orders and books -/

/-- The immediate-or-cancel buy of scenario S5: id 31, price 49, quantity 5. -/
def exIocBuy49 : Order := { Order.mk5 31 "ioc" "buy" (.fin 49) 5 with recvTimestamp := 2 }

/-- A limit buy at 50 for 20. -/
def exLimitBuy20 : Order := { Order.mk5 13 "limit" "buy" (.fin 50) 20 with recvTimestamp := 2 }

/-- A market sell for 7. -/
def exMarketSell7 : Order := { Order.mk5 14 "market" "sell" (.fin 0) 7 with recvTimestamp := 2 }

/-- The resting ask of scenario S4: id 20, price 100, quantity 50. -/
def exAsk100 : Order := { Order.mk5 20 "limit" "sell" (.fin 100) 50 with recvTimestamp := 1 }

/-- The book of scenario S4 before the stop-loss order. -/
def exBookS4 : OrderBook := (processOrder OrderBook.new 1 exAsk100).1

/-- The stop-loss buy of scenario S4: id 21, stop price 101, quantity 30. -/
def exStopBuy101 : Order :=
  { Order.mk5 21 "stop-loss" "buy" (.fin 0) 30 with
    recvTimestamp := 2, isStopOrder := true, stopPrice := .fin 101 }

/-- A stop-loss sell for 30 whose stop price is 0 (the value the field has when the
message carries no `stop_price`), with limit price 7. -/
def exStopSellZero : Order :=
  { Order.mk5 22 "stop-loss" "sell" (.fin 7) 30 with recvTimestamp := 2, isStopOrder := true }

/-- A fill-or-kill order at 50 for 5 whose action is neither `buy` nor `sell`. -/
def exFokHold : Order := { Order.mk5 43 "fok" "hold" (.fin 50) 5 with recvTimestamp := 2 }

/-- An immediate-or-cancel order at 50 for 5 whose action is neither `buy` nor
`sell`. -/
def exIocHold : Order := { Order.mk5 44 "ioc" "hold" (.fin 50) 5 with recvTimestamp := 2 }

/-- An order of a type the dispatch does not know. -/
def exIceberg : Order := { Order.mk5 45 "iceberg" "buy" (.fin 50) 5 with recvTimestamp := 2 }

/-! ## Sequences of calls, and further concrete data -/

/-- The first order of the comparator tests: id 1, price 50, quantity 100. -/
def exTestOrderA : Order := Order.mk5 1 "limit" "buy" (.fin 50) 100

/-- The second order of the comparator tests: id 2, price 60, quantity 200. -/
def exTestOrderB : Order := Order.mk5 2 "limit" "buy" (.fin 60) 200

/-- An order priced `0.0`, received second. -/
def exOrderAtZero : Order := { Order.mk5 3 "limit" "buy" (.fin 0) 10 with recvTimestamp := 2 }

/-- An order priced `1e-12`, received first. -/
def exOrderAtTolerance : Order :=
  { Order.mk5 4 "limit" "buy" lit1em12 10 with recvTimestamp := 1 }

/-- An immediate-or-cancel buy at 50 for 5. -/
def exIocBuy50 : Order := { Order.mk5 33 "ioc" "buy" (.fin 50) 5 with recvTimestamp := 2 }

/-- Sequential calls of `processOrder` on one book: each entry of `calls` is the
clock reading `endProcess` of the call and the order passed to it. -/
def processAll (b : OrderBook) (calls : List (Int × Order)) : OrderBook :=
  calls.foldl (fun acc c => (processOrder acc c.1 c.2).1) b

/-- The latency samples `latNs` of a sequence of calls, one per call. -/
def latencySamples (calls : List (Int × Order)) : List Nat :=
  calls.map fun c => latencyNs c.1 c.2

/-- A cancel request whose receive timestamp is one tick after the clock reading 0 of
its call, so that its latency sample is `2^64 - 1`. -/
def exCancelEarly : Order := { Order.mk5 201 "cancel" "buy" (.fin 0) 0 with recvTimestamp := 1 }

/-- A cancel request received at tick 0. -/
def exCancelAtZero : Order := Order.mk5 202 "cancel" "buy" (.fin 0) 0

/-- Two calls with the latency samples `2^64 - 1` and `1`. -/
def exCallsWrap : List (Int × Order) := [(0, exCancelEarly), (1, exCancelAtZero)]

/-- The three calls of scenarios S1 and S2 followed by a cancel request, with the
latency samples 0, 0 and 2. -/
def exCallsThree : List (Int × Order) := [(1, exBuy1), (2, exSell2), (5, exCancel)]

/-! ## Orders priced at NaN or at an infinity -/

/-- A limit buy for 5 whose price is NaN (the value `std::stod` returns for the text
`nan`). -/
def exNanLimitBuy : Order :=
  { Order.mk5 70 "limit" "buy" .nan 5 with recvTimestamp := 2 }

/-- A fill-or-kill buy for 5 whose price is NaN. -/
def exNanFokBuy : Order := { Order.mk5 71 "fok" "buy" .nan 5 with recvTimestamp := 2 }

/-- An ask for 10 at the price `+inf` (the value `std::stod` returns for the text
`inf`), received first. -/
def exInfAskA : Order :=
  { Order.mk5 72 "limit" "sell" (.inf false) 10 with recvTimestamp := 1 }

/-- An ask for 10 at the price `+inf`, received second. -/
def exInfAskB : Order :=
  { Order.mk5 73 "limit" "sell" (.inf false) 10 with recvTimestamp := 2 }

/-- The book after the two asks at `+inf`, the one received second being processed
first. -/
def exBookInfAsks : OrderBook :=
  (processOrder (processOrder OrderBook.new 2 exInfAskB).1 2 exInfAskA).1

/-- A limit buy at `+inf` for 4. -/
def exInfLimitBuy : Order :=
  { Order.mk5 74 "limit" "buy" (.inf false) 4 with recvTimestamp := 3 }

/-! ## Specification vocabulary: resting prices -/

/-- The prices at which an order can come to rest are taken from `S`: the limit
price of a limit order and the stop price of a stop-loss order, which becomes its
limit price when the order is converted to a limit order. -/
def RestsPricedIn (S : Set Double) (o : Order) : Prop :=
  (o.type = "limit" → o.price ∈ S) ∧ (o.type = "stop-loss" → o.stopPrice ∈ S)

/-- The book with the bid of scenario S1 at 50 and an ask at 51. -/
def exBookBothSides : OrderBook := (processOrder exBookS1 2 exAsk51).1

/-! ## JSON text (`json_utils.cpp`) -/

/-- The double-quote character. -/
def quoteChar : Char := Char.ofNat 34

/-- The backslash character. -/
def backslashChar : Char := Char.ofNat 92

/-- The colon. -/
def colonChar : Char := Char.ofNat 58

/-- The comma. -/
def commaChar : Char := Char.ofNat 44

/-- The opening brace. -/
def lbraceChar : Char := Char.ofNat 123

/-- The closing brace. -/
def rbraceChar : Char := Char.ofNat 125

/-- The order `std::less<std::string>` of the keys of a `std::map`: lexicographic on
the character codes, a proper prefix first. -/
def strLess : List Char → List Char → Bool
  | [], [] => false
  | [], _ :: _ => true
  | _ :: _, [] => false
  | a :: as, b :: bs =>
    if a.toNat < b.toNat then true
    else if b.toNat < a.toNat then false
    else strLess as bs

/-- The statement `result[key] = val` on a `std::map<std::string, std::string>`,
which is modelled by its entries in increasing key order (strings are their
sequences of characters): an entry with an equivalent key gets the value, otherwise
a new entry is put at its place in the order. -/
def mapAssign : List (List Char × List Char) → List Char → List Char →
    List (List Char × List Char)
  | [], key, val => [(key, val)]
  | (k, v) :: rest, key, val =>
    if strLess key k then (key, val) :: (k, v) :: rest
    else if strLess k key then (k, v) :: mapAssign rest key val
    else (k, val) :: rest

/-- The loop of `escapeJsonString` on the characters still to be written and the
stream `ss`. -/
def escapeLoop : List Char → List Char → List Char
  | [], ss => ss
  | c :: cs, ss =>
    if c = quoteChar then escapeLoop cs (ss ++ [backslashChar, quoteChar])
    else if c = backslashChar then escapeLoop cs (ss ++ [backslashChar, backslashChar])
    else escapeLoop cs (ss ++ [c])

/-- The function `escapeJsonString`. -/
def escapeJsonString (input : List Char) : List Char :=
  escapeLoop input [quoteChar] ++ [quoteChar]

/-- The loop of `buildJsonString` over the entries of the map, with the flag `first`
and the stream `oss`. -/
def buildJsonLoop : List (List Char × List Char) → Bool → List Char → List Char
  | [], _, oss => oss
  | kv :: rest, first, oss =>
    let oss1 := if !first then oss ++ [commaChar] else oss
    buildJsonLoop rest false
      (oss1 ++ escapeJsonString kv.1 ++ [colonChar] ++ escapeJsonString kv.2)

/-- The function `buildJsonString`. -/
def buildJsonString (fields : List (List Char × List Char)) : List Char :=
  buildJsonLoop fields true [lbraceChar] ++ [rbraceChar]

/-- The search of `std::string::find` through the characters from index `i` on. -/
def findFrom (c : Char) : List Char → Nat → Option Nat
  | [], _ => none
  | x :: xs, i => if x = c then some i else findFrom c xs (i + 1)

/-- The call `json.find(c, pos)` for a one-character needle: the first index
`>= pos` that holds `c`; `none` stands for `npos`. -/
def strFind (json : List Char) (c : Char) (pos : Nat) : Option Nat :=
  findFrom c (json.drop pos) pos

/-- The call `json.substr(pos, len)`. -/
def substr (json : List Char) (pos len : Nat) : List Char :=
  (json.drop pos).take len

/-- The loop of `parseJsonString`, from the position `pos` with the map `result`. -/
def parseJsonLoop (json : List Char) : Nat → Nat → List (List Char × List Char) →
    List (List Char × List Char)
  | 0, _, result => result
  | fuel + 1, pos, result =>
    match strFind json quoteChar pos with
    | none => result
    | some startKey =>
      match strFind json quoteChar (startKey + 1) with
      | none => result
      | some endKey =>
        let key := substr json (startKey + 1) (endKey - (startKey + 1))
        match strFind json colonChar endKey with
        | none => result
        | some colonPos =>
          match strFind json quoteChar colonPos with
          | none => result
          | some startVal =>
            match strFind json quoteChar (startVal + 1) with
            | none => result
            | some endVal =>
              let val := substr json (startVal + 1) (endVal - (startVal + 1))
              parseJsonLoop json fuel (endVal + 1) (mapAssign result key val)

/-- The function `parseJsonString`.  Every turn of the loop moves `pos` forward, so
`json.length + 1` turns are enough. -/
def parseJsonString (json : List Char) : List (List Char × List Char) :=
  parseJsonLoop json (json.length + 1) 0 []

/-- The fields of a confirmation as `buildConfirmation` hands them to
`buildJsonString`, for an order with id 2 that was executed. -/
def exConfirmationMap : List (List Char × List Char) :=
  [("average_price".toList, "49.000000".toList), ("filled_quantity".toList, "50".toList),
   ("order_id".toList, "2".toList), ("remaining_quantity".toList, "0".toList),
   ("status".toList, "executed".toList)]

/-! ## The text of entries that need no escaping -/

/-- The text of one entry whose key and value need no escaping: the key and the
value between double quotes, a colon in between. -/
def entryText (k v : List Char) : List Char :=
  quoteChar :: (k ++ quoteChar :: colonChar :: quoteChar :: (v ++ [quoteChar]))

/-- The text of a sequence of entries, each given with the separator written before
it. -/
def segmentsText : List (List Char × List Char × List Char) → List Char
  | [] => []
  | t :: rest => t.1 ++ entryText t.2.1 t.2.2 ++ segmentsText rest

/-- The entries of a map with their separators: `sep` before the first entry, a
comma before each of the others. -/
def withSeparators : List Char → List (List Char × List Char) →
    List (List Char × List Char × List Char)
  | _, [] => []
  | sep, kv :: rest => (sep, kv.1, kv.2) :: withSeparators [commaChar] rest

/-! # Lemmas -/

/-! ## Comparisons and differences of `double` values -/

namespace Double

theorem lt_iff (a b : Double) : a < b ↔ lt a b = true := Iff.rfl

theorem le_iff (a b : Double) : a ≤ b ↔ le a b = true := Iff.rfl

theorem sub_eq (a b : Double) : a - b = sub a b := rfl

theorem fin_lt_fin (p q : ℚ) : fin p < fin q ↔ p < q := by
  simp [lt_iff, lt]

theorem fin_le_fin (p q : ℚ) : fin p ≤ fin q ↔ p ≤ q := by
  simp [le_iff, le]

theorem not_nan_lt (a : Double) : ¬ nan < a := by
  simp [lt_iff, lt]

theorem not_lt_nan (a : Double) : ¬ a < nan := by
  cases a <;> simp [lt_iff, lt]

theorem not_nan_le (a : Double) : ¬ nan ≤ a := by
  simp [le_iff, le]

theorem not_le_nan (a : Double) : ¬ a ≤ nan := by
  cases a <;> simp [le_iff, le]

theorem isNaN_of_lt {a b : Double} (h : a < b) : a.isNaN = false ∧ b.isNaN = false := by
  cases a <;> cases b <;> simp_all [lt_iff, lt, isNaN]

theorem isNaN_of_le {a b : Double} (h : a ≤ b) : a.isNaN = false ∧ b.isNaN = false := by
  cases a <;> cases b <;> simp_all [le_iff, le, isNaN]

theorem lt_irrefl (a : Double) : ¬ a < a := by
  rcases a with _ | n | p
  · simp [lt_iff, lt]
  · cases n <;> simp [lt_iff, lt]
  · simp [lt_iff, lt]

theorem le_of_lt {a b : Double} (h : a < b) : a ≤ b := by
  rcases a with _ | n | p <;> rcases b with _ | m | q <;>
    simp_all [lt_iff, le_iff, lt, le]
  exact h.le

theorem not_lt_of_le {a b : Double} (h : a ≤ b) : ¬ b < a := by
  rcases a with _ | n | p <;> rcases b with _ | m | q <;>
    simp_all [lt_iff, le_iff, lt, le]
  cases n <;> cases m <;> simp_all

theorem not_le_of_lt {a b : Double} (h : a < b) : ¬ b ≤ a := fun h2 => not_lt_of_le h2 h

theorem lt_asymm {a b : Double} (h : a < b) : ¬ b < a := not_lt_of_le (le_of_lt h)

theorem le_of_not_lt {a b : Double} (ha : a.isNaN = false) (hb : b.isNaN = false)
    (h : ¬ a < b) : b ≤ a := by
  rcases a with _ | n | p <;> rcases b with _ | m | q <;>
    simp_all [lt_iff, le_iff, lt, le, isNaN]
  cases n <;> cases m <;> simp_all

theorem lt_of_not_le {a b : Double} (ha : a.isNaN = false) (hb : b.isNaN = false)
    (h : ¬ a ≤ b) : b < a := by
  rcases a with _ | n | p <;> rcases b with _ | m | q <;>
    simp_all [lt_iff, le_iff, lt, le, isNaN]

theorem lt_trans {a b c : Double} (h1 : a < b) (h2 : b < c) : a < c := by
  rcases a with _ | n | p <;> rcases b with _ | m | q <;> rcases c with _ | k | r <;>
    simp_all [lt_iff, lt]
  exact h1.trans h2

theorem le_trans {a b c : Double} (h1 : a ≤ b) (h2 : b ≤ c) : a ≤ c := by
  rcases a with _ | n | p <;> rcases b with _ | m | q <;> rcases c with _ | k | r <;>
    simp_all [le_iff, le]
  · cases n <;> cases m <;> cases k <;> simp_all
  · exact h1.trans h2

theorem lt_of_lt_of_le {a b c : Double} (h1 : a < b) (h2 : b ≤ c) : a < c := by
  rcases a with _ | n | p <;> rcases b with _ | m | q <;> rcases c with _ | k | r <;>
    simp_all [lt_iff, le_iff, lt, le]
  exact h1.trans_le h2

theorem lt_of_le_of_lt {a b c : Double} (h1 : a ≤ b) (h2 : b < c) : a < c := by
  rcases a with _ | n | p <;> rcases b with _ | m | q <;> rcases c with _ | k | r <;>
    simp_all [lt_iff, le_iff, lt, le]
  exact h1.trans_lt h2

theorem le_refl {a : Double} (ha : a.isNaN = false) : a ≤ a := by
  rcases a with _ | n | p <;> simp_all [le_iff, le, isNaN]

theorem eq_iff (a b : Double) : eq a b = true ↔ a = b ∧ a.isNaN = false := by
  rcases a with _ | n | p <;> rcases b with _ | m | q <;> simp [eq, isNaN]

theorem le_antisymm {a b : Double} (h1 : a ≤ b) (h2 : b ≤ a) : a = b := by
  rcases a with _ | n | p <;> rcases b with _ | m | q <;>
    simp_all [le_iff, le]
  · cases n <;> cases m <;> simp_all
  · exact h1.antisymm h2

theorem lt_or_eq_of_le {a b : Double} (h : a ≤ b) : a < b ∨ a = b := by
  by_cases h2 : b ≤ a
  · exact Or.inr (le_antisymm h h2)
  · exact Or.inl (lt_of_not_le (isNaN_of_le h).2 (isNaN_of_le h).1 h2)

end Double

namespace Double

theorem pow2_pos (k : Int) : 0 < pow2 k := by
  unfold pow2
  split
  · positivity
  · apply div_pos one_pos
    positivity

theorem roundMagnitude_nonneg (n d : Nat) : 0 ≤ roundMagnitude n d := by
  unfold roundMagnitude
  exact mul_nonneg (Nat.cast_nonneg _) (pow2_pos _).le

theorem ofRat_zero : ofRat 0 = fin 0 := by
  simp [ofRat]

theorem ofRat_isNaN (x : ℚ) : (ofRat x).isNaN = false := by
  unfold ofRat
  split_ifs <;> rfl

/-- Rounding is symmetric: the magnitude of the result depends on the magnitude of
the argument only. -/
theorem fabs_ofRat_neg (x : ℚ) : fabs (ofRat (-x)) = fabs (ofRat x) := by
  by_cases h0 : x = 0
  · rw [h0, neg_zero]
  · have hn0 : -x ≠ 0 := neg_ne_zero.mpr h0
    have hnum : (-x).num.natAbs = x.num.natAbs := by rw [Rat.neg_num, Int.natAbs_neg]
    have hden : (-x).den = x.den := Rat.neg_den x
    have hr := roundMagnitude_nonneg x.num.natAbs x.den
    unfold ofRat
    rw [if_neg hn0, if_neg h0, hnum, hden]
    by_cases hov : (2 : ℚ) ^ 1024 ≤ roundMagnitude x.num.natAbs x.den
    · rw [if_pos hov, if_pos hov]
      rfl
    · rw [if_neg hov, if_neg hov]
      by_cases hx : x < 0
      · have hx2 : ¬ -x < 0 := by linarith
        rw [if_pos hx, if_neg hx2]
        simp [fabs]
      · have hx2 : -x < 0 := by
          rcases lt_or_gt_of_ne h0 with h | h
          · exact absurd h hx
          · linarith
        rw [if_neg hx, if_pos hx2]
        simp [fabs]

/-- Rounding keeps the sign: a result above a positive value comes from a positive
argument. -/
theorem pos_of_le_ofRat {c x : ℚ} (hc : 0 < c) (h : fin c ≤ ofRat x) : 0 < x := by
  by_contra hx
  have hr := roundMagnitude_nonneg x.num.natAbs x.den
  unfold ofRat at h
  by_cases h0 : x = 0
  · rw [if_pos h0, fin_le_fin] at h
    linarith
  · have hneg : x < 0 := lt_of_le_of_ne (not_lt.mp hx) h0
    rw [if_neg h0] at h
    by_cases hov : (2 : ℚ) ^ 1024 ≤ roundMagnitude x.num.natAbs x.den
    · rw [if_pos hov] at h
      simp [le_iff, le, hneg] at h
    · rw [if_neg hov, if_pos hneg, fin_le_fin] at h
      linarith

theorem sub_fin_self (p : ℚ) : fin p - fin p = fin 0 := by
  show sub (fin p) (fin p) = fin 0
  simp [sub, ofRat_zero]

/-- The magnitude of a difference does not depend on the order of its terms. -/
theorem fabs_sub_comm (a b : Double) : fabs (a - b) = fabs (b - a) := by
  show fabs (sub a b) = fabs (sub b a)
  rcases a with _ | n | p <;> rcases b with _ | m | q
  · rfl
  · rfl
  · rfl
  · rfl
  · cases n <;> cases m <;> rfl
  · cases n <;> rfl
  · rfl
  · cases m <;> rfl
  · show fabs (ofRat (p - q)) = fabs (ofRat (q - p))
    rw [← fabs_ofRat_neg (q - p), neg_sub]

theorem sub_isNaN_fin (p q : ℚ) : (fin p - fin q).isNaN = false := ofRat_isNaN _

/-- A value that is at least `c` has a magnitude that is not below `c`. -/
theorem not_fabs_lt_of_le {c x : Double} (h : c ≤ x) : ¬ fabs x < c := by
  rcases c with _ | n | r <;> rcases x with _ | m | q <;>
    simp_all [lt_iff, le_iff, lt, le, fabs]
  exact h.trans (le_abs_self q)

/-- A difference of at least a positive value: the two terms are no NaN and the
first is the greater. -/
theorem lt_of_le_sub {c : ℚ} (hc : 0 < c) {a b : Double} (h : fin c ≤ b - a) : a < b := by
  rcases a with _ | n | p <;> rcases b with _ | m | q
  · exact absurd h (not_le_nan _)
  · exact absurd h (not_le_nan _)
  · exact absurd h (not_le_nan _)
  · exact absurd h (not_le_nan _)
  · cases n <;> cases m <;>
      first
      | exact absurd h (not_le_nan _)
      | rfl
      | exact absurd h (by simp [le_iff, le, sub_eq, sub])
  · cases n <;> first | rfl | exact absurd h (by simp [le_iff, le, sub_eq, sub])
  · exact absurd h (not_le_nan _)
  · cases m <;> first | rfl | exact absurd h (by simp [le_iff, le, sub_eq, sub])
  · rw [fin_lt_fin]
    have := pos_of_le_ofRat hc h
    linarith

end Double

/-! ## Rounding and the literal `1e-12` -/

namespace Double

theorem log2Loop_spec : ∀ (fuel n k : Nat), 1 ≤ n → n ≤ fuel →
    k ≤ log2Loop fuel n k ∧ 2 ^ (log2Loop fuel n k - k) ≤ n ∧
      n < 2 ^ (log2Loop fuel n k - k + 1)
  | 0, n, k, h1, h2 => absurd h2 (by omega)
  | fuel + 1, n, k, h1, h2 => by
    unfold log2Loop
    by_cases h : n < 2
    · rw [if_pos h]
      have h1n : n = 1 := by omega
      subst h1n
      simp
    · rw [if_neg h]
      obtain ⟨ha, hb, hc⟩ := log2Loop_spec fuel (n / 2) (k + 1) (by omega) (by omega)
      generalize log2Loop fuel (n / 2) (k + 1) = r at ha hb hc
      obtain ⟨j, rfl⟩ : ∃ j, r = k + 1 + j := ⟨r - (k + 1), by omega⟩
      have e1 : k + 1 + j - (k + 1) = j := by omega
      have e2 : k + 1 + j - k = j + 1 := by omega
      rw [e1] at hb hc
      rw [e2]
      refine ⟨by omega, ?_, ?_⟩
      · rw [pow_succ]
        omega
      · rw [pow_succ]
        omega

theorem log2_spec (n : Nat) (h : 1 ≤ n) : 2 ^ log2 n ≤ n ∧ n < 2 ^ (log2 n + 1) := by
  have := log2Loop_spec n n 0 h (Nat.le_refl n)
  simpa [log2] using this.2

theorem pow2_eq_zpow (k : Int) : pow2 k = (2 : ℚ) ^ k := by
  unfold pow2
  split
  · rename_i h
    obtain ⟨j, rfl⟩ := Int.eq_ofNat_of_zero_le h
    simp
  · rename_i h
    obtain ⟨j, hj⟩ : ∃ j : Nat, k = -(j : Int) := ⟨(-k).toNat, by omega⟩
    subst hj
    simp

/-- The binade of `n / d` is not above it. -/
theorem pow2_binade_le (n d : Nat) (hn : 1 ≤ n) (hd : 1 ≤ d) :
    (2 : ℚ) ^ binade n d ≤ (n : ℚ) / d := by
  have hdq : (0 : ℚ) < d := by exact_mod_cast hd
  obtain ⟨hn1, -⟩ := log2_spec n hn
  obtain ⟨-, hd2⟩ := log2_spec d hd
  have hn1q : (2 : ℚ) ^ (log2 n : Int) ≤ n := by
    rw [zpow_natCast]; exact_mod_cast hn1
  have hd2q : (d : ℚ) < (2 : ℚ) ^ ((log2 d : Int) + 1) := by
    have : (d : ℚ) < (2 : ℚ) ^ (log2 d + 1) := by exact_mod_cast hd2
    rw [← zpow_natCast] at this
    simpa using this
  have hlow : (2 : ℚ) ^ ((log2 n : Int) - (log2 d : Int) - 1) ≤ (n : ℚ) / d := by
    rw [le_div_iff₀ hdq]
    have h2 : (2 : ℚ) ^ ((log2 n : Int) - (log2 d : Int) - 1) * (2 : ℚ) ^ ((log2 d : Int) + 1)
        = (2 : ℚ) ^ (log2 n : Int) := by
      rw [← zpow_add₀ (by norm_num : (2 : ℚ) ≠ 0)]
      congr 1
      ring
    calc (2 : ℚ) ^ ((log2 n : Int) - (log2 d : Int) - 1) * d
        ≤ (2 : ℚ) ^ ((log2 n : Int) - (log2 d : Int) - 1) * (2 : ℚ) ^ ((log2 d : Int) + 1) :=
          mul_le_mul_of_nonneg_left hd2q.le (zpow_nonneg (by norm_num) _)
      _ = (2 : ℚ) ^ (log2 n : Int) := h2
      _ ≤ n := hn1q
  unfold binade
  simp only
  split_ifs with h1 h2 h3
  · rw [le_div_iff₀ hdq]
    obtain ⟨j, hj⟩ := Int.eq_ofNat_of_zero_le h1
    rw [hj] at h2 ⊢
    rw [zpow_natCast]
    simp only [Int.toNat_ofNat] at h2
    have : ((d * 2 ^ j : Nat) : ℚ) ≤ n := by exact_mod_cast h2
    push_cast at this
    linarith
  · exact hlow
  · rw [le_div_iff₀ hdq]
    obtain ⟨j, hj⟩ : ∃ j : Nat, (log2 n : Int) - (log2 d : Int) = -(j : Int) :=
      ⟨(-((log2 n : Int) - (log2 d : Int))).toNat, by omega⟩
    rw [hj] at h3 ⊢
    simp only [neg_neg, Int.toNat_ofNat] at h3
    have h4 : ((d : Nat) : ℚ) ≤ ((n * 2 ^ j : Nat) : ℚ) := by exact_mod_cast h3
    push_cast at h4
    rw [zpow_neg, zpow_natCast]
    have hpos : (0 : ℚ) < 2 ^ j := by positivity
    rw [inv_mul_le_iff₀ hpos]
    linarith
  · exact hlow

end Double

namespace Double

theorem zpow_eq_div (u : Int) :
    (2 : ℚ) ^ u = (2 : ℚ) ^ u.toNat / (2 : ℚ) ^ (-u).toNat := by
  rcases le_or_lt 0 u with h | h
  · obtain ⟨j, rfl⟩ := Int.eq_ofNat_of_zero_le h
    have : (-(j : Int)).toNat = 0 := by omega
    rw [this]
    simp
  · obtain ⟨j, hj⟩ : ∃ j : Nat, u = -(j : Int) := ⟨(-u).toNat, by omega⟩
    subst hj
    have : (-(j : Int)).toNat = 0 := by omega
    rw [this]
    simp

/-- The result of rounding `n / d` is at least every multiple `K * 2 ^ u` of the unit
in the last place that is not above `n / d`. -/
theorem mul_ulp_le_roundMagnitude (n d K : Nat) (hd : 1 ≤ d)
    (h : (K : ℚ) * (2 : ℚ) ^ (max (binade n d) (-1022) - 52) ≤ (n : ℚ) / d) :
    (K : ℚ) * (2 : ℚ) ^ (max (binade n d) (-1022) - 52) ≤ roundMagnitude n d := by
  unfold roundMagnitude
  simp only
  generalize max (binade n d) (-1022) - 52 = u at h ⊢
  rw [pow2_eq_zpow]
  apply mul_le_mul_of_nonneg_right _ (zpow_nonneg (by norm_num) _)
  have hdq : (0 : ℚ) < d := by exact_mod_cast hd
  have hden : 0 < d * 2 ^ u.toNat := by positivity
  have hK : K ≤ n * 2 ^ (-u).toNat / (d * 2 ^ u.toNat) := by
    rw [Nat.le_div_iff_mul_le hden]
    rw [zpow_eq_div] at h
    have hQ : (0 : ℚ) < 2 ^ (-u).toNat := by positivity
    have h4 := mul_le_mul_of_nonneg_right ((le_div_iff₀ hdq).mp h) hQ.le
    have h5 : (K : ℚ) * (2 ^ u.toNat / 2 ^ (-u).toNat) * d * 2 ^ (-u).toNat
        = K * (d * 2 ^ u.toNat) := by
      field_simp
      ring
    rw [h5] at h4
    have h2 : ((K * (d * 2 ^ u.toNat) : Nat) : ℚ) ≤ ((n * 2 ^ (-u).toNat : Nat) : ℚ) := by
      push_cast
      exact h4
    exact_mod_cast h2
  have hm : n * 2 ^ (-u).toNat / (d * 2 ^ u.toNat) ≤
      (if 2 * (n * 2 ^ (-u).toNat % (d * 2 ^ u.toNat)) < d * 2 ^ u.toNat then
        n * 2 ^ (-u).toNat / (d * 2 ^ u.toNat)
      else if d * 2 ^ u.toNat < 2 * (n * 2 ^ (-u).toNat % (d * 2 ^ u.toNat)) then
        n * 2 ^ (-u).toNat / (d * 2 ^ u.toNat) + 1
      else if n * 2 ^ (-u).toNat / (d * 2 ^ u.toNat) % 2 = 0 then
        n * 2 ^ (-u).toNat / (d * 2 ^ u.toNat)
      else n * 2 ^ (-u).toNat / (d * 2 ^ u.toNat) + 1) := by
    split_ifs <;> omega
  exact_mod_cast hK.trans hm

/-- Rounding does not take a value that is at least `1e-12` below `1e-12`. -/
theorem lit1em12_le_roundMagnitude (n d : Nat) (hn : 1 ≤ n) (hd : 1 ≤ d)
    (h : (4951760157141521 : ℚ) / 2 ^ 92 ≤ (n : ℚ) / d) :
    (4951760157141521 : ℚ) / 2 ^ 92 ≤ roundMagnitude n d := by
  have hb := pow2_binade_le n d hn hd
  rcases le_or_lt (max (binade n d) (-1022) - 52) (-92) with hu | hu
  · -- the unit in the last place is at most that of `1e-12`
    obtain ⟨j, hj⟩ : ∃ j : Nat, max (binade n d) (-1022) - 52 = -92 - (j : Int) :=
      ⟨(-92 - (max (binade n d) (-1022) - 52)).toNat, by omega⟩
    have hK : ((4951760157141521 * 2 ^ j : Nat) : ℚ) *
        (2 : ℚ) ^ (max (binade n d) (-1022) - 52) = 4951760157141521 / 2 ^ 92 := by
      rw [hj, sub_eq_add_neg, zpow_add₀ (by norm_num : (2 : ℚ) ≠ 0), zpow_neg, zpow_neg,
        zpow_natCast]
      push_cast
      have : (2 : ℚ) ^ j ≠ 0 := by positivity
      field_simp
      ring
    have := mul_ulp_le_roundMagnitude n d (4951760157141521 * 2 ^ j) hd (by rw [hK]; exact h)
    rw [hK] at this
    exact this
  · -- the value is in a binade above that of `1e-12`
    have he : max (binade n d) (-1022) = binade n d := by
      apply max_eq_left
      omega
    have hK : ((2 ^ 52 : Nat) : ℚ) * (2 : ℚ) ^ (max (binade n d) (-1022) - 52)
        = (2 : ℚ) ^ binade n d := by
      rw [he, sub_eq_add_neg, zpow_add₀ (by norm_num : (2 : ℚ) ≠ 0)]
      push_cast
      have h52 : (2 : ℚ) ^ (-52 : Int) = 1 / 4503599627370496 := by norm_num
      rw [h52]
      ring
    have := mul_ulp_le_roundMagnitude n d (2 ^ 52) hd (by rw [hK]; exact hb)
    rw [hK] at this
    have h39 : (2 : ℚ) ^ (-39 : Int) ≤ (2 : ℚ) ^ binade n d :=
      zpow_le_zpow_right₀ (by norm_num) (by omega)
    have hc : (4951760157141521 : ℚ) / 2 ^ 92 ≤ (2 : ℚ) ^ (-39 : Int) := by norm_num
    exact (hc.trans h39).trans this

/-- Two finite prices that differ by at least the value of the literal `1e-12` pass
the program's test `fabs(p - q) >= 1e-12`: the rounding of the difference does not
take it below the literal. -/
theorem lit1em12_le_fabs_sub (p q : ℚ) (h : (4951760157141521 : ℚ) / 2 ^ 92 ≤ |p - q|) :
    fin (4951760157141521 / 2 ^ 92) ≤ fabs (fin p - fin q) := by
  show fin (4951760157141521 / 2 ^ 92) ≤ fabs (ofRat (p - q))
  have hx0 : p - q ≠ 0 := by
    intro h0
    rw [h0, abs_zero] at h
    norm_num at h
  have hnum : 1 ≤ (p - q).num.natAbs := by
    have : (p - q).num ≠ 0 := Rat.num_ne_zero.mpr hx0
    omega
  have hden : 1 ≤ (p - q).den := (p - q).den_pos
  have habs : |p - q| = ((p - q).num.natAbs : ℚ) / (p - q).den := by
    rw [Rat.abs_def, Rat.divInt_eq_div, Int.cast_natCast, Int.cast_natCast]
  rw [habs] at h
  have hr := lit1em12_le_roundMagnitude _ _ hnum hden h
  have hr0 := roundMagnitude_nonneg (p - q).num.natAbs (p - q).den
  unfold ofRat
  rw [if_neg hx0]
  split_ifs
  · rfl
  · show fin _ ≤ fin |_|
    rw [fin_le_fin, abs_neg, abs_of_nonneg hr0]
    exact hr
  · show fin _ ≤ fin |_|
    rw [fin_le_fin, abs_of_nonneg hr0]
    exact hr

end Double

theorem lit1em12_eq : Double.ofRat (1 / 10 ^ 12) = lit1em12 := by
  decide!

theorem lit1e15_eq : Double.ofRat (10 ^ 15) = lit1e15 := by
  decide!

theorem lit1em12_pos : (0 : ℚ) < 4951760157141521 / 2 ^ 92 := by norm_num

/-- The prices used in the concrete orders below are values of the type `double`. -/
theorem example_prices_binary64 :
    ∀ p ∈ [Double.fin 0, Double.fin 1, Double.fin 7, Double.fin 48, Double.fin 49,
      Double.fin 50, Double.fin 51, Double.fin 60, Double.fin 100, Double.fin 101,
      Double.fin (2 * 10 ^ 15), Double.fin (1 + 3 / 2 ^ 42), Double.fin (1 + 6 / 2 ^ 42),
      Double.fin (50 + 1 / 2 ^ 41), lit1em12, lit1e15], p.isBinary64 = true := by
  decide!


/-! ## The heap operations permute the vector -/

section HeapLemmas
variable {α : Type}

theorem swapAt_getElem? (l : List α) (i j k : Nat) (a b : α)
    (ha : l[i]? = some a) (hb : l[j]? = some b) :
    (swapAt l i j)[k]? = if k = j then some a else if k = i then some b else l[k]? := by
  obtain ⟨hi, -⟩ := List.getElem?_eq_some.mp ha
  obtain ⟨hj, -⟩ := List.getElem?_eq_some.mp hb
  simp only [swapAt, ha, hb]
  by_cases hkj : k = j
  · subst hkj
    simp [List.getElem?_set, hj]
  · by_cases hki : k = i
    · subst hki
      simp [List.getElem?_set, hi, hkj, Ne.symm hkj]
    · simp [List.getElem?_set, hkj, hki, Ne.symm hkj, Ne.symm hki]

theorem swapAt_length (l : List α) (i j : Nat) : (swapAt l i j).length = l.length := by
  unfold swapAt
  split <;> simp

theorem swapAt_perm (l : List α) (i j : Nat) : (swapAt l i j).Perm l := by
  classical
  unfold swapAt
  split
  · rename_i a b ha hb
    obtain ⟨hi, rfl⟩ := List.getElem?_eq_some.mp ha
    obtain ⟨hj, rfl⟩ := List.getElem?_eq_some.mp hb
    rw [List.perm_iff_count]
    intro x
    have hj2 : j < (l.set i l[j]).length := by simpa using hj
    rw [List.count_set _ _ _ _ hj2, List.count_set _ _ _ _ hi]
    have hpos : ∀ k (hk : k < l.length), (l[k] == x) = true → 0 < l.count x := by
      intro k hk h
      have hx := eq_of_beq h
      subst hx
      exact List.count_pos_iff.mpr (List.getElem_mem _)
    have hpi := hpos i hi
    have hpj := hpos j hj
    by_cases hij : i = j
    · subst hij
      simp only [List.getElem_set_self]
      by_cases h1 : (l[i] == x) = true
      · have := hpi h1
        simp only [h1, if_true]
        omega
      · simp [h1]
    · rw [List.getElem_set_ne hij]
      by_cases h1 : (l[i] == x) = true <;> by_cases h2 : (l[j] == x) = true
      · have := hpi h1
        simp only [h1, h2, if_true]
        omega
      · have := hpi h1
        simp only [h1, h2, if_true]
        simp
        omega
      · have := hpj h2
        simp only [h1, h2, if_true]
        simp
      · simp [h1, h2]
  · exact List.Perm.refl _

theorem siftUp_perm (comp : α → α → Bool) (fuel : Nat) (l : List α) (i : Nat) :
    (siftUp comp fuel l i).Perm l := by
  induction fuel generalizing l i with
  | zero => exact List.Perm.refl _
  | succ n ih =>
    simp only [siftUp]
    split
    · exact List.Perm.refl _
    · split
      · split
        · exact (ih _ _).trans (swapAt_perm _ _ _)
        · exact List.Perm.refl _
      · exact List.Perm.refl _

theorem sinkToLeaf_perm (comp : α → α → Bool) (fuel : Nat) (l : List α) (i : Nat) :
    (sinkToLeaf comp fuel l i).1.Perm l := by
  induction fuel generalizing l i with
  | zero => exact List.Perm.refl _
  | succ n ih =>
    simp only [sinkToLeaf]
    split
    · split
      · exact (ih _ _).trans (swapAt_perm _ _ _)
      · exact (ih _ _).trans (swapAt_perm _ _ _)
    · exact swapAt_perm _ _ _
    · exact List.Perm.refl _

theorem heapPush_perm (comp : α → α → Bool) (l : List α) (x : α) :
    (heapPush comp l x).Perm (x :: l) := by
  unfold heapPush
  exact (siftUp_perm _ _ _ _).trans (List.perm_append_comm.trans (List.Perm.refl _))

theorem heapPop_perm (comp : α → α → Bool) (t : α) (l : List α) :
    (t :: heapPop comp (t :: l)).Perm (t :: l) := by
  unfold heapPop
  cases hlast : (t :: l).getLast? with
  | none => simp at hlast
  | some v =>
    simp only
    refine ((siftUp_perm _ _ _ _).trans (sinkToLeaf_perm _ _ _ _)).cons t |>.trans ?_
    obtain ⟨ys, hys⟩ := List.getLast?_eq_some_iff.mp hlast
    rw [hys, List.dropLast_concat]
    cases ys with
    | nil =>
      simp at hys
      simp [hys.1]
    | cons y ys' =>
      simp only [List.cons_append, List.cons.injEq] at hys
      rw [hys.1]
      simp only [List.set_cons_zero, List.cons_append]
      refine List.Perm.cons _ ?_
      exact @List.perm_append_comm _ [v] ys'

end HeapLemmas

/-! ## The heap operations keep the heap order -/

section HeapOrder
variable {α : Type}

theorem isHeap_iff (comp : α → α → Bool) (l : List α) :
    isHeap comp l = true ↔ HeapOrdered comp l := by
  unfold isHeap HeapOrdered
  rw [List.all_eq_true]
  constructor
  · intro h i p v hi hp hv
    have hlt : i < l.length := (List.getElem?_eq_some.mp hv).1
    have := h i (List.mem_range.mpr hlt)
    simp only [hp, hv] at this
    have hi0 : (i == 0) = false := by simp; omega
    simpa [hi0] using this
  · intro h i _
    split
    · rename_i p v hp hv
      by_cases hi : i = 0
      · simp [hi]
      · have := h i p v (by omega) hp hv
        simp [this]
    · rfl

theorem swapAt_forall (P : α → Prop) (l : List α) (i j : Nat) (h : ∀ x ∈ l, P x) :
    ∀ x ∈ swapAt l i j, P x :=
  fun x hx => h x ((swapAt_perm l i j).mem_iff.mp hx)

theorem siftUp_heapOrdered {comp : α → α → Bool} {P : α → Prop} (hw : WeakOrderOn comp P) :
    ∀ (fuel : Nat) (l : List α) (k : Nat), k ≤ fuel → (∀ x ∈ l, P x) → ClimbInv comp l k →
      HeapOrdered comp (siftUp comp fuel l k) := by
  intro fuel
  induction fuel with
  | zero =>
    intro l k hk _ hinv i p v hi hp hv
    exact hinv.1 i p v hi (by omega) hp hv
  | succ n ih =>
    intro l k hk hP hinv
    simp only [siftUp]
    split
    · rename_i hk0
      intro i p v hi hp hv
      exact hinv.1 i p v hi (by omega) hp hv
    · rename_i hk0
      split
      · rename_i p v hp hv
        have hPp : P p := hP p (List.getElem?_mem hp)
        have hPv : P v := hP v (List.getElem?_mem hv)
        split
        · rename_i hcomp
          apply ih _ _ (by omega) (swapAt_forall P l _ _ hP)
          constructor
          · intro i p' v' hi hik hp' hv'
            rw [swapAt_getElem? l _ _ _ p v hp hv] at hp' hv'
            by_cases h1 : i = k
            · subst h1
              have hne : (i - 1) / 2 ≠ i := by omega
              simp [hne] at hp' hv'
              subst hp' hv'
              exact hw.asymm _ _ hPp hPv hcomp
            · simp only [h1, hik, if_false] at hv'
              have hPv' : P v' := hP v' (List.getElem?_mem hv')
              by_cases h2 : (i - 1) / 2 = k
              · simp only [h2, if_true, Option.some.injEq] at hp'
                subst hp'
                exact hinv.2 i p v' (by omega) hi h2 hp hv'
              · by_cases h3 : (i - 1) / 2 = (k - 1) / 2
                · have hkk : (k - 1) / 2 ≠ k := by omega
                  simp only [h3, hkk, if_true, if_false, Option.some.injEq] at hp'
                  subst hp'
                  have h4 : comp p v' = false := hinv.1 i p v' hi h1 (h3 ▸ hp) hv'
                  exact hw.trans _ _ _ hPv hPp hPv' (hw.asymm _ _ hPp hPv hcomp) h4
                · simp only [h2, h3, if_false] at hp'
                  exact hinv.1 i p' v' hi h1 hp' hv'
          · intro i g v' hpk hi hpar hg hv'
            rw [swapAt_getElem? l _ _ _ p v hp hv] at hg hv'
            have hg1 : ((k - 1) / 2 - 1) / 2 ≠ k := by omega
            have hg2 : ((k - 1) / 2 - 1) / 2 ≠ (k - 1) / 2 := by omega
            simp only [hg1, hg2, if_false] at hg
            have hPg : P g := hP g (List.getElem?_mem hg)
            have h5 : comp g p = false :=
              hinv.1 ((k - 1) / 2) g p hpk (by omega) hg hp
            by_cases h1 : i = k
            · simp only [h1, if_true, Option.some.injEq] at hv'
              subst hv'
              exact h5
            · have h2 : i ≠ (k - 1) / 2 := by omega
              simp only [h1, h2, if_false] at hv'
              have hPv' : P v' := hP v' (List.getElem?_mem hv')
              have h6 : comp p v' = false := hinv.1 i p v' hi h1 (hpar ▸ hp) hv'
              exact hw.trans _ _ _ hPg hPp hPv' h5 h6
        · rename_i hcomp
          intro i p' v' hi hp' hv'
          by_cases h1 : i = k
          · subst h1
            rw [hp] at hp'
            rw [hv] at hv'
            simp only [Option.some.injEq] at hp' hv'
            subst hp' hv'
            simpa using hcomp
          · exact hinv.1 i p' v' hi h1 hp' hv'
      · rename_i hnone
        intro i p' v' hi hp' hv'
        by_cases h1 : i = k
        · subst h1
          exact absurd hv' (by intro h; exact hnone p' v' hp' h)
        · exact hinv.1 i p' v' hi h1 hp' hv'

end HeapOrder

section HeapOrder2
variable {α : Type}

theorem heapPush_heapOrdered {comp : α → α → Bool} {P : α → Prop} (hw : WeakOrderOn comp P)
    (l : List α) (x : α) (hl : HeapOrdered comp l) (hP : ∀ y ∈ l, P y) (hx : P x) :
    HeapOrdered comp (heapPush comp l x) := by
  unfold heapPush
  apply siftUp_heapOrdered hw _ _ _ (Nat.le_refl _)
  · intro y hy
    rcases List.mem_append.mp hy with h | h
    · exact hP y h
    · simp at h
      exact h ▸ hx
  · constructor
    · intro i p v hi hik hp hv
      have hlt : i < (l ++ [x]).length := (List.getElem?_eq_some.mp hv).1
      simp at hlt
      have hi2 : i < l.length := by omega
      rw [List.getElem?_append_left (by omega)] at hp
      rw [List.getElem?_append_left hi2] at hv
      exact hl i p v hi hp hv
    · intro i g v _ hi hpar _ hv
      have hlt : i < (l ++ [x]).length := (List.getElem?_eq_some.mp hv).1
      simp at hlt
      omega

theorem sinkToLeaf_climbInv {comp : α → α → Bool} {P : α → Prop} (hw : WeakOrderOn comp P) :
    ∀ (fuel : Nat) (l : List α) (k : Nat), l.length ≤ k + fuel → (∀ x ∈ l, P x) →
      SinkInv comp l k →
      ClimbInv comp (sinkToLeaf comp fuel l k).1 (sinkToLeaf comp fuel l k).2 := by
  intro fuel
  induction fuel with
  | zero =>
    intro l k hlen _ hinv
    simp only [sinkToLeaf]
    constructor
    · intro i p v hi hik hp hv
      have hlt : i < l.length := (List.getElem?_eq_some.mp hv).1
      exact hinv.1 i p v hi hik (by omega) hp hv
    · intro i g v _ hi hpar _ hv
      have hlt : i < l.length := (List.getElem?_eq_some.mp hv).1
      omega
  | succ n ih =>
    intro l k hlen hP hinv
    simp only [sinkToLeaf]
    split
    · rename_i lc rc hlc hrc
      have hk : k < l.length := by
        have := (List.getElem?_eq_some.mp hlc).1
        omega
      have hv : l[k]? = some l[k] := List.getElem?_eq_getElem hk
      have hPl : P lc := hP lc (List.getElem?_mem hlc)
      have hPr : P rc := hP rc (List.getElem?_mem hrc)
      -- the step is the same for either child `c`, given that the sibling is not above it
      have step : ∀ (c s : Nat) (vc vs : α), (c = 2 * k + 1 ∧ s = 2 * k + 2 ∨
          c = 2 * k + 2 ∧ s = 2 * k + 1) → l[c]? = some vc → l[s]? = some vs →
          comp vc vs = false → SinkInv comp (swapAt l k c) c := by
        intro c s vc vs hcs hc hs hcomp
        constructor
        · intro i p' v' hi hic hpc hp' hv'
          rw [swapAt_getElem? l _ _ _ _ _ hv hc] at hp' hv'
          simp only [hpc, hic, if_false] at hp' hv'
          by_cases h1 : i = k
          · subst h1
            have hne : (i - 1) / 2 ≠ i := by omega
            simp only [hne, if_true, if_false, Option.some.injEq] at hp' hv'
            subst hv'
            exact hinv.2 c p' vc hi (by omega) (by omega) hp' hc
          · simp only [h1, if_false] at hv'
            by_cases h2 : (i - 1) / 2 = k
            · simp only [h2, if_true, Option.some.injEq] at hp'
              subst hp'
              have : i = s := by omega
              subst this
              rw [hs] at hv'
              simp only [Option.some.injEq] at hv'
              subst hv'
              exact hcomp
            · simp only [h2, if_false] at hp'
              exact hinv.1 i p' v' hi h1 h2 hp' hv'
        · intro i g v' hc0 hi hpar hg hv'
          rw [swapAt_getElem? l _ _ _ _ _ hv hc] at hg hv'
          have hck : (c - 1) / 2 = k := by omega
          have h1 : i ≠ c := by omega
          have h2 : i ≠ k := by omega
          have h3 : k ≠ c := by omega
          simp only [hck, h1, h2, h3, if_true, if_false, Option.some.injEq] at hg hv'
          subst hg
          exact hinv.1 i vc v' hi h2 (by omega) (by rw [hpar]; exact hc) hv'
      split
      · rename_i hcomp
        apply ih _ _ (by rw [swapAt_length]; omega) (swapAt_forall P l _ _ hP)
        exact step _ _ lc rc (Or.inl ⟨rfl, rfl⟩) hlc hrc (hw.asymm _ _ hPr hPl hcomp)
      · rename_i hcomp
        apply ih _ _ (by rw [swapAt_length]; omega) (swapAt_forall P l _ _ hP)
        exact step _ _ rc lc (Or.inr ⟨rfl, rfl⟩) hrc hlc (by simpa using hcomp)
    · rename_i lc hlc hrc
      have hk : k < l.length := by
        have := (List.getElem?_eq_some.mp hlc).1
        omega
      have hv : l[k]? = some l[k] := List.getElem?_eq_getElem hk
      have hlen2 : l.length ≤ 2 * k + 2 := List.getElem?_eq_none_iff.mp hrc
      constructor
      · intro i p' v' hi hic hp' hv'
        have hlt : i < l.length := by
          have := (List.getElem?_eq_some.mp hv').1
          rwa [swapAt_length] at this
        rw [swapAt_getElem? l _ _ _ _ _ hv hlc] at hp' hv'
        have hpc : (i - 1) / 2 ≠ 2 * k + 1 := by omega
        simp only [hpc, hic, if_false] at hp' hv'
        by_cases h1 : i = k
        · subst h1
          have hne : (i - 1) / 2 ≠ i := by omega
          simp only [hne, if_true, if_false, Option.some.injEq] at hp' hv'
          subst hv'
          exact hinv.2 (2 * i + 1) p' lc hi (by omega) (by omega) hp' hlc
        · simp only [h1, if_false] at hv'
          have h2 : (i - 1) / 2 ≠ k := by omega
          simp only [h2, if_false] at hp'
          exact hinv.1 i p' v' hi h1 h2 hp' hv'
      · intro i g v' _ hi hpar _ hv'
        have hlt : i < l.length := by
          have := (List.getElem?_eq_some.mp hv').1
          rwa [swapAt_length] at this
        omega
    · rename_i hlc
      have hlen2 : l.length ≤ 2 * k + 1 := List.getElem?_eq_none_iff.mp hlc
      constructor
      · intro i p v hi hik hp hv
        have hlt : i < l.length := (List.getElem?_eq_some.mp hv).1
        exact hinv.1 i p v hi hik (by omega) hp hv
      · intro i g v _ hi hpar _ hv
        have hlt : i < l.length := (List.getElem?_eq_some.mp hv).1
        omega

theorem heapPop_heapOrdered {comp : α → α → Bool} {P : α → Prop} (hw : WeakOrderOn comp P)
    (l : List α) (hl : HeapOrdered comp l) (hP : ∀ y ∈ l, P y) :
    HeapOrdered comp (heapPop comp l) := by
  unfold heapPop
  cases hlast : l.getLast? with
  | none => exact hl
  | some v =>
    simp only
    obtain ⟨ys, hys⟩ := List.getLast?_eq_some_iff.mp hlast
    subst hys
    rw [List.dropLast_concat]
    have hPm : ∀ x ∈ ys.set 0 v, P x := by
      intro x hx
      rcases List.mem_or_eq_of_mem_set hx with h | h
      · exact hP x (List.mem_append_left _ h)
      · exact h ▸ hP v (by simp)
    have hsink : SinkInv comp (ys.set 0 v) 0 := by
      constructor
      · intro i p w hi _ hpar hp hw'
        have hlt : i < ys.length := by
          have := (List.getElem?_eq_some.mp hw').1
          simpa using this
        rw [List.getElem?_set_ne (by omega)] at hp hw'
        apply hl i p w hi
        · rw [List.getElem?_append_left (by omega)]; exact hp
        · rw [List.getElem?_append_left hlt]; exact hw'
      · intro i g w h0
        omega
    have hclimb := sinkToLeaf_climbInv hw ys.length (ys.set 0 v) 0 (by simp) hPm hsink
    apply siftUp_heapOrdered hw _ _ _ (Nat.le_refl _) _ hclimb
    intro x hx
    exact hPm x ((sinkToLeaf_perm comp _ _ _).mem_iff.mp hx)

theorem heapOrdered_top_max {comp : α → α → Bool} {P : α → Prop} (hw : WeakOrderOn comp P)
    (l : List α) (hl : HeapOrdered comp l) (hP : ∀ y ∈ l, P y) (t : α) (ht : l.head? = some t) :
    ∀ v ∈ l, comp t v = false := by
  have ht0 : l[0]? = some t := by rw [← List.head?_eq_getElem?]; exact ht
  have hPt : P t := hP t (List.getElem?_mem ht0)
  have key : ∀ (n i : Nat) (v : α), i ≤ n → l[i]? = some v → comp t v = false := by
    intro n
    induction n with
    | zero =>
      intro i v hi hv
      have : i = 0 := by omega
      subst this
      rw [ht0] at hv
      simp only [Option.some.injEq] at hv
      subst hv
      cases h : comp t t with
      | false => rfl
      | true => exact (hw.asymm t t hPt hPt h).symm.trans h |>.symm ▸ rfl
    | succ n ih =>
      intro i v hi hv
      by_cases hi0 : i = 0
      · exact ih i v (by omega) hv
      · have hlt : i < l.length := (List.getElem?_eq_some.mp hv).1
        cases hq : l[(i - 1) / 2]? with
        | none =>
          have := List.getElem?_eq_none_iff.mp hq
          omega
        | some q =>
          have h1 := ih ((i - 1) / 2) q (by omega) hq
          have h2 := hl i q v (by omega) hq hv
          exact hw.trans _ _ _ hPt (hP _ (List.getElem?_mem hq)) (hP _ (List.getElem?_mem hv)) h1 h2
  intro v hv
  obtain ⟨i, hi⟩ := List.mem_iff_getElem?.mp hv
  exact key i i v (Nat.le_refl _) hi

end HeapOrder2

/-! ## The crossing loops are instances of `crossLoop` -/

theorem matchBuyLoop_eq_crossLoop (fuel : Nat) (buyOrder : Order) (sells : List Order) :
    matchBuyLoop fuel buyOrder sells
      = crossLoop SellOrderComparator (buyStops buyOrder) fuel buyOrder sells := by
  induction fuel generalizing buyOrder sells with
  | zero => rfl
  | succ n ih =>
    simp only [matchBuyLoop, crossLoop]
    split
    · split
      · rfl
      · rename_i top _
        by_cases hs : (if buyOrder.type = "market" then lit1e15 else buyOrder.price) < top.price
        · simp [buyStops, hs]
        · simp only [buyStops, hs, if_false, decide_False]
          rw [ih]
          simp only [fillTop, requeue, buyStops]
          split <;> simp_all <;> rfl
    · rfl

theorem matchSellLoop_eq_crossLoop (fuel : Nat) (sellOrder : Order) (buys : List Order) :
    matchSellLoop fuel sellOrder buys
      = crossLoop BuyOrderComparator (sellStops sellOrder) fuel sellOrder buys := by
  induction fuel generalizing sellOrder buys with
  | zero => rfl
  | succ n ih =>
    simp only [matchSellLoop, crossLoop]
    split
    · split
      · rfl
      · rename_i top _
        by_cases hs :
            top.price < (if sellOrder.type = "market" then Double.fin 0 else sellOrder.price)
        · simp [sellStops, hs]
        · simp only [sellStops, hs, if_false, decide_False]
          rw [ih]
          simp only [fillTop, requeue, sellStops]
          split <;> simp_all <;> rfl
    · rfl

/-! ## Lemmas on the crossing loop -/

theorem heapPop_mem (comp : Order → Order → Bool) (q : List Order) (x : Order)
    (h : x ∈ heapPop comp q) : x ∈ q := by
  cases q with
  | nil => simp [heapPop] at h
  | cons t l => exact (heapPop_perm comp t l).mem_iff.mp (List.mem_cons_of_mem _ h)

theorem heapPop_length (comp : Order → Order → Bool) (t : Order) (l : List Order) :
    (heapPop comp (t :: l)).length = l.length := by
  have := (heapPop_perm comp t l).length_eq
  simpa using this

theorem fillTop_remainingQuantity (top : Order) (tq : Nat) :
    (fillTop top tq).remainingQuantity = top.remainingQuantity - tq := by
  unfold fillTop
  split <;> rfl

theorem fillTop_of_pos (top : Order) (tq : Nat) (h : 0 < top.remainingQuantity - tq) :
    fillTop top tq = { top with remainingQuantity := top.remainingQuantity - tq,
                                status := "partially_filled" } := by
  unfold fillTop
  rw [if_neg (by omega)]

theorem requeue_perm_pos (comp : Order → Order → Bool) (q : List Order) (top : Order) (tq : Nat)
    (hq : q.head? = some top) (h : 0 < top.remainingQuantity - tq) :
    (top :: requeue comp q top tq).Perm (fillTop top tq :: q) := by
  obtain ⟨l, rfl⟩ := List.head?_eq_some_iff.mp hq
  unfold requeue
  rw [if_pos (by rw [fillTop_remainingQuantity]; exact h)]
  refine ((heapPush_perm comp _ _).cons top).trans ?_
  refine (List.Perm.swap _ _ _).trans ?_
  exact (heapPop_perm comp top l).cons _

theorem requeue_perm_zero (comp : Order → Order → Bool) (q : List Order) (top : Order) (tq : Nat)
    (hq : q.head? = some top) (h : top.remainingQuantity - tq = 0) :
    (top :: requeue comp q top tq).Perm q := by
  obtain ⟨l, rfl⟩ := List.head?_eq_some_iff.mp hq
  unfold requeue
  rw [if_neg (by rw [fillTop_remainingQuantity]; omega)]
  exact heapPop_perm comp top l

theorem requeue_mem (comp : Order → Order → Bool) (q : List Order) (top : Order) (tq : Nat)
    (hq : q.head? = some top) (x : Order) (hx : x ∈ requeue comp q top tq) :
    x ∈ q ∨ (0 < top.remainingQuantity - tq ∧ x = fillTop top tq) := by
  by_cases h : 0 < top.remainingQuantity - tq
  · have := (requeue_perm_pos comp q top tq hq h).mem_iff.mp (List.mem_cons_of_mem _ hx)
    rcases List.mem_cons.mp this with h1 | h1
    · exact Or.inr ⟨h, h1⟩
    · exact Or.inl h1
  · have := (requeue_perm_zero comp q top tq hq (by omega)).mem_iff.mp (List.mem_cons_of_mem _ hx)
    exact Or.inl this

theorem crossLoop_done (comp : Order → Order → Bool) (stops : Order → Bool) (fuel : Nat)
    (agg : Order) (q : List Order) (h : agg.remainingQuantity = 0) :
    crossLoop comp stops fuel agg q = (agg, q) := by
  cases fuel with
  | zero => rfl
  | succ n => simp [crossLoop, h]

/-- Invariant rule for the crossing loop: a property of the aggressor and the queue
that every trade keeps holds when the loop ends. -/
theorem crossLoop_induct (comp : Order → Order → Bool) (stops : Order → Bool)
    (I : Order → List Order → Prop)
    (hstep : ∀ agg q top, I agg q → 0 < agg.remainingQuantity → q.head? = some top →
      stops top = false →
      I { agg with remainingQuantity :=
            agg.remainingQuantity - min agg.remainingQuantity top.remainingQuantity }
        (requeue comp q top (min agg.remainingQuantity top.remainingQuantity))) :
    ∀ (fuel : Nat) (agg : Order) (q : List Order), I agg q →
      I (crossLoop comp stops fuel agg q).1 (crossLoop comp stops fuel agg q).2 := by
  intro fuel
  induction fuel with
  | zero => intro agg q h; exact h
  | succ n ih =>
    intro agg q h
    simp only [crossLoop]
    split
    · rename_i hpos
      split
      · exact h
      · rename_i top htop
        cases hs : stops top with
        | true => simpa using h
        | false =>
          simp only [Bool.false_eq_true, if_false]
          exact ih _ _ (hstep agg q top h hpos htop hs)
    · exact h

/-- The aggressor leaves the loop with every field but `remainingQuantity`
unchanged, and `remainingQuantity` not increased. -/
theorem crossLoop_aggressor (comp : Order → Order → Bool) (stops : Order → Bool) (fuel : Nat)
    (agg : Order) (q : List Order) :
    (crossLoop comp stops fuel agg q).1
        = { agg with remainingQuantity := (crossLoop comp stops fuel agg q).1.remainingQuantity } ∧
      (crossLoop comp stops fuel agg q).1.remainingQuantity ≤ agg.remainingQuantity := by
  refine crossLoop_induct comp stops
    (fun a _ => a = { agg with remainingQuantity := a.remainingQuantity } ∧
      a.remainingQuantity ≤ agg.remainingQuantity) ?_ fuel agg q ⟨rfl, Nat.le_refl _⟩
  intro a q' top h _ _ _
  refine ⟨?_, ?_⟩
  · simp only
    rw [h.1]
  · simp only
    have := h.2
    omega

/-- A property of resting orders that survives a partial fill holds on the queue
after the loop when it held before. -/
theorem crossLoop_forall (comp : Order → Order → Bool) (stops : Order → Bool) (R : Order → Prop)
    (hfill : ∀ t tq, R t → 0 < t.remainingQuantity - tq → R (fillTop t tq))
    (fuel : Nat) (agg : Order) (q : List Order) (hq : ∀ x ∈ q, R x) :
    ∀ x ∈ (crossLoop comp stops fuel agg q).2, R x := by
  refine crossLoop_induct comp stops (fun _ q' => ∀ x ∈ q', R x) ?_ fuel agg q hq
  intro a q' top h _ htop _ x hx
  rcases requeue_mem comp q' top _ htop x hx with h1 | ⟨h1, h2⟩
  · exact h x h1
  · rw [h2]
    exact hfill top _ (h top (List.mem_of_mem_head? htop)) h1

/-- Orders at which the price test stops the loop are neither removed nor changed. -/
theorem crossLoop_count (comp : Order → Order → Bool) (stops : Order → Bool)
    (hst : ∀ t tq, stops (fillTop t tq) = stops t)
    (fuel : Nat) (agg : Order) (q : List Order) (x : Order) (hx : stops x = true) :
    (crossLoop comp stops fuel agg q).2.count x = q.count x := by
  refine crossLoop_induct comp stops (fun _ q' => q'.count x = q.count x) ?_ fuel agg q rfl
  intro a q' top h _ htop hs
  have hne : top ≠ x := by
    intro he
    rw [he, hx] at hs
    exact Bool.noConfusion hs
  have hne2 : fillTop top (min a.remainingQuantity top.remainingQuantity) ≠ x := by
    intro he
    have := hst top (min a.remainingQuantity top.remainingQuantity)
    rw [he, hx, hs] at this
    exact Bool.noConfusion this
  rw [← h]
  by_cases hp : 0 < top.remainingQuantity - min a.remainingQuantity top.remainingQuantity
  · have := (requeue_perm_pos comp q' top _ htop hp).count_eq x
    simpa [List.count_cons, hne, hne2] using this
  · have hz : top.remainingQuantity - min a.remainingQuantity top.remainingQuantity = 0 := by
      omega
    have := (requeue_perm_zero comp q' top _ htop hz).count_eq x
    simpa [List.count_cons, hne] using this

/-- The fuel `q.length` is enough: the loop ends because its condition fails. -/
theorem crossLoop_exit (comp : Order → Order → Bool) (stops : Order → Bool) :
    ∀ (fuel : Nat) (agg : Order) (q : List Order), q.length ≤ fuel →
      (crossLoop comp stops fuel agg q).1.remainingQuantity = 0 ∨
      (crossLoop comp stops fuel agg q).2 = [] ∨
      ∃ t, (crossLoop comp stops fuel agg q).2.head? = some t ∧ stops t = true := by
  intro fuel
  induction fuel with
  | zero =>
    intro agg q hlen
    right; left
    simpa [crossLoop] using hlen
  | succ n ih =>
    intro agg q hlen
    simp only [crossLoop]
    split
    · split
      · rename_i hnone
        right; left
        simpa using hnone
      · rename_i top htop
        cases hs : stops top with
        | true =>
          right; right
          exact ⟨top, by simpa using htop, hs⟩
        | false =>
          simp only [Bool.false_eq_true, if_false]
          obtain ⟨l, rfl⟩ := List.head?_eq_some_iff.mp htop
          by_cases hlt : agg.remainingQuantity < top.remainingQuantity
          · left
            rw [crossLoop_done]
            · simp only
              omega
            · simp only
              omega
          · apply ih
            unfold requeue
            rw [if_neg (by rw [fillTop_remainingQuantity]; omega), heapPop_length]
            simpa using hlen
    · left
      show agg.remainingQuantity = 0
      omega

/-! ## The branches of the dispatch -/

theorem matchBuyOrder_eq (b : OrderBook) (o : Order) :
    matchBuyOrder b o = ({ b with m_sellOrders := (buyCross b o).2 }, (buyCross b o).1) := by
  simp only [matchBuyOrder, buyCross, matchBuyLoop_eq_crossLoop]

theorem matchSellOrder_eq (b : OrderBook) (o : Order) :
    matchSellOrder b o = ({ b with m_buyOrders := (sellCross b o).2 }, (sellCross b o).1) := by
  simp only [matchSellOrder, sellCross, matchSellLoop_eq_crossLoop]

theorem buyCross_aggressor (b : OrderBook) (o : Order) :
    (buyCross b o).1 = { o with remainingQuantity := (buyCross b o).1.remainingQuantity } ∧
      (buyCross b o).1.remainingQuantity ≤ o.remainingQuantity :=
  crossLoop_aggressor _ _ _ _ _

theorem sellCross_aggressor (b : OrderBook) (o : Order) :
    (sellCross b o).1 = { o with remainingQuantity := (sellCross b o).1.remainingQuantity } ∧
      (sellCross b o).1.remainingQuantity ≤ o.remainingQuantity :=
  crossLoop_aggressor _ _ _ _ _

/-- The fill-or-kill branch of `processOrder`. -/
theorem dispatchOrder_fok (b : OrderBook) (o : Order) (h : o.type = "fok") :
    dispatchOrder b o =
      if fokFeasible b o = true then
        (if o.isBuy = true then ({ b with m_sellOrders := (buyCross b o).2 }, (buyCross b o).1)
         else ({ b with m_buyOrders := (sellCross b o).2 }, (sellCross b o).1))
      else (b, { o with remainingQuantity := o.quantity, status := "fok_no_fill" }) := by
  have hne : ¬ o.type = "ioc" := by rw [h]; decide
  unfold dispatchOrder fokFeasible handleFOK
  rw [if_neg hne, if_pos h]
  simp only [matchBuyOrder_eq, matchSellOrder_eq]
  by_cases hb : o.isBuy = true
  · by_cases hf : fokScanBuy b.m_sellOrders.length o b.m_sellOrders 0 ≥ o.remainingQuantity
    · simp [hb, hf]
    · simp [hb, hf]
  · by_cases hf : fokScanSell b.m_buyOrders.length o b.m_buyOrders 0 ≥ o.remainingQuantity
    · simp [hb, hf]
    · simp [hb, hf]

/-- The immediate-or-cancel branch of `processOrder`. -/
theorem dispatchOrder_ioc (b : OrderBook) (o : Order) (h : o.type = "ioc") :
    dispatchOrder b o =
      ((if o.isBuy = true then { b with m_sellOrders := (buyCross b o).2 }
        else if o.isSell = true then { b with m_buyOrders := (sellCross b o).2 }
        else b),
       (if 0 < o.remainingQuantity then
          { (if o.isBuy = true then (buyCross b o).1
             else if o.isSell = true then (sellCross b o).1 else o) with remainingQuantity := 0 }
        else
          { (if o.isBuy = true then (buyCross b o).1
             else if o.isSell = true then (sellCross b o).1 else o) with
            remainingQuantity := 0
            status := if o.quantity = 0 then "executed" else "ioc_no_fill" })) := by
  have hbq : (buyCross b o).1.quantity = o.quantity := by rw [(buyCross_aggressor b o).1]
  have hsq : (sellCross b o).1.quantity = o.quantity := by rw [(sellCross_aggressor b o).1]
  unfold dispatchOrder handleIOC
  rw [if_pos h]
  simp only [matchBuyOrder_eq, matchSellOrder_eq]
  by_cases hb : o.isBuy = true
  · by_cases hq : 0 < o.remainingQuantity
    · simp [hb, hq]
    · simp [hb, hq, hbq]
  · by_cases hs : o.isSell = true
    · by_cases hq : 0 < o.remainingQuantity
      · simp [hb, hs, hq]
      · simp [hb, hs, hq, hsq]
    · by_cases hq : 0 < o.remainingQuantity
      · simp [hb, hs, hq]
      · simp [hb, hs, hq]

/-- The market/limit branch of `processOrder`, for a buy. -/
theorem dispatchOrder_buy (b : OrderBook) (o : Order) (h : o.type = "market" ∨ o.type = "limit")
    (hb : o.isBuy = true) :
    dispatchOrder b o =
      if 0 < (buyCross b o).1.remainingQuantity ∧ o.type = "limit" then
        ({ b with
            m_sellOrders := (buyCross b o).2
            m_buyOrders := heapPush BuyOrderComparator b.m_buyOrders (buyCross b o).1 },
          (buyCross b o).1)
      else if (buyCross b o).1.remainingQuantity = 0 then
        ({ b with m_sellOrders := (buyCross b o).2 }, { (buyCross b o).1 with status := "executed" })
      else if (buyCross b o).1.remainingQuantity < o.quantity then
        ({ b with m_sellOrders := (buyCross b o).2 },
          { (buyCross b o).1 with status := "partially_filled" })
      else ({ b with m_sellOrders := (buyCross b o).2 }, (buyCross b o).1) := by
  have hbq : (buyCross b o).1.quantity = o.quantity := by rw [(buyCross_aggressor b o).1]
  have hbt : (buyCross b o).1.type = o.type := by rw [(buyCross_aggressor b o).1]
  have hne1 : ¬ o.type = "ioc" := by rcases h with h | h <;> rw [h] <;> decide
  have hne2 : ¬ o.type = "fok" := by rcases h with h | h <;> rw [h] <;> decide
  unfold dispatchOrder
  rw [if_neg hne1, if_neg hne2, if_pos h, if_pos hb]
  simp only [matchBuyOrder_eq, hbq, hbt, gt_iff_lt]

/-- The market/limit branch of `processOrder`, for a sell. -/
theorem dispatchOrder_sell (b : OrderBook) (o : Order) (h : o.type = "market" ∨ o.type = "limit")
    (hb : o.isBuy = false) (hs : o.isSell = true) :
    dispatchOrder b o =
      if 0 < (sellCross b o).1.remainingQuantity ∧ o.type = "limit" then
        ({ b with
            m_buyOrders := (sellCross b o).2
            m_sellOrders := heapPush SellOrderComparator b.m_sellOrders (sellCross b o).1 },
          (sellCross b o).1)
      else if (sellCross b o).1.remainingQuantity = 0 then
        ({ b with m_buyOrders := (sellCross b o).2 }, { (sellCross b o).1 with status := "executed" })
      else if (sellCross b o).1.remainingQuantity < o.quantity then
        ({ b with m_buyOrders := (sellCross b o).2 },
          { (sellCross b o).1 with status := "partially_filled" })
      else ({ b with m_buyOrders := (sellCross b o).2 }, (sellCross b o).1) := by
  have hsq : (sellCross b o).1.quantity = o.quantity := by rw [(sellCross_aggressor b o).1]
  have hst : (sellCross b o).1.type = o.type := by rw [(sellCross_aggressor b o).1]
  have hne1 : ¬ o.type = "ioc" := by rcases h with h | h <;> rw [h] <;> decide
  have hne2 : ¬ o.type = "fok" := by rcases h with h | h <;> rw [h] <;> decide
  have hb' : ¬ o.isBuy = true := by simp [hb]
  unfold dispatchOrder
  rw [if_neg hne1, if_neg hne2, if_pos h, if_neg hb', if_pos hs]
  simp only [matchSellOrder_eq, hsq, hst, gt_iff_lt]

/-- The rejecting branches of `processOrder`: unknown type, or a market/limit order
that is neither a buy nor a sell. -/
theorem dispatchOrder_rejected (b : OrderBook) (o : Order) (h1 : ¬ o.type = "ioc")
    (h2 : ¬ o.type = "fok")
    (h3 : ¬ (o.type = "market" ∨ o.type = "limit") ∨ (o.isBuy = false ∧ o.isSell = false)) :
    dispatchOrder b o = (b, { o with status := "rejected" }) := by
  unfold dispatchOrder
  rw [if_neg h1, if_neg h2]
  by_cases h : o.type = "market" ∨ o.type = "limit"
  · rcases h3 with h3 | ⟨h3, h4⟩
    · exact absurd h h3
    · rw [if_pos h]
      simp [h3, h4]
  · rw [if_neg h]

/-- What `dispatchOrder` can do to the book: nothing, one crossing pass, or one
crossing pass followed by the push of the limit remainder. -/
theorem dispatchOrder_shape (b : OrderBook) (o : Order) :
    (dispatchOrder b o).1 = b ∨
    (o.isBuy = true ∧ (dispatchOrder b o).1 = { b with m_sellOrders := (buyCross b o).2 }) ∨
    (o.isBuy = false ∧ (dispatchOrder b o).1 = { b with m_buyOrders := (sellCross b o).2 }) ∨
    (o.isBuy = true ∧ 0 < (buyCross b o).1.remainingQuantity ∧ o.type = "limit" ∧
      (dispatchOrder b o).1 = { b with
        m_sellOrders := (buyCross b o).2
        m_buyOrders := heapPush BuyOrderComparator b.m_buyOrders (buyCross b o).1 }) ∨
    (o.isBuy = false ∧ 0 < (sellCross b o).1.remainingQuantity ∧ o.type = "limit" ∧
      (dispatchOrder b o).1 = { b with
        m_buyOrders := (sellCross b o).2
        m_sellOrders := heapPush SellOrderComparator b.m_sellOrders (sellCross b o).1 }) := by
  by_cases hioc : o.type = "ioc"
  · rw [dispatchOrder_ioc b o hioc]
    by_cases hb : o.isBuy = true
    · right; left
      exact ⟨hb, by simp [hb]⟩
    · by_cases hs : o.isSell = true
      · right; right; left
        exact ⟨by simpa using hb, by simp [hb, hs]⟩
      · left
        simp [hb, hs]
  · by_cases hfok : o.type = "fok"
    · rw [dispatchOrder_fok b o hfok]
      by_cases hf : fokFeasible b o = true
      · by_cases hb : o.isBuy = true
        · right; left
          exact ⟨hb, by simp [hf, hb]⟩
        · right; right; left
          exact ⟨by simpa using hb, by simp [hf, hb]⟩
      · left
        simp [hf]
    · by_cases hml : o.type = "market" ∨ o.type = "limit"
      · by_cases hb : o.isBuy = true
        · rw [dispatchOrder_buy b o hml hb]
          split_ifs with h1 h2 h3
          · right; right; right; left
            exact ⟨hb, h1.1, h1.2, rfl⟩
          · right; left; exact ⟨hb, rfl⟩
          · right; left; exact ⟨hb, rfl⟩
          · right; left; exact ⟨hb, rfl⟩
        · have hb' : o.isBuy = false := by simpa using hb
          by_cases hs : o.isSell = true
          · rw [dispatchOrder_sell b o hml hb' hs]
            split_ifs with h1 h2 h3
            · right; right; right; right
              exact ⟨hb', h1.1, h1.2, rfl⟩
            · right; right; left; exact ⟨hb', rfl⟩
            · right; right; left; exact ⟨hb', rfl⟩
            · right; right; left; exact ⟨hb', rfl⟩
          · left
            rw [dispatchOrder_rejected b o hioc hfok (Or.inr ⟨hb', by simpa using hs⟩)]
      · left
        rw [dispatchOrder_rejected b o hioc hfok (Or.inl hml)]

theorem afterStopLoss_fields (b : OrderBook) (o : Order) :
    (afterStopLoss b o).quantity = o.quantity ∧
      (afterStopLoss b o).remainingQuantity = o.remainingQuantity ∧
      (afterStopLoss b o).status = o.status ∧
      (afterStopLoss b o).action = o.action ∧
      ((afterStopLoss b o).price = o.price ∨ (afterStopLoss b o).price = o.stopPrice) := by
  unfold afterStopLoss handleStopLoss
  split_ifs <;> simp

/-- The order leaves `dispatchOrder` with its `quantity` unchanged and a
`remainingQuantity` that is either not above the one it came with or reset to
`quantity`. -/
theorem dispatchOrder_quantities (b : OrderBook) (o : Order) :
    (dispatchOrder b o).2.quantity = o.quantity ∧
      ((dispatchOrder b o).2.remainingQuantity ≤ o.remainingQuantity ∨
        (dispatchOrder b o).2.remainingQuantity = o.quantity) := by
  have hbq : (buyCross b o).1.quantity = o.quantity := by rw [(buyCross_aggressor b o).1]
  have hsq : (sellCross b o).1.quantity = o.quantity := by rw [(sellCross_aggressor b o).1]
  have hbr := (buyCross_aggressor b o).2
  have hsr := (sellCross_aggressor b o).2
  by_cases hioc : o.type = "ioc"
  · rw [dispatchOrder_ioc b o hioc]
    split_ifs <;> simp_all
  · by_cases hfok : o.type = "fok"
    · rw [dispatchOrder_fok b o hfok]
      split_ifs <;> simp_all
    · by_cases hml : o.type = "market" ∨ o.type = "limit"
      · by_cases hbuy : o.isBuy = true
        · rw [dispatchOrder_buy b o hml hbuy]
          split_ifs <;> simp_all
        · have hb' : o.isBuy = false := by simpa using hbuy
          by_cases hsell : o.isSell = true
          · rw [dispatchOrder_sell b o hml hb' hsell]
            split_ifs <;> simp_all
          · rw [dispatchOrder_rejected b o hioc hfok (Or.inr ⟨hb', by simpa using hsell⟩)]
            simp
      · rw [dispatchOrder_rejected b o hioc hfok (Or.inl hml)]
        simp

/-! ## Lemmas on `processOrder` and on single trades -/

theorem recordLatency_buyOrders (b : OrderBook) (n : Nat) :
    (recordLatency b n).m_buyOrders = b.m_buyOrders := rfl

theorem recordLatency_sellOrders (b : OrderBook) (n : Nat) :
    (recordLatency b n).m_sellOrders = b.m_sellOrders := rfl

theorem processOrder_cancel (b : OrderBook) (e : Int) (o : Order) (h : o.type = "cancel") :
    processOrder b e o =
      (recordLatency b (latencyNs e { o with status := "cancelled" }),
        { o with status := "cancelled" }) := by
  unfold processOrder
  rw [if_pos h]

theorem processOrder_of_not_cancel (b : OrderBook) (e : Int) (o : Order) (h : ¬ o.type = "cancel") :
    processOrder b e o =
      (recordLatency (dispatchOrder b (afterStopLoss b o)).1
          (latencyNs e (dispatchOrder b (afterStopLoss b o)).2),
        (dispatchOrder b (afterStopLoss b o)).2) := by
  unfold processOrder
  rw [if_neg h]

theorem afterStopLoss_of_ne (b : OrderBook) (o : Order) (h : ¬ o.type = "stop-loss") :
    afterStopLoss b o = o := by
  unfold afterStopLoss
  rw [if_neg h]

/-- The order leaves `processOrder` with its `quantity` unchanged and a
`remainingQuantity` not above the one it came with, or reset to `quantity`. -/
theorem processOrder_quantities (b : OrderBook) (e : Int) (o : Order) :
    (processOrder b e o).2.quantity = o.quantity ∧
      ((processOrder b e o).2.remainingQuantity ≤ o.remainingQuantity ∨
        (processOrder b e o).2.remainingQuantity = o.quantity) := by
  by_cases hc : o.type = "cancel"
  · rw [processOrder_cancel b e o hc]
    exact ⟨rfl, Or.inl (Nat.le_refl _)⟩
  · rw [processOrder_of_not_cancel b e o hc]
    have h1 := dispatchOrder_quantities b (afterStopLoss b o)
    have h2 := afterStopLoss_fields b o
    rw [h2.1, h2.2.1] at h1
    exact h1

/-- The loop does nothing when the queue is empty or its top fails the price test. -/
theorem crossLoop_stop (comp : Order → Order → Bool) (stops : Order → Bool) (fuel : Nat)
    (agg : Order) (q : List Order)
    (h : q = [] ∨ ∃ t, q.head? = some t ∧ stops t = true) :
    crossLoop comp stops fuel agg q = (agg, q) := by
  cases fuel with
  | zero => rfl
  | succ n =>
    simp only [crossLoop]
    rcases h with h | ⟨t, ht, hs⟩
    · subst h
      simp
    · simp [ht, hs]

/-- One trade that exhausts the aggressor and leaves some of the top. -/
theorem crossLoop_partial (comp : Order → Order → Bool) (stops : Order → Bool) (fuel : Nat)
    (agg : Order) (q : List Order) (top : Order) (hq : q.head? = some top)
    (hs : stops top = false) (h0 : 0 < agg.remainingQuantity)
    (hlt : agg.remainingQuantity < top.remainingQuantity) :
    crossLoop comp stops (fuel + 1) agg q =
      ({ agg with remainingQuantity := 0 },
        heapPush comp (heapPop comp q)
          { top with remainingQuantity := top.remainingQuantity - agg.remainingQuantity,
                     status := "partially_filled" }) := by
  have hmin : min agg.remainingQuantity top.remainingQuantity = agg.remainingQuantity :=
    Nat.min_eq_left (Nat.le_of_lt hlt)
  simp only [crossLoop, hq, hs, hmin]
  rw [if_pos h0]
  simp only [Bool.false_eq_true, if_false, Nat.sub_self]
  rw [crossLoop_done _ _ _ _ _ rfl]
  unfold requeue
  rw [fillTop_of_pos top _ (by omega), if_pos (by simp only; omega)]

/-- One trade that exhausts both the aggressor and the top. -/
theorem crossLoop_exact (comp : Order → Order → Bool) (stops : Order → Bool) (fuel : Nat)
    (agg : Order) (q : List Order) (top : Order) (hq : q.head? = some top)
    (hs : stops top = false) (h0 : 0 < agg.remainingQuantity)
    (heq : agg.remainingQuantity = top.remainingQuantity) :
    crossLoop comp stops (fuel + 1) agg q =
      ({ agg with remainingQuantity := 0 }, heapPop comp q) := by
  have hmin : min agg.remainingQuantity top.remainingQuantity = agg.remainingQuantity := by
    rw [heq]; exact Nat.min_self _
  simp only [crossLoop, hq, hs, hmin]
  rw [if_pos h0]
  simp only [Bool.false_eq_true, if_false, Nat.sub_self]
  rw [crossLoop_done _ _ _ _ _ rfl]
  unfold requeue
  rw [if_neg (by rw [fillTop_remainingQuantity]; omega)]

theorem isBuy_iff (o : Order) : o.isBuy = true ↔ o.action = "buy" := by
  simp [Order.isBuy]

theorem isSell_iff (o : Order) : o.isSell = true ↔ o.action = "sell" := by
  simp [Order.isSell]

theorem isBuy_of_sell (o : Order) (h : o.action = "sell") : o.isBuy = false := by
  simp [Order.isBuy, h]

theorem fillTop_price (t : Order) (tq : Nat) : (fillTop t tq).price = t.price := by
  unfold fillTop
  split <;> rfl

theorem fillTop_recvTimestamp (t : Order) (tq : Nat) :
    (fillTop t tq).recvTimestamp = t.recvTimestamp := by
  unfold fillTop
  split <;> rfl

theorem fillTop_quantity (t : Order) (tq : Nat) : (fillTop t tq).quantity = t.quantity := by
  unfold fillTop
  split <;> rfl

theorem buyStops_fillTop (o t : Order) (tq : Nat) : buyStops o (fillTop t tq) = buyStops o t := by
  unfold buyStops
  rw [fillTop_price]

theorem sellStops_fillTop (o t : Order) (tq : Nat) :
    sellStops o (fillTop t tq) = sellStops o t := by
  unfold sellStops
  rw [fillTop_price]

/-! ## An invariant rule for `processOrder` -/

/-- A property of resting orders that survives a partial fill and holds of the
aggressor's remainder holds on both sides after `processOrder` when it held
before. -/
theorem processOrder_forall (R : Order → Prop)
    (hfill : ∀ t tq, R t → 0 < t.remainingQuantity - tq → R (fillTop t tq))
    (b : OrderBook) (e : Int) (o : Order)
    (hb : ∀ x, x ∈ b.m_buyOrders ∨ x ∈ b.m_sellOrders → R x)
    (hagg : ∀ r, 0 < r → r ≤ o.remainingQuantity →
      R { afterStopLoss b o with remainingQuantity := r }) :
    ∀ x, x ∈ (processOrder b e o).1.m_buyOrders ∨ x ∈ (processOrder b e o).1.m_sellOrders →
      R x := by
  by_cases hc : o.type = "cancel"
  · rw [processOrder_cancel b e o hc]
    exact hb
  · rw [processOrder_of_not_cancel b e o hc]
    simp only [recordLatency_buyOrders, recordLatency_sellOrders]
    have hrem := (afterStopLoss_fields b o).2.1
    have hbc : ∀ x ∈ (buyCross b (afterStopLoss b o)).2, R x :=
      crossLoop_forall _ _ R hfill _ _ _ (fun x hx => hb x (Or.inr hx))
    have hsc : ∀ x ∈ (sellCross b (afterStopLoss b o)).2, R x :=
      crossLoop_forall _ _ R hfill _ _ _ (fun x hx => hb x (Or.inl hx))
    have hba := buyCross_aggressor b (afterStopLoss b o)
    have hsa := sellCross_aggressor b (afterStopLoss b o)
    rcases dispatchOrder_shape b (afterStopLoss b o) with h | ⟨-, h⟩ | ⟨-, h⟩ | ⟨-, hpos, -, h⟩ |
        ⟨-, hpos, -, h⟩
    · rw [h]; exact hb
    · rw [h]
      rintro x (hx | hx)
      · exact hb x (Or.inl hx)
      · exact hbc x hx
    · rw [h]
      rintro x (hx | hx)
      · exact hsc x hx
      · exact hb x (Or.inr hx)
    · rw [h]
      rintro x (hx | hx)
      · rcases List.mem_cons.mp ((heapPush_perm _ _ _).mem_iff.mp hx) with h1 | h1
        · rw [h1, hba.1]
          exact hagg _ hpos (hrem ▸ hba.2)
        · exact hb x (Or.inl h1)
      · exact hbc x hx
    · rw [h]
      rintro x (hx | hx)
      · exact hsc x hx
      · rcases List.mem_cons.mp ((heapPush_perm _ _ _).mem_iff.mp hx) with h1 | h1
        · rw [h1, hsa.1]
          exact hagg _ hpos (hrem ▸ hsa.2)
        · exact hb x (Or.inr h1)

/-! ## Queues of two orders -/

theorem heapPop_pair {α : Type} (comp : α → α → Bool) (a c : α) : heapPop comp [a, c] = [c] := by
  simp [heapPop, sinkToLeaf, siftUp]

theorem heapPush_single_swap {α : Type} (comp : α → α → Bool) (a c : α) (h : comp c a = true) :
    heapPush comp [c] a = [a, c] := by
  simp [heapPush, siftUp, swapAt, h]

theorem heapOrdered_pair {α : Type} (comp : α → α → Bool) (a c : α)
    (h : isHeap comp [a, c] = true) : comp a c = false := by
  have := (isHeap_iff comp [a, c]).mp h 1 a c (by decide) (by simp) (by simp)
  exact this

/-- A finite price is within `1e-12` of itself; a NaN or an infinity is not. -/
theorem tie_self_iff (p : Double) :
    Double.fabs (p - p) < lit1em12 ↔ p.isFinite = true := by
  rcases p with _ | n | q
  · exact iff_of_false (Double.not_nan_lt _) (by decide)
  · cases n <;> exact iff_of_false (Double.not_nan_lt _) (by decide)
  · rw [Double.sub_fin_self]
    exact iff_of_true (by decide!) rfl

theorem sellComparator_same_price (x y : Order) (hp : x.price = y.price)
    (hf : x.price.isFinite = true) :
    SellOrderComparator x y = decide (x.recvTimestamp > y.recvTimestamp) := by
  unfold SellOrderComparator
  rw [← hp, if_pos ((tie_self_iff _).mpr hf)]

theorem buyComparator_same_price (x y : Order) (hp : x.price = y.price)
    (hf : x.price.isFinite = true) :
    BuyOrderComparator x y = decide (x.recvTimestamp > y.recvTimestamp) := by
  unfold BuyOrderComparator
  rw [← hp, if_pos ((tie_self_iff _).mpr hf)]

/-- A queue holding exactly `A` and `B`, in heap order for a comparator that puts
`B` below `A`, is the vector `[A, B]`. -/
theorem pair_of_perm_heap (comp : Order → Order → Bool) (q : List Order) (A B : Order)
    (hperm : q.Perm [A, B]) (hheap : isHeap comp q = true) (hBA : comp B A = true) :
    q = [A, B] := by
  have hlen : q.length = 2 := by simpa using hperm.length_eq
  match q, hlen with
  | [x, y], _ =>
    have hx : x = A ∨ x = B := by simpa using hperm.mem_iff.mp (List.mem_cons_self x [y])
    have hy : y = A ∨ y = B := by
      simpa using hperm.mem_iff.mp (List.mem_cons_of_mem x (List.mem_cons_self y []))
    have hA : A = x ∨ A = y := by simpa using hperm.mem_iff.mpr (List.mem_cons_self A [B])
    have hB : B = x ∨ B = y := by
      simpa using hperm.mem_iff.mpr (List.mem_cons_of_mem A (List.mem_cons_self B []))
    have hxy := heapOrdered_pair comp x y hheap
    rcases hx with hx | hx <;> rcases hy with hy | hy
    · subst hx hy
      rcases hB with h | h <;> rw [h]
    · rw [hx, hy]
    · subst hx hy
      rw [hBA] at hxy
      exact absurd hxy (by decide)
    · subst hx hy
      rcases hA with h | h <;> rw [h]

/-! ## One trade against the top of the opposite side -/

/-- The ask side after a buy that crosses the top ask `T`, for at most what `T` has
left. -/
theorem processOrder_buy_top (b : OrderBook) (e : Int) (o T : Order)
    (htype : o.type = "market" ∨ o.type = "limit") (hact : o.action = "buy")
    (hq : 0 < o.remainingQuantity) (hle : o.remainingQuantity ≤ T.remainingQuantity)
    (hT : b.m_sellOrders.head? = some T) (hcross : buyStops o T = false) :
    (processOrder b e o).2 = { o with remainingQuantity := 0, status := "executed" } ∧
    (processOrder b e o).1.m_buyOrders = b.m_buyOrders ∧
    (processOrder b e o).1.m_sellOrders =
      if o.remainingQuantity = T.remainingQuantity then heapPop SellOrderComparator b.m_sellOrders
      else heapPush SellOrderComparator (heapPop SellOrderComparator b.m_sellOrders)
        { T with remainingQuantity := T.remainingQuantity - o.remainingQuantity,
                 status := "partially_filled" } := by
  have hc : ¬ o.type = "cancel" := by rcases htype with h | h <;> rw [h] <;> decide
  have hsl : ¬ o.type = "stop-loss" := by rcases htype with h | h <;> rw [h] <;> decide
  have hb : o.isBuy = true := (isBuy_iff o).mpr hact
  obtain ⟨l, hl⟩ := List.head?_eq_some_iff.mp hT
  have hfuel : b.m_sellOrders.length = l.length + 1 := by rw [hl]; rfl
  rw [processOrder_of_not_cancel b e o hc, afterStopLoss_of_ne b o hsl,
    dispatchOrder_buy b o htype hb]
  by_cases heq : o.remainingQuantity = T.remainingQuantity
  · have hcr : buyCross b o =
        ({ o with remainingQuantity := 0 }, heapPop SellOrderComparator b.m_sellOrders) := by
      unfold buyCross
      rw [hfuel]
      exact crossLoop_exact _ _ _ _ _ T hT hcross hq heq
    rw [hcr, if_neg (by simp), if_pos rfl, if_pos heq]
    exact ⟨rfl, rfl, rfl⟩
  · have hcr : buyCross b o =
        ({ o with remainingQuantity := 0 },
          heapPush SellOrderComparator (heapPop SellOrderComparator b.m_sellOrders)
            { T with remainingQuantity := T.remainingQuantity - o.remainingQuantity,
                     status := "partially_filled" }) := by
      unfold buyCross
      rw [hfuel]
      exact crossLoop_partial _ _ _ _ _ T hT hcross hq (by omega)
    rw [hcr, if_neg (by simp), if_pos rfl, if_neg heq]
    exact ⟨rfl, rfl, rfl⟩

/-- The bid side after a sell that crosses the top bid `T`, for at most what `T` has
left. -/
theorem processOrder_sell_top (b : OrderBook) (e : Int) (o T : Order)
    (htype : o.type = "market" ∨ o.type = "limit") (hact : o.action = "sell")
    (hq : 0 < o.remainingQuantity) (hle : o.remainingQuantity ≤ T.remainingQuantity)
    (hT : b.m_buyOrders.head? = some T) (hcross : sellStops o T = false) :
    (processOrder b e o).2 = { o with remainingQuantity := 0, status := "executed" } ∧
    (processOrder b e o).1.m_sellOrders = b.m_sellOrders ∧
    (processOrder b e o).1.m_buyOrders =
      if o.remainingQuantity = T.remainingQuantity then heapPop BuyOrderComparator b.m_buyOrders
      else heapPush BuyOrderComparator (heapPop BuyOrderComparator b.m_buyOrders)
        { T with remainingQuantity := T.remainingQuantity - o.remainingQuantity,
                 status := "partially_filled" } := by
  have hc : ¬ o.type = "cancel" := by rcases htype with h | h <;> rw [h] <;> decide
  have hsl : ¬ o.type = "stop-loss" := by rcases htype with h | h <;> rw [h] <;> decide
  have hb : o.isBuy = false := isBuy_of_sell o hact
  have hs : o.isSell = true := (isSell_iff o).mpr hact
  obtain ⟨l, hl⟩ := List.head?_eq_some_iff.mp hT
  have hfuel : b.m_buyOrders.length = l.length + 1 := by rw [hl]; rfl
  rw [processOrder_of_not_cancel b e o hc, afterStopLoss_of_ne b o hsl,
    dispatchOrder_sell b o htype hb hs]
  by_cases heq : o.remainingQuantity = T.remainingQuantity
  · have hcr : sellCross b o =
        ({ o with remainingQuantity := 0 }, heapPop BuyOrderComparator b.m_buyOrders) := by
      unfold sellCross
      rw [hfuel]
      exact crossLoop_exact _ _ _ _ _ T hT hcross hq heq
    rw [hcr, if_neg (by simp), if_pos rfl, if_pos heq]
    exact ⟨rfl, rfl, rfl⟩
  · have hcr : sellCross b o =
        ({ o with remainingQuantity := 0 },
          heapPush BuyOrderComparator (heapPop BuyOrderComparator b.m_buyOrders)
            { T with remainingQuantity := T.remainingQuantity - o.remainingQuantity,
                     status := "partially_filled" }) := by
      unfold sellCross
      rw [hfuel]
      exact crossLoop_partial _ _ _ _ _ T hT hcross hq (by omega)
    rw [hcr, if_neg (by simp), if_pos rfl, if_neg heq]
    exact ⟨rfl, rfl, rfl⟩

theorem buyStops_false_iff (o T : Order) :
    buyStops o T = false ↔
      ¬ (if o.type = "market" then lit1e15 else o.price) < T.price := by
  simp [buyStops]

theorem sellStops_false_iff (o T : Order) :
    sellStops o T = false ↔
      ¬ T.price < (if o.type = "market" then Double.fin 0 else o.price) := by
  simp [sellStops]

theorem buyStops_of_crossing (o T : Order)
    (h : o.type = "market" ∧ T.price ≤ lit1e15 ∨ o.type = "limit" ∧ T.price ≤ o.price) :
    buyStops o T = false := by
  rw [buyStops_false_iff]
  rcases h with ⟨h1, h2⟩ | ⟨h1, h2⟩
  · rw [if_pos h1]; exact Double.not_lt_of_le h2
  · rw [if_neg (by rw [h1]; decide)]; exact Double.not_lt_of_le h2

theorem sellStops_of_crossing (o T : Order)
    (h : o.type = "market" ∧ Double.fin 0 ≤ T.price ∨ o.type = "limit" ∧ o.price ≤ T.price) :
    sellStops o T = false := by
  rw [sellStops_false_iff]
  rcases h with ⟨h1, h2⟩ | ⟨h1, h2⟩
  · rw [if_pos h1]; exact Double.not_lt_of_le h2
  · rw [if_neg (by rw [h1]; decide)]; exact Double.not_lt_of_le h2

theorem heapPop_perm_tail (comp : Order → Order → Bool) (q : List Order) :
    (heapPop comp q).Perm q.tail := by
  cases q with
  | nil => simp [heapPop]
  | cons t l => exact (heapPop_perm comp t l).cons_inv

/-! ## The fill-or-kill branch -/

theorem fokScanBuy_congr (o o2 : Order) (h1 : o2.remainingQuantity = o.remainingQuantity)
    (h2 : o2.type = o.type) (h3 : o2.price = o.price) (fuel : Nat) (q : List Order) (acc : Nat) :
    fokScanBuy fuel o2 q acc = fokScanBuy fuel o q acc := by
  induction fuel generalizing q acc with
  | zero => rfl
  | succ n ih =>
    simp only [fokScanBuy, h1, h2, h3, ih]

theorem fokScanSell_congr (o o2 : Order) (h1 : o2.remainingQuantity = o.remainingQuantity)
    (h2 : o2.type = o.type) (h3 : o2.price = o.price) (fuel : Nat) (q : List Order) (acc : Nat) :
    fokScanSell fuel o2 q acc = fokScanSell fuel o q acc := by
  induction fuel generalizing q acc with
  | zero => rfl
  | succ n ih =>
    simp only [fokScanSell, h1, h2, h3, ih]

/-- The feasibility test of `handleFOK` reads the two sides of the book and the
order's side, type, price and remaining quantity only. -/
theorem fokFeasible_congr (b b2 : OrderBook) (o o2 : Order)
    (hb : b2.m_buyOrders = b.m_buyOrders) (hs : b2.m_sellOrders = b.m_sellOrders)
    (h0 : o2.action = o.action) (h1 : o2.remainingQuantity = o.remainingQuantity)
    (h2 : o2.type = o.type) (h3 : o2.price = o.price) :
    fokFeasible b2 o2 = fokFeasible b o := by
  unfold fokFeasible Order.isBuy
  rw [hb, hs, h0, h1, fokScanBuy_congr o o2 h1 h2 h3, fokScanSell_congr o o2 h1 h2 h3]

/-- A fill-or-kill order that the feasibility test rejects: the book is returned as
it was and the order with `remainingQuantity` reset and status `fok_no_fill`. -/
theorem processOrder_fok_killed (b : OrderBook) (e : Int) (o : Order) (htype : o.type = "fok")
    (hf : fokFeasible b o = false) :
    (processOrder b e o).1.m_buyOrders = b.m_buyOrders ∧
    (processOrder b e o).1.m_sellOrders = b.m_sellOrders ∧
    (processOrder b e o).2 = { o with remainingQuantity := o.quantity, status := "fok_no_fill" } := by
  have hc : ¬ o.type = "cancel" := by rw [htype]; decide
  have hsl : ¬ o.type = "stop-loss" := by rw [htype]; decide
  rw [processOrder_of_not_cancel b e o hc, afterStopLoss_of_ne b o hsl,
    dispatchOrder_fok b o htype, hf]
  exact ⟨rfl, rfl, rfl⟩

/-- A fill-or-kill order that the feasibility test accepts leaves `processOrder`
with the status it came with. -/
theorem processOrder_fok_filled_status (b : OrderBook) (e : Int) (o : Order)
    (htype : o.type = "fok") (hf : fokFeasible b o = true) :
    (processOrder b e o).2.status = o.status := by
  have hc : ¬ o.type = "cancel" := by rw [htype]; decide
  have hsl : ¬ o.type = "stop-loss" := by rw [htype]; decide
  rw [processOrder_of_not_cancel b e o hc, afterStopLoss_of_ne b o hsl,
    dispatchOrder_fok b o htype, hf]
  simp only [if_true]
  split
  · rw [(buyCross_aggressor b o).1]
  · rw [(sellCross_aggressor b o).1]

/-! ## The comparators on separated prices -/

theorem separated_isNaN (S : Set Double) (hS : SeparatedPrices S) (p : Double) (hp : p ∈ S) :
    p.isNaN = false := by
  rcases hS p hp p hp with h | h
  · exact ((Double.eq_iff p p).mp h).2
  · rcases p with _ | n | q
    · exact absurd h (Double.not_le_nan _)
    · rfl
    · rfl

/-- Two prices of a separated set pass the tie test of the comparators exactly when
they are one finite price. -/
theorem tie_iff_of_separated (S : Set Double) (hS : SeparatedPrices S) (p q : Double)
    (hp : p ∈ S) (hq : q ∈ S) :
    Double.fabs (p - q) < lit1em12 ↔ p = q ∧ p.isFinite = true := by
  constructor
  · intro h
    rcases hS p hp q hq with h1 | h1
    · have hpq := ((Double.eq_iff p q).mp h1).1
      refine ⟨hpq, ?_⟩
      rw [← hpq] at h
      exact (tie_self_iff p).mp h
    · exact absurd h (Double.not_lt_of_le h1)
  · rintro ⟨h, hf⟩
    rw [← h]
    exact (tie_self_iff p).mpr hf

theorem buyComparator_iff (S : Set Double) (hS : SeparatedPrices S) (x y : Order)
    (hx : x.price ∈ S) (hy : y.price ∈ S) :
    BuyOrderComparator x y = true ↔
      (x.price = y.price ∧ x.price.isFinite = true ∧ x.recvTimestamp > y.recvTimestamp) ∨
        x.price < y.price := by
  unfold BuyOrderComparator
  by_cases h : Double.fabs (x.price - y.price) < lit1em12
  · have h2 := (tie_iff_of_separated S hS _ _ hx hy).mp h
    rw [if_pos h, decide_eq_true_eq]
    constructor
    · intro h3
      exact Or.inl ⟨h2.1, h2.2, h3⟩
    · rintro (⟨-, -, h3⟩ | h3)
      · exact h3
      · rw [h2.1] at h3
        exact absurd h3 (Double.lt_irrefl _)
  · rw [if_neg h, decide_eq_true_eq]
    constructor
    · intro h3
      exact Or.inr h3
    · rintro (⟨h3, h4, -⟩ | h3)
      · exact absurd ((tie_iff_of_separated S hS _ _ hx hy).mpr ⟨h3, h4⟩) h
      · exact h3

theorem sellComparator_iff (S : Set Double) (hS : SeparatedPrices S) (x y : Order)
    (hx : x.price ∈ S) (hy : y.price ∈ S) :
    SellOrderComparator x y = true ↔
      (x.price = y.price ∧ x.price.isFinite = true ∧ x.recvTimestamp > y.recvTimestamp) ∨
        x.price > y.price := by
  unfold SellOrderComparator
  by_cases h : Double.fabs (x.price - y.price) < lit1em12
  · have h2 := (tie_iff_of_separated S hS _ _ hx hy).mp h
    rw [if_pos h, decide_eq_true_eq]
    constructor
    · intro h3
      exact Or.inl ⟨h2.1, h2.2, h3⟩
    · rintro (⟨-, -, h3⟩ | h3)
      · exact h3
      · rw [h2.1] at h3
        exact absurd h3 (Double.lt_irrefl _)
  · rw [if_neg h, decide_eq_true_eq]
    constructor
    · intro h3
      exact Or.inr h3
    · rintro (⟨h3, h4, -⟩ | h3)
      · exact absurd ((tie_iff_of_separated S hS _ _ hx hy).mpr ⟨h3, h4⟩) h
      · exact h3

theorem bool_eq_false_iff_not (c : Bool) (p : Prop) (h : c = true ↔ p) : c = false ↔ ¬ p := by
  cases c <;> simp_all

/-- The bid comparator is false on two orders priced in a separated set exactly when
the first is priced no lower and, at one finite price, was received no later. -/
theorem buyComparator_false_iff (S : Set Double) (hS : SeparatedPrices S) (x y : Order)
    (hx : x.price ∈ S) (hy : y.price ∈ S) :
    BuyOrderComparator x y = false ↔
      y.price ≤ x.price ∧
        (x.price = y.price → x.price.isFinite = true → x.recvTimestamp ≤ y.recvTimestamp) := by
  rw [bool_eq_false_iff_not _ _ (buyComparator_iff S hS x y hx hy)]
  have hnx := separated_isNaN S hS _ hx
  have hny := separated_isNaN S hS _ hy
  constructor
  · intro h
    push_neg at h
    exact ⟨Double.le_of_not_lt hnx hny h.2, fun h1 h2 => by have := h.1 h1 h2; omega⟩
  · rintro ⟨h1, h2⟩
    rintro (⟨h3, h4, h5⟩ | h3)
    · have := h2 h3 h4
      omega
    · exact Double.not_lt_of_le h1 h3

/-- The ask comparator is false on two orders priced in a separated set exactly when
the first is priced no higher and, at one finite price, was received no later. -/
theorem sellComparator_false_iff (S : Set Double) (hS : SeparatedPrices S) (x y : Order)
    (hx : x.price ∈ S) (hy : y.price ∈ S) :
    SellOrderComparator x y = false ↔
      x.price ≤ y.price ∧
        (x.price = y.price → x.price.isFinite = true → x.recvTimestamp ≤ y.recvTimestamp) := by
  rw [bool_eq_false_iff_not _ _ (sellComparator_iff S hS x y hx hy)]
  have hnx := separated_isNaN S hS _ hx
  have hny := separated_isNaN S hS _ hy
  constructor
  · intro h
    push_neg at h
    exact ⟨Double.le_of_not_lt hny hnx h.2, fun h1 h2 => by have := h.1 h1 h2; omega⟩
  · rintro ⟨h1, h2⟩
    rintro (⟨h3, h4, h5⟩ | h3)
    · have := h2 h3 h4
      omega
    · exact Double.not_lt_of_le h1 h3

/-- On orders whose prices are pairwise equal or `1e-12` apart the bid comparator
is a strict weak ordering. -/
theorem buyComparator_weakOrder (S : Set Double) (hS : SeparatedPrices S) :
    WeakOrderOn BuyOrderComparator (fun x => x.price ∈ S) := by
  constructor
  · intro a c ha hc h
    rw [buyComparator_false_iff S hS c a hc ha]
    rw [buyComparator_iff S hS a c ha hc] at h
    rcases h with ⟨h1, h2, h3⟩ | h1
    · refine ⟨?_, fun _ _ => by omega⟩
      rw [h1]
      exact Double.le_refl (separated_isNaN S hS _ hc)
    · exact ⟨Double.le_of_lt h1, fun h2 => by rw [h2] at h1; exact absurd h1 (Double.lt_irrefl _)⟩
  · intro a c d ha hc hd h1 h2
    rw [buyComparator_false_iff S hS a c ha hc] at h1
    rw [buyComparator_false_iff S hS c d hc hd] at h2
    rw [buyComparator_false_iff S hS a d ha hd]
    refine ⟨Double.le_trans h2.1 h1.1, fun h hf => ?_⟩
    have hac : a.price = c.price := Double.le_antisymm (h ▸ h2.1) h1.1
    have hcd : c.price = d.price := hac ▸ h
    have := h1.2 hac hf
    have := h2.2 hcd (hac ▸ hf)
    omega

/-- On orders whose prices are pairwise equal or `1e-12` apart the ask comparator
is a strict weak ordering. -/
theorem sellComparator_weakOrder (S : Set Double) (hS : SeparatedPrices S) :
    WeakOrderOn SellOrderComparator (fun x => x.price ∈ S) := by
  constructor
  · intro a c ha hc h
    rw [sellComparator_false_iff S hS c a hc ha]
    rw [sellComparator_iff S hS a c ha hc] at h
    rcases h with ⟨h1, h2, h3⟩ | h1
    · refine ⟨?_, fun _ _ => by omega⟩
      rw [h1]
      exact Double.le_refl (separated_isNaN S hS _ hc)
    · exact ⟨Double.le_of_lt h1, fun h2 => by rw [h2] at h1; exact absurd h1 (Double.lt_irrefl _)⟩
  · intro a c d ha hc hd h1 h2
    rw [sellComparator_false_iff S hS a c ha hc] at h1
    rw [sellComparator_false_iff S hS c d hc hd] at h2
    rw [sellComparator_false_iff S hS a d ha hd]
    refine ⟨Double.le_trans h1.1 h2.1, fun h hf => ?_⟩
    have hac : a.price = c.price := Double.le_antisymm h1.1 (h ▸ h2.1)
    have hcd : c.price = d.price := hac ▸ h
    have := h1.2 hac hf
    have := h2.2 hcd (hac ▸ hf)
    omega

/-- Finite prices that are, any two of them, equal or apart by at least the value of
the literal `1e-12`, the difference taken exactly, are separated as the program
tests it. -/
theorem separated_of_exact (T : Set ℚ)
    (h : ∀ p ∈ T, ∀ q ∈ T, p = q ∨ (4951760157141521 : ℚ) / 2 ^ 92 ≤ |p - q|) :
    SeparatedPrices (Set.image Double.fin T) ∧ FinitePrices (Set.image Double.fin T) := by
  constructor
  · rintro x ⟨p, hp, rfl⟩ y ⟨q, hq, rfl⟩
    rcases h p hp q hq with h1 | h1
    · left
      rw [h1]
      simp [Double.eq]
    · right
      exact Double.lit1em12_le_fabs_sub p q h1
  · rintro x ⟨p, hp, rfl⟩
    rfl

/-- The prices `0.0` and `1e-12` are `1e-12` apart as the program evaluates it. -/
theorem separated_boundary_pair : SeparatedPrices {Double.fin 0, lit1em12} := by
  intro p hp q hq
  simp only [Set.mem_insert_iff, Set.mem_singleton_iff] at hp hq
  rcases hp with rfl | rfl <;> rcases hq with rfl | rfl <;> decide!

/-- The crossing loop keeps the queue in heap order when the comparator is a strict
weak ordering on the resting orders. -/
theorem crossLoop_heapOrdered (comp : Order → Order → Bool) (stops : Order → Bool)
    (P : Order → Prop) (hw : WeakOrderOn comp P) (hPfill : ∀ t tq, P t → P (fillTop t tq))
    (fuel : Nat) (agg : Order) (q : List Order) (hq : HeapOrdered comp q)
    (hP : ∀ x ∈ q, P x) :
    HeapOrdered comp (crossLoop comp stops fuel agg q).2 ∧
      ∀ x ∈ (crossLoop comp stops fuel agg q).2, P x := by
  refine crossLoop_induct comp stops (fun _ q' => HeapOrdered comp q' ∧ ∀ x ∈ q', P x) ?_
    fuel agg q ⟨hq, hP⟩
  intro a q' top h _ htop _
  have hpop : HeapOrdered comp (heapPop comp q') := heapPop_heapOrdered hw q' h.1 h.2
  have hPpop : ∀ x ∈ heapPop comp q', P x := fun x hx => h.2 x (heapPop_mem comp q' x hx)
  have hPtop : P top := h.2 top (List.mem_of_mem_head? htop)
  constructor
  · unfold requeue
    split
    · exact heapPush_heapOrdered hw _ _ hpop hPpop (hPfill top _ hPtop)
    · exact hpop
  · intro x hx
    rcases requeue_mem comp q' top _ htop x hx with h1 | ⟨-, h1⟩
    · exact h.2 x h1
    · rw [h1]; exact hPfill top _ hPtop

/-! ## Heap order of the reachable books -/

/-- One call of `processOrder` keeps both queues in heap order when all prices
involved come from a set of separated prices. -/
theorem processOrder_heapOrdered (S : Set Double) (hS : SeparatedPrices S) (b : OrderBook) (e : Int)
    (o : Order) (hB : HeapOrdered BuyOrderComparator b.m_buyOrders)
    (hA : HeapOrdered SellOrderComparator b.m_sellOrders)
    (hP : ∀ x, x ∈ b.m_buyOrders ∨ x ∈ b.m_sellOrders → x.price ∈ S) (ho : PricedIn S o) :
    HeapOrdered BuyOrderComparator (processOrder b e o).1.m_buyOrders ∧
      HeapOrdered SellOrderComparator (processOrder b e o).1.m_sellOrders := by
  by_cases hc : o.type = "cancel"
  · rw [processOrder_cancel b e o hc]
    exact ⟨hB, hA⟩
  · rw [processOrder_of_not_cancel b e o hc]
    simp only [recordLatency_buyOrders, recordLatency_sellOrders]
    have hPfill : ∀ (t : Order) (tq : Nat), t.price ∈ S → (fillTop t tq).price ∈ S := by
      intro t tq ht
      rw [fillTop_price]; exact ht
    have hprice : (afterStopLoss b o).price ∈ S := by
      rcases (afterStopLoss_fields b o).2.2.2.2 with h | h <;> rw [h]
      · exact ho.1
      · exact ho.2
    have hbc := crossLoop_heapOrdered SellOrderComparator (buyStops (afterStopLoss b o))
      (fun x => x.price ∈ S) (sellComparator_weakOrder S hS) hPfill b.m_sellOrders.length
      (afterStopLoss b o) b.m_sellOrders hA (fun x hx => hP x (Or.inr hx))
    have hsc := crossLoop_heapOrdered BuyOrderComparator (sellStops (afterStopLoss b o))
      (fun x => x.price ∈ S) (buyComparator_weakOrder S hS) hPfill b.m_buyOrders.length
      (afterStopLoss b o) b.m_buyOrders hB (fun x hx => hP x (Or.inl hx))
    have hba : (buyCross b (afterStopLoss b o)).1.price ∈ S := by
      rw [(buyCross_aggressor b (afterStopLoss b o)).1]; exact hprice
    have hsa : (sellCross b (afterStopLoss b o)).1.price ∈ S := by
      rw [(sellCross_aggressor b (afterStopLoss b o)).1]; exact hprice
    rcases dispatchOrder_shape b (afterStopLoss b o) with h | ⟨-, h⟩ | ⟨-, h⟩ | ⟨-, -, -, h⟩ |
        ⟨-, -, -, h⟩
    · rw [h]; exact ⟨hB, hA⟩
    · rw [h]; exact ⟨hB, hbc.1⟩
    · rw [h]; exact ⟨hsc.1, hA⟩
    · rw [h]
      exact ⟨heapPush_heapOrdered (buyComparator_weakOrder S hS) _ _ hB
        (fun x hx => hP x (Or.inl hx)) hba, hbc.1⟩
    · rw [h]
      exact ⟨hsc.1, heapPush_heapOrdered (sellComparator_weakOrder S hS) _ _ hA
        (fun x hx => hP x (Or.inr hx)) hsa⟩

/-- Every book reachable through orders priced in a set of separated prices has
both queues in heap order and rests only orders priced in that set. -/
theorem reachable_heapOrdered (S : Set Double) (hS : SeparatedPrices S) (b : OrderBook)
    (hb : ReachableBy (PricedIn S) b) :
    HeapOrdered BuyOrderComparator b.m_buyOrders ∧
      HeapOrdered SellOrderComparator b.m_sellOrders ∧
      ∀ x, x ∈ b.m_buyOrders ∨ x ∈ b.m_sellOrders → x.price ∈ S := by
  induction hb with
  | init =>
    refine ⟨?_, ?_, ?_⟩
    · intro i p v _ hp _
      simp [OrderBook.new] at hp
    · intro i p v _ hp _
      simp [OrderBook.new] at hp
    · rintro x (hx | hx) <;> simp [OrderBook.new] at hx
  | @step b0 e o _ hok ih =>
    obtain ⟨hB, hA, hP⟩ := ih
    have h1 := processOrder_heapOrdered S hS b0 e o hB hA hP hok
    refine ⟨h1.1, h1.2, ?_⟩
    refine processOrder_forall (fun x => x.price ∈ S) ?_ b0 e o hP ?_
    · intro t tq ht _
      rw [fillTop_price]; exact ht
    · intro r _ _
      rcases (afterStopLoss_fields b0 o).2.2.2.2 with h | h
      · show (afterStopLoss b0 o).price ∈ S
        rw [h]; exact hok.1
      · show (afterStopLoss b0 o).price ∈ S
        rw [h]; exact hok.2

/-! ## The feasibility scan and the crossing loop on a heap-ordered queue -/

theorem fokScanBuy_eq_scanLoop (fuel : Nat) (o : Order) (q : List Order) (acc : Nat) :
    fokScanBuy fuel o q acc
      = scanLoop SellOrderComparator (fokBuyStops o) o.remainingQuantity fuel q acc := by
  induction fuel generalizing q acc with
  | zero => rfl
  | succ n ih =>
    simp only [fokScanBuy, scanLoop, ih, fokBuyStops, decide_eq_true_eq]

theorem fokScanSell_eq_scanLoop (fuel : Nat) (o : Order) (q : List Order) (acc : Nat) :
    fokScanSell fuel o q acc
      = scanLoop BuyOrderComparator (fokSellStops o) o.remainingQuantity fuel q acc := by
  induction fuel generalizing q acc with
  | zero => rfl
  | succ n ih =>
    simp only [fokScanSell, scanLoop, ih, fokSellStops, decide_eq_true_eq]

theorem liquidity_nil (stops : Order → Bool) : liquidity stops [] = 0 := rfl

theorem liquidity_cons (stops : Order → Bool) (x : Order) (q : List Order) :
    liquidity stops (x :: q)
      = (if stops x = true then 0 else x.remainingQuantity) + liquidity stops q := by
  unfold liquidity
  cases h : stops x <;> simp [List.filter_cons, h]

theorem liquidity_perm (stops : Order → Bool) (q q2 : List Order) (h : q.Perm q2) :
    liquidity stops q = liquidity stops q2 := by
  unfold liquidity
  exact ((h.filter _).map _).sum_eq

theorem liquidity_of_all_stop (stops : Order → Bool) (q : List Order)
    (h : ∀ x ∈ q, stops x = true) : liquidity stops q = 0 := by
  induction q with
  | nil => rfl
  | cons x l ih =>
    rw [liquidity_cons, if_pos (h x (List.mem_cons_self _ _)),
      ih (fun y hy => h y (List.mem_cons_of_mem _ hy))]

theorem liquidity_congr (stops stops2 : Order → Bool) (q : List Order)
    (h : ∀ x ∈ q, stops x = stops2 x) : liquidity stops q = liquidity stops2 q := by
  induction q with
  | nil => rfl
  | cons x l ih =>
    rw [liquidity_cons, liquidity_cons, h x (List.mem_cons_self _ _),
      ih (fun y hy => h y (List.mem_cons_of_mem _ hy))]

/-- The feasibility scan on a heap-ordered queue, when the accepted quantity fits
in 64 bits: the scan reaches `need` exactly when the quantity resting at accepted
prices does. -/
theorem scanLoop_feasible (comp : Order → Order → Bool) (stops : Order → Bool)
    (P : Order → Prop) (hw : WeakOrderOn comp P)
    (hall : ∀ (q : List Order) (t : Order), HeapOrdered comp q → (∀ x ∈ q, P x) →
      q.head? = some t → stops t = true → ∀ x ∈ q, stops x = true)
    (need : Nat) :
    ∀ (fuel : Nat) (q : List Order) (acc : Nat), q.length ≤ fuel → HeapOrdered comp q →
      (∀ x ∈ q, P x) → acc + liquidity stops q < 2 ^ 64 →
      (need ≤ scanLoop comp stops need fuel q acc ↔ need ≤ acc + liquidity stops q) := by
  intro fuel
  induction fuel with
  | zero =>
    intro q acc hlen _ _ _
    have : q = [] := by simpa using hlen
    subst this
    simp [scanLoop, liquidity_nil]
  | succ n ih =>
    intro q acc hlen hq hP hbound
    simp only [scanLoop]
    by_cases hacc : acc < need
    · rw [if_pos hacc]
      cases q with
      | nil => simp [liquidity_nil]
      | cons top l =>
        simp only [List.head?_cons]
        cases hs : stops top with
        | true =>
          simp only [if_true]
          rw [liquidity_of_all_stop stops _ (hall _ top hq hP rfl hs), Nat.add_zero]
        | false =>
          simp only [Bool.false_eq_true, if_false]
          have hperm := heapPop_perm comp top l
          have hliq : liquidity stops (top :: l)
              = top.remainingQuantity + liquidity stops (heapPop comp (top :: l)) := by
            rw [← liquidity_perm stops _ _ hperm, liquidity_cons, hs]
            simp
          rw [hliq] at hbound ⊢
          have hmod : (acc + top.remainingQuantity) % 2 ^ 64 = acc + top.remainingQuantity :=
            Nat.mod_eq_of_lt (by omega)
          rw [hmod]
          have hlen2 : (heapPop comp (top :: l)).length ≤ n := by
            rw [heapPop_length]
            simpa using hlen
          rw [ih _ _ hlen2 (heapPop_heapOrdered hw _ hq hP)
            (fun x hx => hP x (heapPop_mem comp _ x hx)) (by omega)]
          omega
    · rw [if_neg hacc]
      omega

/-- What the crossing loop leaves of the aggressor on a heap-ordered queue: the
quantity it came with, less the quantity resting at accepted prices. -/
theorem crossLoop_remaining (comp : Order → Order → Bool) (stops : Order → Bool)
    (P : Order → Prop) (hw : WeakOrderOn comp P)
    (hall : ∀ (q : List Order) (t : Order), HeapOrdered comp q → (∀ x ∈ q, P x) →
      q.head? = some t → stops t = true → ∀ x ∈ q, stops x = true) :
    ∀ (fuel : Nat) (agg : Order) (q : List Order), q.length ≤ fuel → HeapOrdered comp q →
      (∀ x ∈ q, P x) →
      (crossLoop comp stops fuel agg q).1.remainingQuantity
        = agg.remainingQuantity - min agg.remainingQuantity (liquidity stops q) := by
  intro fuel
  induction fuel with
  | zero =>
    intro agg q hlen _ _
    have : q = [] := by simpa using hlen
    subst this
    simp [crossLoop, liquidity_nil]
  | succ n ih =>
    intro agg q hlen hq hP
    simp only [crossLoop]
    by_cases hpos : agg.remainingQuantity > 0
    · rw [if_pos hpos]
      cases q with
      | nil => simp [liquidity_nil]
      | cons top l =>
        simp only [List.head?_cons]
        cases hs : stops top with
        | true =>
          simp only [if_true]
          rw [liquidity_of_all_stop stops _ (hall _ top hq hP rfl hs)]
          simp
        | false =>
          simp only [Bool.false_eq_true, if_false]
          have hliq : liquidity stops (top :: l)
              = top.remainingQuantity + liquidity stops l := by
            rw [liquidity_cons, hs]
            simp
          by_cases hlt : agg.remainingQuantity < top.remainingQuantity
          · rw [crossLoop_done]
            · simp only
              rw [hliq]
              omega
            · simp only
              omega
          · have hmin : min agg.remainingQuantity top.remainingQuantity
                = top.remainingQuantity := Nat.min_eq_right (by omega)
            rw [hmin]
            have hre : requeue comp (top :: l) top top.remainingQuantity
                = heapPop comp (top :: l) := by
              unfold requeue
              rw [if_neg (by rw [fillTop_remainingQuantity]; omega)]
            rw [hre]
            have hlen2 : (heapPop comp (top :: l)).length ≤ n := by
              rw [heapPop_length]
              simpa using hlen
            rw [ih _ _ hlen2 (heapPop_heapOrdered hw _ hq hP)
              (fun x hx => hP x (heapPop_mem comp _ x hx))]
            rw [liquidity_perm stops _ _ (heapPop_perm_tail comp (top :: l)), hliq]
            simp only [List.tail_cons]
            omega
    · rw [if_neg hpos]
      simp only
      omega

/-! ## Fill-or-kill on a heap-ordered queue -/

theorem separated_restingPrices (q : List Order)
    (h : ∀ x ∈ q, ∀ y ∈ q,
      Double.eq x.price y.price = true ∨ lit1em12 ≤ Double.fabs (x.price - y.price)) :
    SeparatedPrices (restingPrices q) := by
  rintro p ⟨x, hx, rfl⟩ r ⟨y, hy, rfl⟩
  exact h x hx y hy

/-- In a heap-ordered ask queue with separated prices no ask is cheaper than the
top. -/
theorem sell_top_cheapest (S : Set Double) (hS : SeparatedPrices S) (q : List Order) (t : Order)
    (hq : HeapOrdered SellOrderComparator q) (hP : ∀ x ∈ q, x.price ∈ S)
    (ht : q.head? = some t) : ∀ x ∈ q, t.price ≤ x.price := by
  intro x hx
  have h := heapOrdered_top_max (sellComparator_weakOrder S hS) q hq hP t ht x hx
  rw [sellComparator_false_iff S hS t x (hP t (List.mem_of_mem_head? ht)) (hP x hx)] at h
  exact h.1

/-- In a heap-ordered bid queue with separated prices no bid is dearer than the
top. -/
theorem buy_top_dearest (S : Set Double) (hS : SeparatedPrices S) (q : List Order) (t : Order)
    (hq : HeapOrdered BuyOrderComparator q) (hP : ∀ x ∈ q, x.price ∈ S)
    (ht : q.head? = some t) : ∀ x ∈ q, x.price ≤ t.price := by
  intro x hx
  have h := heapOrdered_top_max (buyComparator_weakOrder S hS) q hq hP t ht x hx
  rw [buyComparator_false_iff S hS t x (hP t (List.mem_of_mem_head? ht)) (hP x hx)] at h
  exact h.1

theorem decide_lt_eq_not_le (p q : Double) (hp : p.isNaN = false) (hq : q.isNaN = false) :
    decide (p < q) = !decide (q ≤ p) := by
  by_cases h : q ≤ p
  · simp [h, Double.not_lt_of_le h]
  · simp [h, Double.lt_of_not_le hq hp h]

theorem liquidity_eq_sum (stops : Order → Bool) (ok : Order → Bool) (q : List Order)
    (h : ∀ x ∈ q, (!stops x) = ok x) :
    liquidity stops q = ((q.filter ok).map Order.remainingQuantity).sum := by
  unfold liquidity
  rw [List.filter_congr h]

/-- A fill-or-kill buy on a heap-ordered ask queue with separated prices, the
quantity at acceptable prices fitting in 64 bits: `(feasible, remaining)`. -/
theorem fok_buy_outcome (b : OrderBook) (o : Order) (htype : o.type = "fok")
    (hact : o.action = "buy") (hnan : o.price.isNaN = false)
    (hheap : HeapOrdered SellOrderComparator b.m_sellOrders)
    (hsep : ∀ x ∈ b.m_sellOrders, ∀ y ∈ b.m_sellOrders,
      Double.eq x.price y.price = true ∨ lit1em12 ≤ Double.fabs (x.price - y.price))
    (hfit : ((b.m_sellOrders.filter fun a => decide (a.price ≤ o.price)).map
      Order.remainingQuantity).sum < 2 ^ 64) :
    (fokFeasible b o = true ↔ o.remainingQuantity ≤
      ((b.m_sellOrders.filter fun a => decide (a.price ≤ o.price)).map
        Order.remainingQuantity).sum) ∧
    (buyCross b o).1.remainingQuantity = o.remainingQuantity - min o.remainingQuantity
      ((b.m_sellOrders.filter fun a => decide (a.price ≤ o.price)).map
        Order.remainingQuantity).sum := by
  have hS := separated_restingPrices _ hsep
  have hP : ∀ x ∈ b.m_sellOrders, x.price ∈ restingPrices b.m_sellOrders :=
    fun x hx => ⟨x, hx, rfl⟩
  have hnm : ¬ o.type = "market" := by rw [htype]; decide
  have hl1 : liquidity (fokBuyStops o) b.m_sellOrders
      = ((b.m_sellOrders.filter fun a => decide (a.price ≤ o.price)).map
          Order.remainingQuantity).sum :=
    liquidity_eq_sum _ _ _ (fun x hx => by
      simp only [fokBuyStops, htype, if_true]
      rw [decide_lt_eq_not_le _ _ hnan (separated_isNaN _ hS _ (hP x hx)), Bool.not_not])
  have hl2 : liquidity (buyStops o) b.m_sellOrders
      = ((b.m_sellOrders.filter fun a => decide (a.price ≤ o.price)).map
          Order.remainingQuantity).sum :=
    liquidity_eq_sum _ _ _ (fun x hx => by
      simp only [buyStops, hnm, if_false]
      rw [decide_lt_eq_not_le _ _ hnan (separated_isNaN _ hS _ (hP x hx)), Bool.not_not])
  have hall1 : ∀ (q : List Order) (t : Order), HeapOrdered SellOrderComparator q →
      (∀ x ∈ q, x.price ∈ restingPrices b.m_sellOrders) → q.head? = some t →
      fokBuyStops o t = true → ∀ x ∈ q, fokBuyStops o x = true := by
    intro q t hq hPq ht hst x hx
    have := sell_top_cheapest _ hS q t hq hPq ht x hx
    simp only [fokBuyStops, htype, if_true, decide_eq_true_eq] at hst ⊢
    exact Double.lt_of_lt_of_le hst this
  have hall2 : ∀ (q : List Order) (t : Order), HeapOrdered SellOrderComparator q →
      (∀ x ∈ q, x.price ∈ restingPrices b.m_sellOrders) → q.head? = some t →
      buyStops o t = true → ∀ x ∈ q, buyStops o x = true := by
    intro q t hq hPq ht hst x hx
    have := sell_top_cheapest _ hS q t hq hPq ht x hx
    simp only [buyStops, hnm, if_false, decide_eq_true_eq] at hst ⊢
    exact Double.lt_of_lt_of_le hst this
  constructor
  · unfold fokFeasible
    rw [(isBuy_iff o).mpr hact, if_pos rfl, fokScanBuy_eq_scanLoop, decide_eq_true_eq, ge_iff_le,
      scanLoop_feasible _ _ _ (sellComparator_weakOrder _ hS) hall1 _ _ _ _ (Nat.le_refl _) hheap
        hP (by rw [hl1]; simpa using hfit), hl1, Nat.zero_add]
  · unfold buyCross
    rw [crossLoop_remaining _ _ _ (sellComparator_weakOrder _ hS) hall2 _ _ _ (Nat.le_refl _)
      hheap hP, hl2]

/-- A fill-or-kill sell on a heap-ordered bid queue with separated prices, the
quantity at acceptable prices fitting in 64 bits: `(feasible, remaining)`. -/
theorem fok_sell_outcome (b : OrderBook) (o : Order) (htype : o.type = "fok")
    (hact : o.action = "sell") (hnan : o.price.isNaN = false)
    (hheap : HeapOrdered BuyOrderComparator b.m_buyOrders)
    (hsep : ∀ x ∈ b.m_buyOrders, ∀ y ∈ b.m_buyOrders,
      Double.eq x.price y.price = true ∨ lit1em12 ≤ Double.fabs (x.price - y.price))
    (hfit : ((b.m_buyOrders.filter fun a => decide (o.price ≤ a.price)).map
      Order.remainingQuantity).sum < 2 ^ 64) :
    (fokFeasible b o = true ↔ o.remainingQuantity ≤
      ((b.m_buyOrders.filter fun a => decide (o.price ≤ a.price)).map
        Order.remainingQuantity).sum) ∧
    (sellCross b o).1.remainingQuantity = o.remainingQuantity - min o.remainingQuantity
      ((b.m_buyOrders.filter fun a => decide (o.price ≤ a.price)).map
        Order.remainingQuantity).sum := by
  have hS := separated_restingPrices _ hsep
  have hP : ∀ x ∈ b.m_buyOrders, x.price ∈ restingPrices b.m_buyOrders :=
    fun x hx => ⟨x, hx, rfl⟩
  have hnm : ¬ o.type = "market" := by rw [htype]; decide
  have hl1 : liquidity (fokSellStops o) b.m_buyOrders
      = ((b.m_buyOrders.filter fun a => decide (o.price ≤ a.price)).map
          Order.remainingQuantity).sum :=
    liquidity_eq_sum _ _ _ (fun x hx => by
      simp only [fokSellStops, htype, if_true]
      rw [decide_lt_eq_not_le _ _ (separated_isNaN _ hS _ (hP x hx)) hnan, Bool.not_not])
  have hl2 : liquidity (sellStops o) b.m_buyOrders
      = ((b.m_buyOrders.filter fun a => decide (o.price ≤ a.price)).map
          Order.remainingQuantity).sum :=
    liquidity_eq_sum _ _ _ (fun x hx => by
      simp only [sellStops, hnm, if_false]
      rw [decide_lt_eq_not_le _ _ (separated_isNaN _ hS _ (hP x hx)) hnan, Bool.not_not])
  have hall1 : ∀ (q : List Order) (t : Order), HeapOrdered BuyOrderComparator q →
      (∀ x ∈ q, x.price ∈ restingPrices b.m_buyOrders) → q.head? = some t →
      fokSellStops o t = true → ∀ x ∈ q, fokSellStops o x = true := by
    intro q t hq hPq ht hst x hx
    have := buy_top_dearest _ hS q t hq hPq ht x hx
    simp only [fokSellStops, htype, if_true, decide_eq_true_eq] at hst ⊢
    exact Double.lt_of_le_of_lt this hst
  have hall2 : ∀ (q : List Order) (t : Order), HeapOrdered BuyOrderComparator q →
      (∀ x ∈ q, x.price ∈ restingPrices b.m_buyOrders) → q.head? = some t →
      sellStops o t = true → ∀ x ∈ q, sellStops o x = true := by
    intro q t hq hPq ht hst x hx
    have := buy_top_dearest _ hS q t hq hPq ht x hx
    simp only [sellStops, hnm, if_false, decide_eq_true_eq] at hst ⊢
    exact Double.lt_of_le_of_lt this hst
  constructor
  · unfold fokFeasible
    rw [isBuy_of_sell o hact, if_neg (by decide), fokScanSell_eq_scanLoop, decide_eq_true_eq,
      ge_iff_le,
      scanLoop_feasible _ _ _ (buyComparator_weakOrder _ hS) hall1 _ _ _ _ (Nat.le_refl _) hheap
        hP (by rw [hl1]; simpa using hfit), hl1, Nat.zero_add]
  · unfold sellCross
    rw [crossLoop_remaining _ _ _ (buyComparator_weakOrder _ hS) hall2 _ _ _ (Nat.le_refl _)
      hheap hP, hl2]

/-! ## Sufficiency of the fuel bounds, and the wrap of the scan accumulator -/

/-- The accumulator of the feasibility scan wraps: `2^64 + 1` rests at the price of
a fill-or-kill buy for `2^64 - 1`, the scan ends with `accumQty == 1` and the order
is killed. -/
theorem fok_scan_wraps_example :
    ((exBookHugeAsks.m_sellOrders.filter fun a => decide (a.price ≤ exFokBuyHuge.price)).map
      Order.remainingQuantity).sum = 2 ^ 64 + 1 ∧
    fokScanBuy exBookHugeAsks.m_sellOrders.length exFokBuyHuge exBookHugeAsks.m_sellOrders 0
      = 1 ∧
    (processOrder exBookHugeAsks 3 exFokBuyHuge).2.status = "fok_no_fill" := by
  decide!

/-- More fuel than the index does not change the climbing phase. -/
theorem siftUp_fuel {α : Type} (comp : α → α → Bool) :
    ∀ (fuel : Nat) (l : List α) (i : Nat), i ≤ fuel →
      siftUp comp (fuel + 1) l i = siftUp comp fuel l i := by
  intro fuel
  induction fuel with
  | zero =>
    intro l i hi
    have : i = 0 := by omega
    subst this
    simp [siftUp]
  | succ n ih =>
    intro l i hi
    conv_lhs => rw [siftUp]
    conv_rhs => rw [siftUp]
    split
    · rfl
    · split
      · split
        · exact ih _ _ (by omega)
        · rfl
      · rfl

/-- More fuel than the distance to the end of the vector does not change the
sinking phase. -/
theorem sinkToLeaf_fuel {α : Type} (comp : α → α → Bool) :
    ∀ (fuel : Nat) (l : List α) (i : Nat), l.length ≤ i + fuel →
      sinkToLeaf comp (fuel + 1) l i = sinkToLeaf comp fuel l i := by
  intro fuel
  induction fuel with
  | zero =>
    intro l i hi
    have h1 : l[2 * i + 1]? = none := List.getElem?_eq_none (by omega)
    simp [sinkToLeaf, h1]
  | succ n ih =>
    intro l i hi
    conv_lhs => rw [sinkToLeaf]
    conv_rhs => rw [sinkToLeaf]
    split
    · split
      · exact ih _ _ (by rw [swapAt_length]; omega)
      · exact ih _ _ (by rw [swapAt_length]; omega)
    · rfl
    · rfl

/-- More fuel than the length of the queue does not change the crossing loop. -/
theorem crossLoop_fuel (comp : Order → Order → Bool) (stops : Order → Bool) :
    ∀ (fuel : Nat) (agg : Order) (q : List Order), q.length ≤ fuel →
      crossLoop comp stops (fuel + 1) agg q = crossLoop comp stops fuel agg q := by
  intro fuel
  induction fuel with
  | zero =>
    intro agg q hlen
    have : q = [] := by simpa using hlen
    subst this
    simp [crossLoop]
  | succ n ih =>
    intro agg q hlen
    conv_lhs => rw [crossLoop]
    conv_rhs => rw [crossLoop]
    split
    · split
      · rfl
      · rename_i top htop
        split
        · rfl
        · obtain ⟨l, rfl⟩ := List.head?_eq_some_iff.mp htop
          by_cases hlt : agg.remainingQuantity < top.remainingQuantity
          · rw [crossLoop_done _ _ _ _ _ (by simp only; omega),
              crossLoop_done _ _ _ _ _ (by simp only; omega)]
          · apply ih
            unfold requeue
            rw [if_neg (by rw [fillTop_remainingQuantity]; omega), heapPop_length]
            simpa using hlen
    · rfl

/-- More fuel than the length of the queue does not change the feasibility scan. -/
theorem scanLoop_fuel (comp : Order → Order → Bool) (stops : Order → Bool) (need : Nat) :
    ∀ (fuel : Nat) (q : List Order) (acc : Nat), q.length ≤ fuel →
      scanLoop comp stops need (fuel + 1) q acc = scanLoop comp stops need fuel q acc := by
  intro fuel
  induction fuel with
  | zero =>
    intro q acc hlen
    have : q = [] := by simpa using hlen
    subst this
    simp [scanLoop]
  | succ n ih =>
    intro q acc hlen
    conv_lhs => rw [scanLoop]
    conv_rhs => rw [scanLoop]
    split
    · split
      · rfl
      · rename_i top htop
        split
        · rfl
        · obtain ⟨l, rfl⟩ := List.head?_eq_some_iff.mp htop
          apply ih
          rw [heapPop_length]
          simpa using hlen
    · rfl

/-! ## Conservation and frame of the crossing loop -/

theorem requeue_length_le (comp : Order → Order → Bool) (q : List Order) (top : Order) (tq : Nat)
    (hq : q.head? = some top) : (requeue comp q top tq).length ≤ q.length := by
  by_cases h : 0 < top.remainingQuantity - tq
  · have := (requeue_perm_pos comp q top tq hq h).length_eq
    simp only [List.length_cons] at this
    omega
  · have := (requeue_perm_zero comp q top tq hq (by omega)).length_eq
    simp only [List.length_cons] at this
    omega

/-- The crossing loop never lengthens the queue. -/
theorem crossLoop_length_le (comp : Order → Order → Bool) (stops : Order → Bool) (fuel : Nat)
    (agg : Order) (q : List Order) : (crossLoop comp stops fuel agg q).2.length ≤ q.length := by
  refine crossLoop_induct comp stops (fun _ q' => q'.length ≤ q.length) ?_ fuel agg q
    (Nat.le_refl _)
  intro a q' top h _ htop _
  exact Nat.le_trans (requeue_length_le comp q' top _ htop) h

theorem restingTotal_perm (q q2 : List Order) (h : q.Perm q2) :
    restingTotal q = restingTotal q2 := by
  unfold restingTotal
  exact (h.map _).sum_eq

theorem restingTotal_cons (x : Order) (q : List Order) :
    restingTotal (x :: q) = x.remainingQuantity + restingTotal q := by
  simp [restingTotal]

theorem requeue_restingTotal (comp : Order → Order → Bool) (q : List Order) (top : Order)
    (tq : Nat) (hq : q.head? = some top) (htq : tq ≤ top.remainingQuantity) :
    restingTotal (requeue comp q top tq) + tq = restingTotal q := by
  by_cases h : 0 < top.remainingQuantity - tq
  · have := restingTotal_perm _ _ (requeue_perm_pos comp q top tq hq h)
    rw [restingTotal_cons, restingTotal_cons, fillTop_remainingQuantity] at this
    omega
  · have := restingTotal_perm _ _ (requeue_perm_zero comp q top tq hq (by omega))
    rw [restingTotal_cons] at this
    omega

/-- Conservation in the crossing loop: what the queue loses is what the aggressor
gets. -/
theorem crossLoop_conservation (comp : Order → Order → Bool) (stops : Order → Bool) (fuel : Nat)
    (agg : Order) (q : List Order) :
    restingTotal (crossLoop comp stops fuel agg q).2 + agg.remainingQuantity
      = restingTotal q + (crossLoop comp stops fuel agg q).1.remainingQuantity := by
  refine crossLoop_induct comp stops
    (fun a q' => restingTotal q' + agg.remainingQuantity
      = restingTotal q + a.remainingQuantity ∧ a.remainingQuantity ≤ agg.remainingQuantity)
    ?_ fuel agg q ⟨rfl, Nat.le_refl _⟩ |>.1
  intro a q' top h _ htop _
  have := requeue_restingTotal comp q' top (min a.remainingQuantity top.remainingQuantity) htop
    (Nat.min_le_right _ _)
  have h1 := h.1
  have h2 := h.2
  have h3 : min a.remainingQuantity top.remainingQuantity ≤ a.remainingQuantity :=
    Nat.min_le_left _ _
  refine ⟨?_, ?_⟩
  · simp only
    omega
  · simp only
    omega

/-- Every order in the queue after the loop is an order of the queue before it,
possibly filled in part. -/
theorem crossLoop_filledCopy (comp : Order → Order → Bool) (stops : Order → Bool) (fuel : Nat)
    (agg : Order) (q : List Order) :
    ∀ x ∈ (crossLoop comp stops fuel agg q).2, ∃ y ∈ q, FilledCopyOf x y := by
  refine crossLoop_forall comp stops (fun x => ∃ y ∈ q, FilledCopyOf x y) ?_ fuel agg q ?_
  · rintro t tq ⟨y, hy, hxy⟩ _
    refine ⟨y, hy, ?_⟩
    unfold FilledCopyOf at hxy ⊢
    unfold fillTop
    split
    · rw [hxy]
    · rw [hxy]
  · intro x hx
    exact ⟨x, hx, rfl⟩

theorem aggressor_projections (o X : Order)
    (h : X = { o with remainingQuantity := X.remainingQuantity }) :
    X.orderId = o.orderId ∧ X.type = o.type ∧ X.action = o.action ∧ X.price = o.price ∧
      X.quantity = o.quantity ∧ X.status = o.status ∧ X.isStopOrder = o.isStopOrder ∧
      X.stopPrice = o.stopPrice ∧ X.recvTimestamp = o.recvTimestamp ∧
      X.clientAddr = o.clientAddr ∧ X.clientAddrLen = o.clientAddrLen := by
  refine ⟨?_, ?_, ?_, ?_, ?_, ?_, ?_, ?_, ?_, ?_, ?_⟩ <;> rw [h]

/-- The order leaves `dispatchOrder` with every field but `remainingQuantity` and
`status` as it came. -/
theorem dispatchOrder_fields (b : OrderBook) (o : Order) :
    (dispatchOrder b o).2 = { o with
      remainingQuantity := (dispatchOrder b o).2.remainingQuantity
      status := (dispatchOrder b o).2.status } := by
  obtain ⟨b1, b2, b3, b4, b5, b6, b7, b8, b9, b10, b11⟩ :=
    aggressor_projections o _ (buyCross_aggressor b o).1
  obtain ⟨s1, s2, s3, s4, s5, s6, s7, s8, s9, s10, s11⟩ :=
    aggressor_projections o _ (sellCross_aggressor b o).1
  have hB := (buyCross_aggressor b o).1
  have hS := (sellCross_aggressor b o).1
  by_cases hioc : o.type = "ioc"
  · rw [dispatchOrder_ioc b o hioc]
    split_ifs <;>
      simp only [b1, b2, b3, b4, b5, b6, b7, b8, b9, b10, b11, s1, s2, s3, s4, s5, s6, s7, s8,
        s9, s10, s11]
  · by_cases hfok : o.type = "fok"
    · rw [dispatchOrder_fok b o hfok]
      split_ifs
      · simp only [b6]
        exact hB
      · simp only [s6]
        exact hS
      · rfl
    · by_cases hml : o.type = "market" ∨ o.type = "limit"
      · by_cases hbuy : o.isBuy = true
        · rw [dispatchOrder_buy b o hml hbuy]
          split_ifs
          · simp only [b6]
            exact hB
          · simp only [b1, b2, b3, b4, b5, b6, b7, b8, b9, b10, b11]
          · simp only [b1, b2, b3, b4, b5, b6, b7, b8, b9, b10, b11]
          · simp only [b6]
            exact hB
        · have hb' : o.isBuy = false := by simpa using hbuy
          by_cases hsell : o.isSell = true
          · rw [dispatchOrder_sell b o hml hb' hsell]
            split_ifs
            · simp only [s6]
              exact hS
            · simp only [s1, s2, s3, s4, s5, s6, s7, s8, s9, s10, s11]
            · simp only [s1, s2, s3, s4, s5, s6, s7, s8, s9, s10, s11]
            · simp only [s6]
              exact hS
          · rw [dispatchOrder_rejected b o hioc hfok (Or.inr ⟨hb', by simpa using hsell⟩)]
      · rw [dispatchOrder_rejected b o hioc hfok (Or.inl hml)]

/-! ## The immediate-or-cancel branch -/

/-- The immediate-or-cancel branch on an order that enters with a positive
`remainingQuantity`: the flag returned by `handleIOC` is true, so no status is
assigned, and the order comes back with `remainingQuantity` 0 and every other
field as it came. -/
theorem processOrder_ioc (b : OrderBook) (e : Int) (o : Order) (h : o.type = "ioc")
    (hpos : 0 < o.remainingQuantity) :
    (processOrder b e o).2 = { o with remainingQuantity := 0 } := by
  have hc : ¬ o.type = "cancel" := by rw [h]; decide
  have hsl : ¬ o.type = "stop-loss" := by rw [h]; decide
  rw [processOrder_of_not_cancel b e o hc, afterStopLoss_of_ne b o hsl]
  rw [dispatchOrder_fields]
  rw [dispatchOrder_ioc b o h, if_pos hpos]
  obtain ⟨-, -, -, -, -, b6, -⟩ := aggressor_projections o _ (buyCross_aggressor b o).1
  obtain ⟨-, -, -, -, -, s6, -⟩ := aggressor_projections o _ (sellCross_aggressor b o).1
  split_ifs <;> simp only [b6, s6]

/-! ## Orders that leave the dispatch with status open -/

theorem afterStopLoss_type (b : OrderBook) (o : Order) (h : o.type = "stop-loss") :
    (afterStopLoss b o).type = "market" ∨ (afterStopLoss b o).type = "limit" := by
  unfold afterStopLoss handleStopLoss
  rw [if_pos h]
  split_ifs
  · exact Or.inl rfl
  · exact Or.inr rfl
  · exact Or.inl rfl
  · exact Or.inr rfl

/-- How an order that is not immediate-or-cancel can leave `dispatchOrder` with the
status `open` it came with: as a limit order pushed onto its own side, as a market
order with nothing filled, or as a fill-or-kill order that was not killed. -/
theorem dispatchOrder_open (b : OrderBook) (o : Order)
    (hrem : o.remainingQuantity = o.quantity) (hioc : ¬ o.type = "ioc")
    (hfinal : (dispatchOrder b o).2.status = "open") :
    (o.type = "limit" ∧ (o.action = "buy" ∨ o.action = "sell") ∧
      (o.action = "buy" → (dispatchOrder b o).2 ∈ (dispatchOrder b o).1.m_buyOrders) ∧
      (o.action = "sell" → (dispatchOrder b o).2 ∈ (dispatchOrder b o).1.m_sellOrders)) ∨
    (o.type = "market" ∧ (o.action = "buy" ∨ o.action = "sell") ∧
      (dispatchOrder b o).2.remainingQuantity = o.quantity) ∨
    (o.type = "fok" ∧ fokFeasible b o = true) := by
  by_cases hfok : o.type = "fok"
  · right; right
    refine ⟨hfok, ?_⟩
    by_contra hf
    rw [dispatchOrder_fok b o hfok, if_neg hf] at hfinal
    dsimp only at hfinal
    exact absurd hfinal (by decide)
  · by_cases hml : o.type = "market" ∨ o.type = "limit"
    · by_cases hb : o.isBuy = true
      · have hact : o.action = "buy" := (isBuy_iff o).mp hb
        have hns : ¬ o.action = "sell" := by rw [hact]; decide
        have hle := (buyCross_aggressor b o).2
        rw [dispatchOrder_buy b o hml hb] at hfinal ⊢
        split_ifs at hfinal ⊢ with h1 h2 h3
        · left
          refine ⟨h1.2, Or.inl hact, fun _ => ?_, fun h => absurd h hns⟩
          exact (heapPush_perm _ _ _).mem_iff.mpr (List.mem_cons_self _ _)
        · dsimp only at hfinal
          exact absurd hfinal (by decide)
        · dsimp only at hfinal
          exact absurd hfinal (by decide)
        · right; left
          have hm : o.type = "market" := by
            rcases hml with h | h
            · exact h
            · exact absurd ⟨Nat.pos_of_ne_zero h2, h⟩ h1
          refine ⟨hm, Or.inl hact, ?_⟩
          dsimp only
          omega
      · have hb' : o.isBuy = false := by simpa using hb
        have hnb : ¬ o.action = "buy" := fun h => hb ((isBuy_iff o).mpr h)
        by_cases hs : o.isSell = true
        · have hact : o.action = "sell" := (isSell_iff o).mp hs
          have hle := (sellCross_aggressor b o).2
          rw [dispatchOrder_sell b o hml hb' hs] at hfinal ⊢
          split_ifs at hfinal ⊢ with h1 h2 h3
          · left
            refine ⟨h1.2, Or.inr hact, fun h => absurd h hnb, fun _ => ?_⟩
            exact (heapPush_perm _ _ _).mem_iff.mpr (List.mem_cons_self _ _)
          · dsimp only at hfinal
            exact absurd hfinal (by decide)
          · dsimp only at hfinal
            exact absurd hfinal (by decide)
          · right; left
            have hm : o.type = "market" := by
              rcases hml with h | h
              · exact h
              · exact absurd ⟨Nat.pos_of_ne_zero h2, h⟩ h1
            refine ⟨hm, Or.inr hact, ?_⟩
            dsimp only
            omega
        · rw [dispatchOrder_rejected b o hioc hfok (Or.inr ⟨hb', by simpa using hs⟩)] at hfinal
          dsimp only at hfinal
          exact absurd hfinal (by decide)
    · rw [dispatchOrder_rejected b o hioc hfok (Or.inl hml)] at hfinal
      dsimp only at hfinal
      exact absurd hfinal (by decide)

/-! ## The order returned by processOrder, and orders that traded nothing -/

/-- The order leaves `processOrder` as the stop-loss branch left it, up to
`remainingQuantity` and `status`. -/
theorem processOrder_fields (b : OrderBook) (e : Int) (o : Order) :
    (processOrder b e o).2 = { afterStopLoss b o with
      remainingQuantity := (processOrder b e o).2.remainingQuantity
      status := (processOrder b e o).2.status } := by
  by_cases hc : o.type = "cancel"
  · have hsl : ¬ o.type = "stop-loss" := by rw [hc]; decide
    rw [processOrder_cancel b e o hc, afterStopLoss_of_ne b o hsl]
  · rw [processOrder_of_not_cancel b e o hc]
    exact dispatchOrder_fields b (afterStopLoss b o)

theorem afterStopLoss_not_ioc (b : OrderBook) (o : Order) (h : ¬ o.type = "ioc") :
    ¬ (afterStopLoss b o).type = "ioc" := by
  by_cases hsl : o.type = "stop-loss"
  · rcases afterStopLoss_type b o hsl with h1 | h1 <;> rw [h1] <;> decide
  · rw [afterStopLoss_of_ne b o hsl]
    exact h

/-- When neither side of the book has lost quantity in `dispatchOrder`, an order
that is not immediate-or-cancel has had nothing filled. -/
theorem dispatchOrder_untraded (b : OrderBook) (o : Order) (hioc : ¬ o.type = "ioc")
    (hs : restingTotal b.m_sellOrders ≤ restingTotal (dispatchOrder b o).1.m_sellOrders)
    (hb : restingTotal b.m_buyOrders ≤ restingTotal (dispatchOrder b o).1.m_buyOrders) :
    o.remainingQuantity ≤ (dispatchOrder b o).2.remainingQuantity ∨
      (dispatchOrder b o).2.remainingQuantity = o.quantity := by
  have hbc := crossLoop_conservation SellOrderComparator (buyStops o)
    b.m_sellOrders.length o b.m_sellOrders
  change restingTotal (buyCross b o).2 + o.remainingQuantity
    = restingTotal b.m_sellOrders + (buyCross b o).1.remainingQuantity at hbc
  have hsc := crossLoop_conservation BuyOrderComparator (sellStops o)
    b.m_buyOrders.length o b.m_buyOrders
  change restingTotal (sellCross b o).2 + o.remainingQuantity
    = restingTotal b.m_buyOrders + (sellCross b o).1.remainingQuantity at hsc
  by_cases hfok : o.type = "fok"
  · rw [dispatchOrder_fok b o hfok] at hs hb ⊢
    split_ifs at hs hb ⊢ <;> dsimp only at hs hb ⊢
    · left; omega
    · left; omega
    · right; trivial
  · by_cases hml : o.type = "market" ∨ o.type = "limit"
    · by_cases hbuy : o.isBuy = true
      · rw [dispatchOrder_buy b o hml hbuy] at hs hb ⊢
        split_ifs at hs hb ⊢ <;> dsimp only at hs hb ⊢ <;> left <;> omega
      · have hb' : o.isBuy = false := by simpa using hbuy
        by_cases hsell : o.isSell = true
        · rw [dispatchOrder_sell b o hml hb' hsell] at hs hb ⊢
          split_ifs at hs hb ⊢ <;> dsimp only at hs hb ⊢ <;> left <;> omega
        · rw [dispatchOrder_rejected b o hioc hfok (Or.inr ⟨hb', by simpa using hsell⟩)]
          exact Or.inl (Nat.le_refl _)
    · rw [dispatchOrder_rejected b o hioc hfok (Or.inl hml)]
      exact Or.inl (Nat.le_refl _)

/-! ## Stop-loss triggers and the unknown side -/

theorem bestSell_le_iff (b : OrderBook) (p : Double) :
    bestSell b ≤ p ↔
      (∃ t, b.m_sellOrders.head? = some t ∧ t.price ≤ p) ∨
        (b.m_sellOrders = [] ∧ lit1e15 ≤ p) := by
  unfold bestSell
  cases h : b.m_sellOrders with
  | nil => simp
  | cons t l => simp

theorem bestBuy_ge_iff (b : OrderBook) (p : Double) :
    bestBuy b ≥ p ↔
      (∃ t, b.m_buyOrders.head? = some t ∧ p ≤ t.price) ∨
        (b.m_buyOrders = [] ∧ p ≤ Double.fin 0) := by
  unfold bestBuy
  cases h : b.m_buyOrders with
  | nil => simp
  | cons t l => simp

/-- The unknown side in the market/limit branch, also after a stop-loss conversion:
the order is rejected and the book is not touched. -/
theorem unknown_side_rejected (b : OrderBook) (e : Int) (o : Order)
    (htype : o.type = "market" ∨ o.type = "limit" ∨ o.type = "stop-loss")
    (hnb : o.action ≠ "buy") (hns : o.action ≠ "sell") :
    (processOrder b e o).2.status = "rejected" ∧
      (processOrder b e o).1.m_buyOrders = b.m_buyOrders ∧
      (processOrder b e o).1.m_sellOrders = b.m_sellOrders := by
  have hc : ¬ o.type = "cancel" := by
    rcases htype with h | h | h <;> rw [h] <;> decide
  obtain ⟨-, -, -, ha', -⟩ := afterStopLoss_fields b o
  have hml : (afterStopLoss b o).type = "market" ∨ (afterStopLoss b o).type = "limit" := by
    rcases htype with h | h | h
    · rw [afterStopLoss_of_ne b o (by rw [h]; decide)]; exact Or.inl h
    · rw [afterStopLoss_of_ne b o (by rw [h]; decide)]; exact Or.inr h
    · exact afterStopLoss_type b o h
  have hb : (afterStopLoss b o).isBuy = false := by
    cases h : (afterStopLoss b o).isBuy with
    | false => rfl
    | true => exact absurd (ha' ▸ (isBuy_iff _).mp h) hnb
  have hs : (afterStopLoss b o).isSell = false := by
    cases h : (afterStopLoss b o).isSell with
    | false => rfl
    | true => exact absurd (ha' ▸ (isSell_iff _).mp h) hns
  rw [processOrder_of_not_cancel b e o hc,
    dispatchOrder_rejected b _ (by rcases hml with h | h <;> rw [h] <;> decide)
      (by rcases hml with h | h <;> rw [h] <;> decide) (Or.inr ⟨hb, hs⟩)]
  exact ⟨rfl, rfl, rfl⟩

/-! ## The immediate-or-cancel flag, and what the dispatch trades -/

/-- The flag returned by `handleIOC` tells whether the order came with a positive
`remainingQuantity`: the comparison is made after the remainder was set to 0. -/
theorem handleIOC_flag (b : OrderBook) (o : Order) :
    (handleIOC b o).2.2 = decide (0 < o.remainingQuantity) := by
  unfold handleIOC
  rfl

/-- The immediate-or-cancel branch on an order that enters with `remainingQuantity`
0: the flag of `handleIOC` is false and the status is assigned. -/
theorem processOrder_ioc_zero (b : OrderBook) (e : Int) (o : Order) (h : o.type = "ioc")
    (hz : o.remainingQuantity = 0) :
    (processOrder b e o).2 = { o with
      remainingQuantity := 0
      status := if o.quantity = 0 then "executed" else "ioc_no_fill" } := by
  have hc : ¬ o.type = "cancel" := by rw [h]; decide
  have hsl : ¬ o.type = "stop-loss" := by rw [h]; decide
  rw [processOrder_of_not_cancel b e o hc, afterStopLoss_of_ne b o hsl]
  have hnp : ¬ 0 < o.remainingQuantity := by omega
  rw [dispatchOrder_fields]
  rw [dispatchOrder_ioc b o h, if_neg hnp]

/-- What an order that is not immediate-or-cancel and enters with
`remainingQuantity == quantity` gets filled in `dispatchOrder` is what the opposite
side loses: the asks for a buy, the bids for every other order. -/
theorem dispatchOrder_traded (b : OrderBook) (o : Order) (hioc : ¬ o.type = "ioc")
    (hrem : o.remainingQuantity = o.quantity) :
    (dispatchOrder b o).2.remainingQuantity ≤ o.quantity ∧
    (o.isBuy = true →
      restingTotal (dispatchOrder b o).1.m_sellOrders + o.quantity
        = restingTotal b.m_sellOrders + (dispatchOrder b o).2.remainingQuantity ∧
      restingTotal b.m_buyOrders ≤ restingTotal (dispatchOrder b o).1.m_buyOrders) ∧
    (o.isBuy = false →
      restingTotal (dispatchOrder b o).1.m_buyOrders + o.quantity
        = restingTotal b.m_buyOrders + (dispatchOrder b o).2.remainingQuantity ∧
      restingTotal b.m_sellOrders ≤ restingTotal (dispatchOrder b o).1.m_sellOrders) := by
  have hbc := crossLoop_conservation SellOrderComparator (buyStops o)
    b.m_sellOrders.length o b.m_sellOrders
  change restingTotal (buyCross b o).2 + o.remainingQuantity
    = restingTotal b.m_sellOrders + (buyCross b o).1.remainingQuantity at hbc
  have hsc := crossLoop_conservation BuyOrderComparator (sellStops o)
    b.m_buyOrders.length o b.m_buyOrders
  change restingTotal (sellCross b o).2 + o.remainingQuantity
    = restingTotal b.m_buyOrders + (sellCross b o).1.remainingQuantity at hsc
  have hba := (buyCross_aggressor b o).2
  have hsa := (sellCross_aggressor b o).2
  have hpushB : restingTotal (heapPush BuyOrderComparator b.m_buyOrders (buyCross b o).1)
      = (buyCross b o).1.remainingQuantity + restingTotal b.m_buyOrders := by
    rw [restingTotal_perm _ _ (heapPush_perm _ _ _), restingTotal_cons]
  have hpushS : restingTotal (heapPush SellOrderComparator b.m_sellOrders (sellCross b o).1)
      = (sellCross b o).1.remainingQuantity + restingTotal b.m_sellOrders := by
    rw [restingTotal_perm _ _ (heapPush_perm _ _ _), restingTotal_cons]
  by_cases hfok : o.type = "fok"
  · rw [dispatchOrder_fok b o hfok]
    by_cases hbuy : o.isBuy = true
    · have hnb : ¬ o.isBuy = false := by rw [hbuy]; decide
      split_ifs <;> dsimp only <;>
        exact ⟨by omega, fun _ => ⟨by omega, Nat.le_refl _⟩, fun h => absurd h hnb⟩
    · split_ifs <;> dsimp only <;>
        exact ⟨by omega, fun h => absurd h hbuy, fun _ => ⟨by omega, Nat.le_refl _⟩⟩
  · by_cases hml : o.type = "market" ∨ o.type = "limit"
    · by_cases hbuy : o.isBuy = true
      · have hnb : ¬ o.isBuy = false := by rw [hbuy]; decide
        rw [dispatchOrder_buy b o hml hbuy]
        split_ifs <;> dsimp only <;>
          exact ⟨by omega, fun _ => ⟨by omega, by omega⟩, fun h => absurd h hnb⟩
      · have hb' : o.isBuy = false := by simpa using hbuy
        by_cases hsell : o.isSell = true
        · rw [dispatchOrder_sell b o hml hb' hsell]
          split_ifs <;> dsimp only <;>
            exact ⟨by omega, fun h => absurd h hbuy, fun _ => ⟨by omega, by omega⟩⟩
        · rw [dispatchOrder_rejected b o hioc hfok (Or.inr ⟨hb', by simpa using hsell⟩)]
          exact ⟨by dsimp only; omega, fun h => absurd h hbuy,
            fun _ => ⟨by dsimp only; omega, Nat.le_refl _⟩⟩
    · rw [dispatchOrder_rejected b o hioc hfok (Or.inl hml)]
      by_cases hbuy : o.isBuy = true
      · have hnb : ¬ o.isBuy = false := by rw [hbuy]; decide
        exact ⟨by dsimp only; omega, fun _ => ⟨by dsimp only; omega, Nat.le_refl _⟩,
          fun h => absurd h hnb⟩
      · exact ⟨by dsimp only; omega, fun h => absurd h hbuy,
          fun _ => ⟨by dsimp only; omega, Nat.le_refl _⟩⟩

/-! ## The counters after a sequence of calls -/

theorem afterStopLoss_recvTimestamp (b : OrderBook) (o : Order) :
    (afterStopLoss b o).recvTimestamp = o.recvTimestamp := by
  unfold afterStopLoss handleStopLoss
  split_ifs <;> rfl

/-- The latency sample of a call is taken from the timestamp the order came with. -/
theorem latencyNs_processOrder (b : OrderBook) (e : Int) (o : Order) :
    latencyNs e (processOrder b e o).2 = latencyNs e o := by
  unfold latencyNs
  rw [processOrder_fields]
  dsimp only
  rw [afterStopLoss_recvTimestamp]

/-- The dispatch does not touch the counters. -/
theorem dispatchOrder_counters (b : OrderBook) (o : Order) :
    (dispatchOrder b o).1.m_ordersProcessed = b.m_ordersProcessed ∧
      (dispatchOrder b o).1.m_totalLatencyNs = b.m_totalLatencyNs ∧
      (dispatchOrder b o).1.m_minLatencyNs = b.m_minLatencyNs ∧
      (dispatchOrder b o).1.m_maxLatencyNs = b.m_maxLatencyNs := by
  rcases dispatchOrder_shape b o with h | ⟨-, h⟩ | ⟨-, h⟩ | ⟨-, -, -, h⟩ | ⟨-, -, -, h⟩ <;>
    rw [h] <;> exact ⟨rfl, rfl, rfl, rfl⟩

/-- The telemetry update of one call of `processOrder`, whatever the order. -/
theorem processOrder_counters (b : OrderBook) (e : Int) (o : Order) :
    (processOrder b e o).1.m_ordersProcessed = (b.m_ordersProcessed + 1) % 2 ^ 64 ∧
      (processOrder b e o).1.m_totalLatencyNs
        = (b.m_totalLatencyNs + latencyNs e o) % 2 ^ 64 ∧
      (processOrder b e o).1.m_minLatencyNs
        = (if latencyNs e o < b.m_minLatencyNs then latencyNs e o else b.m_minLatencyNs) ∧
      (processOrder b e o).1.m_maxLatencyNs
        = (if latencyNs e o > b.m_maxLatencyNs then latencyNs e o else b.m_maxLatencyNs) := by
  have hlat := latencyNs_processOrder b e o
  by_cases hc : o.type = "cancel"
  · rw [processOrder_cancel b e o hc] at hlat ⊢
    dsimp only at hlat ⊢
    unfold recordLatency
    dsimp only
    rw [hlat]
    exact ⟨rfl, rfl, rfl, rfl⟩
  · rw [processOrder_of_not_cancel b e o hc] at hlat ⊢
    dsimp only at hlat ⊢
    obtain ⟨h1, h2, h3, h4⟩ := dispatchOrder_counters b (afterStopLoss b o)
    unfold recordLatency
    dsimp only
    rw [hlat, h1, h2, h3, h4]
    exact ⟨rfl, rfl, rfl, rfl⟩

theorem latencyNs_lt (e : Int) (o : Order) : latencyNs e o < 2 ^ 64 := by
  unfold latencyNs
  have h1 : (0 : Int) ≤ (e - o.recvTimestamp) % 2 ^ 64 := Int.emod_nonneg _ (by norm_num)
  have h2 : (e - o.recvTimestamp) % 2 ^ 64 < 2 ^ 64 := Int.emod_lt_of_pos _ (by norm_num)
  omega

theorem processAll_nil (b : OrderBook) : processAll b [] = b := rfl

theorem processAll_cons (b : OrderBook) (c : Int × Order) (calls : List (Int × Order)) :
    processAll b (c :: calls) = processAll (processOrder b c.1 c.2).1 calls := rfl

theorem processAll_append (b : OrderBook) (l1 l2 : List (Int × Order)) :
    processAll b (l1 ++ l2) = processAll (processAll b l1) l2 := by
  unfold processAll
  rw [List.foldl_append]

/-- The counters after a sequence of calls.  If the book was reached through `n`
calls whose samples add up to `sum`, the book after the further calls has counted
`n + calls.length` calls and the sum of all samples, both modulo `2^64`, and its
minimum and maximum bound the exact sum from below and from above. -/
theorem processAll_telemetry (calls : List (Int × Order)) :
    ∀ (b : OrderBook) (n sum : Nat),
      b.m_ordersProcessed = n % 2 ^ 64 → b.m_totalLatencyNs = sum % 2 ^ 64 →
      b.m_minLatencyNs * n ≤ sum → sum ≤ b.m_maxLatencyNs * n →
      (processAll b calls).m_ordersProcessed = (n + calls.length) % 2 ^ 64 ∧
      (processAll b calls).m_totalLatencyNs
        = (sum + (latencySamples calls).sum) % 2 ^ 64 ∧
      (processAll b calls).m_minLatencyNs * (n + calls.length)
        ≤ sum + (latencySamples calls).sum ∧
      sum + (latencySamples calls).sum
        ≤ (processAll b calls).m_maxLatencyNs * (n + calls.length) := by
  induction calls with
  | nil =>
    intro b n sum h1 h2 h3 h4
    simpa [processAll_nil, latencySamples] using ⟨h1, h2, h3, h4⟩
  | cons c rest ih =>
    intro b n sum h1 h2 h3 h4
    obtain ⟨c1, c2, c3, c4⟩ := processOrder_counters b c.1 c.2
    have hstep := ih (processOrder b c.1 c.2).1 (n + 1) (sum + latencyNs c.1 c.2)
      (by rw [c1, h1]; omega) (by rw [c2, h2]; omega)
      (by
        rw [c3]
        split_ifs with hlt
        · have := Nat.mul_le_mul_right n (Nat.le_of_lt hlt)
          rw [Nat.mul_succ]
          omega
        · rw [Nat.mul_succ]
          omega)
      (by
        rw [c4]
        split_ifs with hgt
        · have := Nat.mul_le_mul_right n (Nat.le_of_lt hgt)
          rw [Nat.mul_succ]
          omega
        · rw [Nat.mul_succ]
          omega)
    rw [processAll_cons]
    have hlen : n + (c :: rest).length = n + 1 + rest.length := by
      rw [List.length_cons]; omega
    have hsum : sum + (latencySamples (c :: rest)).sum
        = sum + latencyNs c.1 c.2 + (latencySamples rest).sum := by
      simp [latencySamples, Nat.add_assoc]
    rw [hlen, hsum]
    exact hstep

theorem latencySamples_lt (calls : List (Int × Order)) :
    ∀ s ∈ latencySamples calls, s < 2 ^ 64 := by
  intro s hs
  obtain ⟨c, -, rfl⟩ := List.mem_map.mp hs
  exact latencyNs_lt c.1 c.2

/-! ## The book is not crossed -/

theorem afterStopLoss_limit_price (S : Set Double) (b : OrderBook) (o : Order)
    (ho : RestsPricedIn S o) (hl : (afterStopLoss b o).type = "limit") :
    (afterStopLoss b o).price ∈ S := by
  by_cases hsl : o.type = "stop-loss"
  · unfold afterStopLoss handleStopLoss at hl ⊢
    rw [if_pos hsl] at hl ⊢
    split_ifs at hl ⊢ with h1 h2 h3
    · dsimp only at hl
      exact absurd hl (by decide)
    · exact ho.2 hsl
    · dsimp only at hl
      exact absurd hl (by decide)
    · exact ho.2 hsl
  · rw [afterStopLoss_of_ne b o hsl] at hl ⊢
    exact ho.1 hl

/-- One call of `processOrder` keeps the book in heap order, priced in `S` and not
crossed, when the prices at which the order can rest come from the separated set
`S`. -/
theorem processOrder_uncrossed (S : Set Double) (hS : SeparatedPrices S) (b : OrderBook) (e : Int)
    (o : Order) (hB : HeapOrdered BuyOrderComparator b.m_buyOrders)
    (hA : HeapOrdered SellOrderComparator b.m_sellOrders)
    (hP : ∀ x, x ∈ b.m_buyOrders ∨ x ∈ b.m_sellOrders → x.price ∈ S)
    (hU : ∀ x ∈ b.m_buyOrders, ∀ y ∈ b.m_sellOrders, x.price < y.price)
    (ho : RestsPricedIn S o) :
    HeapOrdered BuyOrderComparator (processOrder b e o).1.m_buyOrders ∧
      HeapOrdered SellOrderComparator (processOrder b e o).1.m_sellOrders ∧
      (∀ x, x ∈ (processOrder b e o).1.m_buyOrders ∨ x ∈ (processOrder b e o).1.m_sellOrders →
        x.price ∈ S) ∧
      ∀ x ∈ (processOrder b e o).1.m_buyOrders, ∀ y ∈ (processOrder b e o).1.m_sellOrders,
        x.price < y.price := by
  by_cases hc : o.type = "cancel"
  · rw [processOrder_cancel b e o hc]
    exact ⟨hB, hA, hP, hU⟩
  · rw [processOrder_of_not_cancel b e o hc]
    simp only [recordLatency_buyOrders, recordLatency_sellOrders]
    have hlim := afterStopLoss_limit_price S b o ho
    generalize afterStopLoss b o = o' at hlim
    have hPfill : ∀ (t : Order) (tq : Nat), t.price ∈ S → (fillTop t tq).price ∈ S := by
      intro t tq ht
      rw [fillTop_price]; exact ht
    have hbc := crossLoop_heapOrdered SellOrderComparator (buyStops o')
      (fun x => x.price ∈ S) (sellComparator_weakOrder S hS) hPfill b.m_sellOrders.length
      o' b.m_sellOrders hA (fun x hx => hP x (Or.inr hx))
    have hsc := crossLoop_heapOrdered BuyOrderComparator (sellStops o')
      (fun x => x.price ∈ S) (buyComparator_weakOrder S hS) hPfill b.m_buyOrders.length
      o' b.m_buyOrders hB (fun x hx => hP x (Or.inl hx))
    have hbcopy := crossLoop_filledCopy SellOrderComparator (buyStops o')
      b.m_sellOrders.length o' b.m_sellOrders
    have hscopy := crossLoop_filledCopy BuyOrderComparator (sellStops o')
      b.m_buyOrders.length o' b.m_buyOrders
    have hbexit := crossLoop_exit SellOrderComparator (buyStops o') b.m_sellOrders.length o'
      b.m_sellOrders (Nat.le_refl _)
    have hsexit := crossLoop_exit BuyOrderComparator (sellStops o') b.m_buyOrders.length o'
      b.m_buyOrders (Nat.le_refl _)
    change HeapOrdered SellOrderComparator (buyCross b o').2 ∧
      ∀ x ∈ (buyCross b o').2, x.price ∈ S at hbc
    change HeapOrdered BuyOrderComparator (sellCross b o').2 ∧
      ∀ x ∈ (sellCross b o').2, x.price ∈ S at hsc
    change ∀ x ∈ (buyCross b o').2, _ at hbcopy
    change ∀ x ∈ (sellCross b o').2, _ at hscopy
    change (buyCross b o').1.remainingQuantity = 0 ∨ (buyCross b o').2 = [] ∨
      ∃ t, (buyCross b o').2.head? = some t ∧ buyStops o' t = true at hbexit
    change (sellCross b o').1.remainingQuantity = 0 ∨ (sellCross b o').2 = [] ∨
      ∃ t, (sellCross b o').2.head? = some t ∧ sellStops o' t = true at hsexit
    -- the asks left by a buy are priced as asks that rested before, and so above the bids
    have hUb : ∀ x ∈ b.m_buyOrders, ∀ y ∈ (buyCross b o').2, x.price < y.price := by
      intro x hx y hy
      obtain ⟨y0, hy0, hc0⟩ := hbcopy y hy
      have hp : y.price = y0.price := by unfold FilledCopyOf at hc0; rw [hc0]
      rw [hp]
      exact hU x hx y0 hy0
    have hUs : ∀ x ∈ (sellCross b o').2, ∀ y ∈ b.m_sellOrders, x.price < y.price := by
      intro x hx y hy
      obtain ⟨x0, hx0, hc0⟩ := hscopy x hx
      have hp : x.price = x0.price := by unfold FilledCopyOf at hc0; rw [hc0]
      rw [hp]
      exact hU x0 hx0 y hy
    have hba := (buyCross_aggressor b o').1
    have hsa := (sellCross_aggressor b o').1
    rcases dispatchOrder_shape b o' with h | ⟨-, h⟩ | ⟨-, h⟩ | ⟨-, hpos, hl, h⟩ |
        ⟨-, hpos, hl, h⟩
    · rw [h]; exact ⟨hB, hA, hP, hU⟩
    · rw [h]
      refine ⟨hB, hbc.1, ?_, hUb⟩
      rintro x (hx | hx)
      · exact hP x (Or.inl hx)
      · exact hbc.2 x hx
    · rw [h]
      refine ⟨hsc.1, hA, ?_, hUs⟩
      rintro x (hx | hx)
      · exact hsc.2 x hx
      · exact hP x (Or.inr hx)
    · rw [h]
      have hprice : (buyCross b o').1.price = o'.price := by rw [hba]
      have hpS : (buyCross b o').1.price ∈ S := by rw [hprice]; exact hlim hl
      have hnm : ¬ o'.type = "market" := by rw [hl]; decide
      refine ⟨heapPush_heapOrdered (buyComparator_weakOrder S hS) _ _ hB
        (fun x hx => hP x (Or.inl hx)) hpS, hbc.1, ?_, ?_⟩
      · rintro x (hx | hx)
        · rcases List.mem_cons.mp ((heapPush_perm _ _ _).mem_iff.mp hx) with h1 | h1
          · rw [h1]; exact hpS
          · exact hP x (Or.inl h1)
        · exact hbc.2 x hx
      · intro x hx y hy
        rcases List.mem_cons.mp ((heapPush_perm _ _ _).mem_iff.mp hx) with h1 | h1
        · rcases hbexit with h0 | h0 | ⟨t, ht, hst⟩
          · omega
          · rw [h0] at hy; exact absurd hy (List.not_mem_nil _)
          · have htop := sell_top_cheapest S hS _ t hbc.1 hbc.2 ht y hy
            have hlt : o'.price < t.price := by simpa [buyStops, hnm] using hst
            rw [h1, hprice]
            exact Double.lt_of_lt_of_le hlt htop
        · exact hUb x h1 y hy
    · rw [h]
      have hprice : (sellCross b o').1.price = o'.price := by rw [hsa]
      have hpS : (sellCross b o').1.price ∈ S := by rw [hprice]; exact hlim hl
      have hnm : ¬ o'.type = "market" := by rw [hl]; decide
      refine ⟨hsc.1, heapPush_heapOrdered (sellComparator_weakOrder S hS) _ _ hA
        (fun x hx => hP x (Or.inr hx)) hpS, ?_, ?_⟩
      · rintro x (hx | hx)
        · exact hsc.2 x hx
        · rcases List.mem_cons.mp ((heapPush_perm _ _ _).mem_iff.mp hx) with h1 | h1
          · rw [h1]; exact hpS
          · exact hP x (Or.inr h1)
      · intro x hx y hy
        rcases List.mem_cons.mp ((heapPush_perm _ _ _).mem_iff.mp hy) with h1 | h1
        · rcases hsexit with h0 | h0 | ⟨t, ht, hst⟩
          · omega
          · rw [h0] at hx; exact absurd hx (List.not_mem_nil _)
          · have htop := buy_top_dearest S hS _ t hsc.1 hsc.2 ht x hx
            have hlt : t.price < o'.price := by simpa [sellStops, hnm] using hst
            rw [h1, hprice]
            exact Double.lt_of_le_of_lt htop hlt
        · exact hUs x hx y h1

/-- Every book reachable through orders whose resting prices come from a separated
set is in heap order, priced in the set, and not crossed. -/
theorem reachable_uncrossed (S : Set Double) (hS : SeparatedPrices S) (b : OrderBook)
    (hb : ReachableBy (RestsPricedIn S) b) :
    HeapOrdered BuyOrderComparator b.m_buyOrders ∧
      HeapOrdered SellOrderComparator b.m_sellOrders ∧
      (∀ x, x ∈ b.m_buyOrders ∨ x ∈ b.m_sellOrders → x.price ∈ S) ∧
      ∀ x ∈ b.m_buyOrders, ∀ y ∈ b.m_sellOrders, x.price < y.price := by
  induction hb with
  | init =>
    refine ⟨?_, ?_, ?_, ?_⟩
    · intro i p v _ hp _
      simp [OrderBook.new] at hp
    · intro i p v _ hp _
      simp [OrderBook.new] at hp
    · rintro x (hx | hx) <;> simp [OrderBook.new] at hx
    · intro x hx
      simp [OrderBook.new] at hx
  | @step b0 e o _ hok ih =>
    obtain ⟨hB, hA, hP, hU⟩ := ih
    exact processOrder_uncrossed S hS b0 e o hB hA hP hU hok

/-! ## JSON text: building and parsing -/

theorem strLess_irrefl (a : List Char) : strLess a a = false := by
  induction a with
  | nil => rfl
  | cons x xs ih => simp [strLess, ih]

theorem strLess_asymm (a : List Char) : ∀ b : List Char, strLess a b = true →
    strLess b a = false := by
  induction a with
  | nil =>
    intro b h
    cases b with
    | nil => rfl
    | cons y ys => rfl
  | cons x xs ih =>
    intro b h
    cases b with
    | nil => simp [strLess] at h
    | cons y ys =>
      simp only [strLess] at h ⊢
      by_cases h1 : x.toNat < y.toNat
      · rw [if_neg (by omega), if_pos h1]
      · rw [if_neg h1] at h
        by_cases h2 : y.toNat < x.toNat
        · rw [if_pos h2] at h
          exact absurd h (by decide)
        · rw [if_neg h2] at h
          rw [if_neg h2, if_neg h1]
          exact ih ys h

/-- A key above every key of the map goes to the end. -/
theorem mapAssign_last (key val : List Char) :
    ∀ acc : List (List Char × List Char), (∀ e ∈ acc, strLess e.1 key = true) →
      mapAssign acc key val = acc ++ [(key, val)] := by
  intro acc
  induction acc with
  | nil => intro _; rfl
  | cons e rest ih =>
    intro h
    have he : strLess e.1 key = true := h e (List.mem_cons_self _ _)
    have hne : ¬ strLess key e.1 = true := by
      rw [strLess_asymm _ _ he]
      decide
    obtain ⟨k, v⟩ := e
    simp only [mapAssign]
    rw [if_neg hne, if_pos he, ih (fun e' he' => h e' (List.mem_cons_of_mem _ he'))]
    rfl

/-- Assigning the entries of a map in key order rebuilds the map. -/
theorem foldl_mapAssign_sorted :
    ∀ (rest pre : List (List Char × List Char)),
      (pre ++ rest).Pairwise (fun a b => strLess a.1 b.1 = true) →
      rest.foldl (fun r kv => mapAssign r kv.1 kv.2) pre = pre ++ rest := by
  intro rest
  induction rest with
  | nil => intro pre _; simp
  | cons kv rest ih =>
    intro pre h
    rw [List.foldl_cons]
    have hlast : ∀ e ∈ pre, strLess e.1 kv.1 = true := by
      intro e he
      exact (List.pairwise_append.mp h).2.2 e he kv (List.mem_cons_self _ _)
    rw [mapAssign_last kv.1 kv.2 pre hlast]
    have h' : (pre ++ [(kv.1, kv.2)] ++ rest).Pairwise (fun a b => strLess a.1 b.1 = true) := by
      simpa [List.append_assoc] using h
    rw [ih _ h']
    simp [List.append_assoc]

/-- A string without quote and backslash is written to the stream as it is. -/
theorem escapeLoop_clean :
    ∀ (input ss : List Char), (∀ c ∈ input, c ≠ quoteChar ∧ c ≠ backslashChar) →
      escapeLoop input ss = ss ++ input := by
  intro input
  induction input with
  | nil => intro ss _; simp [escapeLoop]
  | cons c cs ih =>
    intro ss h
    have hc := h c (List.mem_cons_self _ _)
    simp only [escapeLoop]
    rw [if_neg hc.1, if_neg hc.2, ih _ (fun c' hc' => h c' (List.mem_cons_of_mem _ hc'))]
    simp [List.append_assoc]

theorem escapeJsonString_clean (input : List Char)
    (h : ∀ c ∈ input, c ≠ quoteChar ∧ c ≠ backslashChar) :
    escapeJsonString input = quoteChar :: (input ++ [quoteChar]) := by
  unfold escapeJsonString
  rw [escapeLoop_clean input _ h]
  simp

theorem findFrom_skip (c : Char) (rest : List Char) :
    ∀ (a : List Char) (i : Nat), c ∉ a → findFrom c (a ++ c :: rest) i = some (i + a.length) := by
  intro a
  induction a with
  | nil => intro i _; simp [findFrom]
  | cons x xs ih =>
    intro i h
    have hx : ¬ x = c := fun hxc => h (hxc ▸ List.mem_cons_self _ _)
    have hxs : c ∉ xs := fun hm => h (List.mem_cons_of_mem _ hm)
    rw [List.cons_append]
    simp only [findFrom]
    rw [if_neg hx, ih (i + 1) hxs, List.length_cons]
    congr 1
    omega

theorem findFrom_none (c : Char) :
    ∀ (l : List Char) (i : Nat), c ∉ l → findFrom c l i = none := by
  intro l
  induction l with
  | nil => intro i _; rfl
  | cons x xs ih =>
    intro i h
    have hx : ¬ x = c := fun hxc => h (hxc ▸ List.mem_cons_self _ _)
    simp only [findFrom]
    rw [if_neg hx, ih (i + 1) (fun hm => h (List.mem_cons_of_mem _ hm))]

/-- The search from the end of `pre` finds the first `c` after the stretch `a` that
has none. -/
theorem strFind_at (json pre a rest : List Char) (c : Char) (pos : Nat)
    (hj : json = pre ++ (a ++ c :: rest)) (hp : pos = pre.length) (hc : c ∉ a) :
    strFind json c pos = some (pos + a.length) := by
  unfold strFind
  rw [hj, hp, List.drop_left]
  exact findFrom_skip c rest a _ hc

theorem strFind_none (json pre tail : List Char) (c : Char) (pos : Nat)
    (hj : json = pre ++ tail) (hp : pos = pre.length) (hc : c ∉ tail) :
    strFind json c pos = none := by
  unfold strFind
  rw [hj, hp, List.drop_left]
  exact findFrom_none c tail _ hc

theorem substr_at (json pre a rest : List Char) (pos len : Nat)
    (hj : json = pre ++ (a ++ rest)) (hp : pos = pre.length) (hl : len = a.length) :
    substr json pos len = a := by
  unfold substr
  rw [hj, hp, hl, List.drop_left, List.take_left]


/-- One turn of the loop of `parseJsonString` on the text of an entry: the entry is
assigned and the position moves behind its closing quote. -/
theorem parseJsonLoop_entry (json pre sep k v tail : List Char) (fuel pos : Nat)
    (result : List (List Char × List Char))
    (hj : json = pre ++ (sep ++ entryText k v ++ tail)) (hp : pos = pre.length)
    (hsep : quoteChar ∉ sep) (hk : quoteChar ∉ k) (hv : quoteChar ∉ v) :
    parseJsonLoop json (fuel + 1) pos result
      = parseJsonLoop json fuel (pos + sep.length + k.length + v.length + 5)
          (mapAssign result k v) := by
  have hcq : colonChar ∉ [quoteChar] := by decide
  have hqc : quoteChar ∉ [colonChar] := by decide
  have h1 : strFind json quoteChar pos = some (pos + sep.length) :=
    strFind_at json pre sep (k ++ quoteChar :: colonChar :: quoteChar :: (v ++ [quoteChar])
      ++ tail) quoteChar pos (by rw [hj]; simp [entryText, List.append_assoc]) hp hsep
  have h2 : strFind json quoteChar (pos + sep.length + 1)
      = some (pos + sep.length + 1 + k.length) :=
    strFind_at json (pre ++ sep ++ [quoteChar]) k
      (colonChar :: quoteChar :: (v ++ [quoteChar]) ++ tail) quoteChar _
      (by rw [hj]; simp [entryText, List.append_assoc])
      (by rw [hp]; simp only [List.length_append, List.length_cons, List.length_nil]) hk
  have hkey : substr json (pos + sep.length + 1)
      (pos + sep.length + 1 + k.length - (pos + sep.length + 1)) = k :=
    substr_at json (pre ++ sep ++ [quoteChar]) k
      (quoteChar :: colonChar :: quoteChar :: (v ++ [quoteChar]) ++ tail) _ _
      (by rw [hj]; simp [entryText, List.append_assoc])
      (by rw [hp]; simp only [List.length_append, List.length_cons, List.length_nil]) (by omega)
  have h3 : strFind json colonChar (pos + sep.length + 1 + k.length)
      = some (pos + sep.length + 1 + k.length + 1) :=
    strFind_at json (pre ++ sep ++ [quoteChar] ++ k) [quoteChar]
      (quoteChar :: (v ++ [quoteChar]) ++ tail) colonChar _
      (by rw [hj]; simp [entryText, List.append_assoc])
      (by rw [hp]; simp only [List.length_append, List.length_cons, List.length_nil]) hcq
  have h4 : strFind json quoteChar (pos + sep.length + 1 + k.length + 1)
      = some (pos + sep.length + 1 + k.length + 1 + 1) :=
    strFind_at json (pre ++ sep ++ [quoteChar] ++ k ++ [quoteChar]) [colonChar]
      (v ++ [quoteChar] ++ tail) quoteChar _
      (by rw [hj]; simp [entryText, List.append_assoc])
      (by rw [hp]; simp only [List.length_append, List.length_cons, List.length_nil]) hqc
  have h5 : strFind json quoteChar (pos + sep.length + 1 + k.length + 1 + 1 + 1)
      = some (pos + sep.length + 1 + k.length + 1 + 1 + 1 + v.length) :=
    strFind_at json (pre ++ sep ++ [quoteChar] ++ k ++ [quoteChar, colonChar, quoteChar]) v
      tail quoteChar _
      (by rw [hj]; simp [entryText, List.append_assoc])
      (by rw [hp]; simp only [List.length_append, List.length_cons, List.length_nil]) hv
  have hval : substr json (pos + sep.length + 1 + k.length + 1 + 1 + 1)
      (pos + sep.length + 1 + k.length + 1 + 1 + 1 + v.length
        - (pos + sep.length + 1 + k.length + 1 + 1 + 1)) = v :=
    substr_at json (pre ++ sep ++ [quoteChar] ++ k ++ [quoteChar, colonChar, quoteChar]) v
      (quoteChar :: tail) _ _
      (by rw [hj]; simp [entryText, List.append_assoc])
      (by rw [hp]; simp only [List.length_append, List.length_cons, List.length_nil]) (by omega)
  simp only [parseJsonLoop, h1, h2, h3, h4, h5, hkey, hval]
  congr 1
  omega


theorem segmentsText_length (segs : List (List Char × List Char × List Char)) :
    segs.length ≤ (segmentsText segs).length := by
  induction segs with
  | nil => exact Nat.le_refl _
  | cons t rest ih =>
    simp only [segmentsText, entryText, List.length_append, List.length_cons]
    omega

/-- The loop of `parseJsonString` on the text of a sequence of entries followed by
text without a double quote: the entries are assigned one after the other. -/
theorem parseJsonLoop_segments (json tail : List Char) (htail : quoteChar ∉ tail) :
    ∀ (segs : List (List Char × List Char × List Char)) (pre : List Char) (fuel pos : Nat)
      (result : List (List Char × List Char)),
      json = pre ++ (segmentsText segs ++ tail) → pos = pre.length →
      (∀ t ∈ segs, quoteChar ∉ t.1 ∧ quoteChar ∉ t.2.1 ∧ quoteChar ∉ t.2.2) →
      segs.length ≤ fuel →
      parseJsonLoop json fuel pos result
        = segs.foldl (fun r t => mapAssign r t.2.1 t.2.2) result := by
  intro segs
  induction segs with
  | nil =>
    intro pre fuel pos result hj hp _ _
    cases fuel with
    | zero => rfl
    | succ n =>
      have hnone : strFind json quoteChar pos = none :=
        strFind_none json pre tail quoteChar pos (by rw [hj]; simp [segmentsText]) hp htail
      simp only [parseJsonLoop, hnone, List.foldl_nil]
  | cons t rest ih =>
    intro pre fuel pos result hj hp hclean hfuel
    cases fuel with
    | zero => simp at hfuel
    | succ n =>
      obtain ⟨h1, h2, h3⟩ := hclean t (List.mem_cons_self _ _)
      rw [parseJsonLoop_entry json pre t.1 t.2.1 t.2.2 (segmentsText rest ++ tail) n pos result
        (by rw [hj]; simp [segmentsText, List.append_assoc]) hp h1 h2 h3]
      rw [List.foldl_cons]
      apply ih (pre ++ (t.1 ++ entryText t.2.1 t.2.2))
      · rw [hj]; simp [segmentsText, List.append_assoc]
      · rw [hp]
        simp only [entryText, List.length_append, List.length_cons, List.length_nil]
        omega
      · intro t' ht'
        exact hclean t' (List.mem_cons_of_mem _ ht')
      · simpa using hfuel

/-- The stream after the loop of `buildJsonString`, for entries that need no
escaping. -/
theorem buildJsonLoop_clean :
    ∀ (m : List (List Char × List Char)) (first : Bool) (oss : List Char),
      (∀ kv ∈ m, (∀ c ∈ kv.1, c ≠ quoteChar ∧ c ≠ backslashChar) ∧
        (∀ c ∈ kv.2, c ≠ quoteChar ∧ c ≠ backslashChar)) →
      buildJsonLoop m first oss
        = oss ++ segmentsText (withSeparators (if first then [] else [commaChar]) m) := by
  intro m
  induction m with
  | nil => intro first oss _; simp [buildJsonLoop, withSeparators, segmentsText]
  | cons kv rest ih =>
    intro first oss h
    obtain ⟨hk, hv⟩ := h kv (List.mem_cons_self _ _)
    simp only [buildJsonLoop, withSeparators, segmentsText]
    rw [ih false _ (fun kv' hkv' => h kv' (List.mem_cons_of_mem _ hkv')),
      escapeJsonString_clean kv.1 hk, escapeJsonString_clean kv.2 hv]
    cases first <;> simp [entryText, List.append_assoc]

theorem foldl_withSeparators (m : List (List Char × List Char)) :
    ∀ (sep : List Char) (result : List (List Char × List Char)),
      (withSeparators sep m).foldl (fun r t => mapAssign r t.2.1 t.2.2) result
        = m.foldl (fun r kv => mapAssign r kv.1 kv.2) result := by
  induction m with
  | nil => intro sep result; rfl
  | cons kv rest ih =>
    intro sep result
    simp only [withSeparators, List.foldl_cons]
    exact ih _ _

theorem withSeparators_length (m : List (List Char × List Char)) :
    ∀ sep : List Char, (withSeparators sep m).length = m.length := by
  induction m with
  | nil => intro sep; rfl
  | cons kv rest ih =>
    intro sep
    simp only [withSeparators, List.length_cons, ih]

theorem strFind_ge (json : List Char) (c : Char) (pos i : Nat)
    (h : strFind json c pos = some i) : pos ≤ i := by
  unfold strFind at h
  generalize json.drop pos = l at h
  induction l generalizing pos with
  | nil => simp [findFrom] at h
  | cons x xs ih =>
    simp only [findFrom] at h
    split_ifs at h
    · simp only [Option.some.injEq] at h
      omega
    · have := ih (pos + 1) h
      omega

theorem strFind_beyond (json : List Char) (c : Char) (pos : Nat) (h : json.length ≤ pos) :
    strFind json c pos = none := by
  unfold strFind
  rw [List.drop_eq_nil_of_le h]
  rfl

/-- More fuel than `json.length - pos` turns changes nothing: the loop of
`parseJsonString` ends because a search fails. -/
theorem parseJsonLoop_fuel (json : List Char) :
    ∀ (fuel pos : Nat) (result : List (List Char × List Char)), json.length ≤ pos + fuel →
      parseJsonLoop json (fuel + 1) pos result = parseJsonLoop json fuel pos result := by
  intro fuel
  induction fuel with
  | zero =>
    intro pos result h
    simp only [parseJsonLoop, strFind_beyond json quoteChar pos (by omega)]
  | succ n ih =>
    intro pos result h
    conv_lhs => rw [parseJsonLoop]
    conv_rhs => rw [parseJsonLoop]
    cases h1 : strFind json quoteChar pos with
    | none => rfl
    | some startKey =>
      dsimp only
      cases h2 : strFind json quoteChar (startKey + 1) with
      | none => rfl
      | some endKey =>
        dsimp only
        cases h3 : strFind json colonChar endKey with
        | none => rfl
        | some colonPos =>
          dsimp only
          cases h4 : strFind json quoteChar colonPos with
          | none => rfl
          | some startVal =>
            dsimp only
            cases h5 : strFind json quoteChar (startVal + 1) with
            | none => rfl
            | some endVal =>
              dsimp only
              have g1 := strFind_ge _ _ _ _ h1
              have g2 := strFind_ge _ _ _ _ h2
              have g3 := strFind_ge _ _ _ _ h3
              have g4 := strFind_ge _ _ _ _ h4
              have g5 := strFind_ge _ _ _ _ h5
              exact ih _ _ (by omega)


theorem withSeparators_clean (m : List (List Char × List Char)) :
    ∀ sep : List Char, quoteChar ∉ sep →
      (∀ kv ∈ m, (∀ c ∈ kv.1, c ≠ quoteChar ∧ c ≠ backslashChar) ∧
        (∀ c ∈ kv.2, c ≠ quoteChar ∧ c ≠ backslashChar)) →
      ∀ t ∈ withSeparators sep m, quoteChar ∉ t.1 ∧ quoteChar ∉ t.2.1 ∧ quoteChar ∉ t.2.2 := by
  induction m with
  | nil =>
    intro sep _ _ t ht
    simp [withSeparators] at ht
  | cons kv rest ih =>
    intro sep hsep h t ht
    simp only [withSeparators, List.mem_cons] at ht
    rcases ht with rfl | ht
    · obtain ⟨hk, hv⟩ := h kv (List.mem_cons_self _ _)
      exact ⟨hsep, fun hq => (hk _ hq).1 rfl, fun hq => (hv _ hq).1 rfl⟩
    · exact ih [commaChar] (by decide) (fun kv' hkv' => h kv' (List.mem_cons_of_mem _ hkv')) t ht

/-- The text `buildJsonString` writes for a map whose keys and values need no
escaping: the opening brace, the entries with commas in between, the closing
brace. -/
theorem buildJsonString_clean (m : List (List Char × List Char))
    (h : ∀ kv ∈ m, (∀ c ∈ kv.1, c ≠ quoteChar ∧ c ≠ backslashChar) ∧
      (∀ c ∈ kv.2, c ≠ quoteChar ∧ c ≠ backslashChar)) :
    buildJsonString m = lbraceChar :: (segmentsText (withSeparators [] m) ++ [rbraceChar]) := by
  unfold buildJsonString
  rw [buildJsonLoop_clean m true _ h]
  simp

/-! ## Orders beyond the price of the aggressor -/

/-- The orders that pass the price test of the crossing loop are left alone.  For
every book and every limit, ioc or fok order with price `p`: when it is a buy, every
ask `x` with `p < x.price` is on the ask side after `processOrder` exactly as often
as before; when it is a sell, every bid `x` with `x.price < p` is on the bid side
exactly as often as before. -/
theorem processOrder_count_beyond (b : OrderBook) (endProcess : Int) (o : Order)
    (htype : o.type = "limit" ∨ o.type = "ioc" ∨ o.type = "fok") :
    (o.action = "buy" → ∀ x : Order, o.price < x.price →
      (processOrder b endProcess o).1.m_sellOrders.count x = b.m_sellOrders.count x) ∧
    (o.action = "sell" → ∀ x : Order, x.price < o.price →
      (processOrder b endProcess o).1.m_buyOrders.count x = b.m_buyOrders.count x) := by
  have hc : ¬ o.type = "cancel" := by rcases htype with h | h | h <;> rw [h] <;> decide
  have hsl : ¬ o.type = "stop-loss" := by rcases htype with h | h | h <;> rw [h] <;> decide
  have hnm : ¬ o.type = "market" := by rcases htype with h | h | h <;> rw [h] <;> decide
  rw [processOrder_of_not_cancel b endProcess o hc, afterStopLoss_of_ne b o hsl]
  simp only [recordLatency_buyOrders, recordLatency_sellOrders]
  constructor
  · intro hact x hx
    have hb : o.isBuy = true := (isBuy_iff o).mpr hact
    have hcount : (buyCross b o).2.count x = b.m_sellOrders.count x :=
      crossLoop_count _ _ (buyStops_fillTop o) _ _ _ x (by simp [buyStops, hnm, hx])
    rcases dispatchOrder_shape b o with h | ⟨-, h⟩ | ⟨hb', -⟩ | ⟨-, -, -, h⟩ | ⟨hb', -⟩
    · rw [h]
    · rw [h]; exact hcount
    · rw [hb] at hb'; exact absurd hb' (by decide)
    · rw [h]; exact hcount
    · rw [hb] at hb'; exact absurd hb' (by decide)
  · intro hact x hx
    have hb : o.isBuy = false := isBuy_of_sell o hact
    have hcount : (sellCross b o).2.count x = b.m_buyOrders.count x :=
      crossLoop_count _ _ (sellStops_fillTop o) _ _ _ x (by simp [sellStops, hnm, hx])
    rcases dispatchOrder_shape b o with h | ⟨hb', -⟩ | ⟨-, h⟩ | ⟨hb', -⟩ | ⟨-, -, -, h⟩
    · rw [h]
    · rw [hb] at hb'; exact absurd hb' (by decide)
    · rw [h]; exact hcount
    · rw [hb] at hb'; exact absurd hb' (by decide)
    · rw [h]; exact hcount

/-! # The claims -/

/-! ## Claim C1 -/

/-- C1, as amended.  Time priority in fills.  Let the ask side hold exactly two
resting orders `A` and `B` with the same price, a finite one (neither NaN nor an
infinity), and `A.recvTimestamp < B.recvTimestamp`, and let a buy enter with
`0 < quantity <= A.remainingQuantity` and `remainingQuantity == quantity`, being a
limit buy with price `>=` that price or a market buy while that price is `<= 1e15`.
Then `processOrder` trades only against `A`: afterwards the ask side is `B`,
unchanged, preceded by `A` with `remainingQuantity` reduced by the quantity (status
`partially_filled`), or `B` alone when `A` reached 0.  Symmetrically for a sell
against two equal-priced bids, a market sell being required to meet a price
`>= 0`. -/
theorem time_priority_in_fills (b : OrderBook) (endProcess : Int) (o A B : Order)
    (hprice : A.price = B.price) (hfin : A.price.isFinite = true)
    (hts : A.recvTimestamp < B.recvTimestamp)
    (hq : 0 < o.quantity) (hle : o.quantity ≤ A.remainingQuantity)
    (hrem : o.remainingQuantity = o.quantity) :
    (o.action = "buy" → b.m_sellOrders.Perm [A, B] →
      isHeap SellOrderComparator b.m_sellOrders = true →
      (o.type = "market" ∧ A.price ≤ lit1e15 ∨ o.type = "limit" ∧ A.price ≤ o.price) →
      (processOrder b endProcess o).1.m_sellOrders =
        if o.quantity = A.remainingQuantity then [B]
        else [{ A with remainingQuantity := A.remainingQuantity - o.quantity,
                       status := "partially_filled" }, B]) ∧
    (o.action = "sell" → b.m_buyOrders.Perm [A, B] →
      isHeap BuyOrderComparator b.m_buyOrders = true →
      (o.type = "market" ∧ Double.fin 0 ≤ A.price ∨ o.type = "limit" ∧ o.price ≤ A.price) →
      (processOrder b endProcess o).1.m_buyOrders =
        if o.quantity = A.remainingQuantity then [B]
        else [{ A with remainingQuantity := A.remainingQuantity - o.quantity,
                       status := "partially_filled" }, B]) := by
  have hfinB : B.price.isFinite = true := hprice ▸ hfin
  constructor
  · intro hact hperm hheap hcross
    have hBA : SellOrderComparator B A = true := by
      rw [sellComparator_same_price B A hprice.symm hfinB]
      exact decide_eq_true hts
    have hq2 : b.m_sellOrders = [A, B] := pair_of_perm_heap _ _ A B hperm hheap hBA
    have htype : o.type = "market" ∨ o.type = "limit" := hcross.imp And.left And.left
    have h := (processOrder_buy_top b endProcess o A htype hact (by omega) (by omega)
      (by rw [hq2]; rfl) (buyStops_of_crossing o A hcross)).2.2
    rw [h, hq2, heapPop_pair, hrem]
    split
    · rfl
    · apply heapPush_single_swap
      exact (sellComparator_same_price B _ hprice.symm hfinB).trans (decide_eq_true hts)
  · intro hact hperm hheap hcross
    have hBA : BuyOrderComparator B A = true := by
      rw [buyComparator_same_price B A hprice.symm hfinB]
      exact decide_eq_true hts
    have hq2 : b.m_buyOrders = [A, B] := pair_of_perm_heap _ _ A B hperm hheap hBA
    have htype : o.type = "market" ∨ o.type = "limit" := hcross.imp And.left And.left
    have h := (processOrder_sell_top b endProcess o A htype hact (by omega) (by omega)
      (by rw [hq2]; rfl) (sellStops_of_crossing o A hcross)).2.2
    rw [h, hq2, heapPop_pair, hrem]
    split
    · rfl
    · apply heapPush_single_swap
      exact (buyComparator_same_price B _ hprice.symm hfinB).trans (decide_eq_true hts)

/-- Witness for C1: against the two asks at 50 a limit buy at 50 for 4 takes 4 from
the earlier ask and leaves the later one as it was. -/
theorem time_priority_in_fills_witness :
    exBookTwoAsks.m_sellOrders = [exAskA, exAskB] ∧
    (processOrder exBookTwoAsks 3 exLimitBuy4).1.m_sellOrders =
      [{ exAskA with remainingQuantity := 6, status := "partially_filled" }, exAskB] :=
  ⟨by decide!,
    (time_priority_in_fills exBookTwoAsks 3 exLimitBuy4 exAskA exAskB rfl rfl (by decide!)
      (by decide!) (by decide!) rfl).1 rfl (by decide!) (by decide!)
      (Or.inr ⟨rfl, by decide!⟩)⟩

/-- Counterexample to C1 as stated: two asks rest at the same price `2e15`, the
earlier first; a market buy for 4 of the 10 the earlier ask offers trades nothing,
because the source gives a market buy the effective price `1e15`.  Both asks are
left as they were and the buy keeps its 4. -/
theorem time_priority_market_counterexample :
    exBookHighAsks.m_sellOrders = [exHighAskA, exHighAskB] ∧
    exHighAskA.price = exHighAskB.price ∧
    exHighAskA.recvTimestamp < exHighAskB.recvTimestamp ∧
    exMarketBuy4.type = "market" ∧ exMarketBuy4.action = "buy" ∧
    0 < exMarketBuy4.quantity ∧ exMarketBuy4.quantity ≤ exHighAskA.remainingQuantity ∧
    (processOrder exBookHighAsks 3 exMarketBuy4).1.m_sellOrders = [exHighAskA, exHighAskB] ∧
    (processOrder exBookHighAsks 3 exMarketBuy4).2.remainingQuantity = 4 := by
  decide!

/-- Two asks at the one price `+inf`: the price test of the comparator,
`fabs(inf - inf) < 1e-12`, is false (the difference is NaN), so the comparator does
not order them by time.  The book that received the later ask `B` first has `B` on
top, in heap order, and a limit buy at `+inf` for 4 trades against `B`, not against
the earlier `A`. -/
theorem time_priority_infinite_price_example :
    exBookInfAsks.m_sellOrders = [exInfAskB, exInfAskA] ∧
    isHeap SellOrderComparator exBookInfAsks.m_sellOrders = true ∧
    exInfAskA.price = exInfAskB.price ∧
    exInfAskA.recvTimestamp < exInfAskB.recvTimestamp ∧
    exInfLimitBuy.type = "limit" ∧ exInfAskA.price ≤ exInfLimitBuy.price ∧
    (processOrder exBookInfAsks 3 exInfLimitBuy).1.m_sellOrders
      = [exInfAskA, { exInfAskB with remainingQuantity := 6, status := "partially_filled" }] := by
  decide!

/-! ## Claim C2 -/

/-- C2, as amended.  Limit-price protection.  For every book and every limit, ioc or
fok buy order whose price `p` is not NaN, every ask whose price is not NaN and that
is reduced or removed by `processOrder` (it is on the ask side after the call not as
often as before) has price `<= p`; symmetrically, for every limit, ioc or fok sell
order whose price `p` is not NaN, every bid whose price is not NaN and that is
reduced or removed has price `>= p`. -/
theorem limit_price_protection (b : OrderBook) (endProcess : Int) (o : Order)
    (htype : o.type = "limit" ∨ o.type = "ioc" ∨ o.type = "fok")
    (hnan : o.price.isNaN = false) :
    (o.action = "buy" → ∀ x : Order, x.price.isNaN = false →
      (processOrder b endProcess o).1.m_sellOrders.count x ≠ b.m_sellOrders.count x →
      x.price ≤ o.price) ∧
    (o.action = "sell" → ∀ x : Order, x.price.isNaN = false →
      (processOrder b endProcess o).1.m_buyOrders.count x ≠ b.m_buyOrders.count x →
      o.price ≤ x.price) := by
  have h := processOrder_count_beyond b endProcess o htype
  constructor
  · intro hact x hx hne
    by_contra hle
    exact hne (h.1 hact x (Double.lt_of_not_le hx hnan hle))
  · intro hact x hx hne
    by_contra hle
    exact hne (h.2 hact x (Double.lt_of_not_le hnan hx hle))

/-- Witness for C2: bids rest at 50 and at 48; the limit sell of scenario S2, priced
49, takes 50 from the bid at 50, whose price is `>= 49`, and the bid at 48 is on the
book as before. -/
theorem limit_price_protection_witness :
    exBookTwoBids.m_buyOrders = [exBuy1, exBuy48] ∧
    (processOrder exBookTwoBids 3 exSell2).1.m_buyOrders = [exBidAfterS2, exBuy48] ∧
    exSell2.price ≤ exBuy1.price :=
  ⟨by decide!, by decide!,
    (limit_price_protection exBookTwoBids 3 exSell2 (Or.inl rfl) rfl).2 rfl exBuy1 rfl
      (by decide!)⟩

/-- Counterexample to C2 as stated: a limit buy whose price is NaN takes 5 from the
ask resting at 50, although `50 <= NaN` is false: the loop of `matchBuyOrder` stops
on `effectiveBuyPrice < topSell.price`, which is false for a NaN. -/
theorem limit_price_nan_counterexample :
    exBookS6.m_sellOrders = [exAsk50] ∧
    exNanLimitBuy.type = "limit" ∧ exNanLimitBuy.action = "buy" ∧
    (processOrder exBookS6 2 exNanLimitBuy).1.m_sellOrders
      = [{ exAsk50 with remainingQuantity := 5, status := "partially_filled" }] ∧
    (processOrder exBookS6 2 exNanLimitBuy).2.remainingQuantity = 0 ∧
    ¬ exAsk50.price ≤ exNanLimitBuy.price := by
  decide!

/-! ## Claim C3 -/

/-- C3. For every book state and every order, of any discipline and side, that
enters `processOrder` with `remainingQuantity == quantity`, the confirmation built
by the worker satisfies `filled_quantity + remaining_quantity == quantity`. -/
theorem confirmation_quantities_add_up (b : OrderBook) (endProcess : Int) (o : Order)
    (h : o.remainingQuantity = o.quantity) :
    (serverWorkerThread b endProcess o).2.filled_quantity
        + (serverWorkerThread b endProcess o).2.remaining_quantity = o.quantity := by
  have hq := processOrder_quantities b endProcess o
  simp only [serverWorkerThread, buildConfirmation]
  rw [hq.1]
  have hle : (processOrder b endProcess o).2.remainingQuantity ≤ o.quantity := by
    rcases hq.2 with h1 | h1
    · omega
    · omega
  split_ifs <;> omega

/-- Witness for C3: the limit sell of scenario S2 is confirmed with 50 filled and
0 remaining, which add up to its quantity 50. -/
theorem confirmation_quantities_add_up_witness :
    ((serverWorkerThread exBookS1 2 exSell2).2.filled_quantity = 50 ∧
      (serverWorkerThread exBookS1 2 exSell2).2.remaining_quantity = 0) ∧
    (serverWorkerThread exBookS1 2 exSell2).2.filled_quantity
        + (serverWorkerThread exBookS1 2 exSell2).2.remaining_quantity = exSell2.quantity :=
  ⟨by decide, confirmation_quantities_add_up exBookS1 2 exSell2 rfl⟩

/-! ## Claim C4 -/

/-- C4. Resting-order invariant.  In every book state reachable from the empty book
by calls of `processOrder` on orders that enter with status `open` and
`remainingQuantity == quantity`, every order held on the bid side or on the ask side
has `0 < remainingQuantity <= quantity` and status `open` or `partially_filled`. -/
theorem resting_order_invariant (b : OrderBook) (hb : ReachableBy FreshOrder b) (x : Order)
    (hx : x ∈ b.m_buyOrders ∨ x ∈ b.m_sellOrders) :
    0 < x.remainingQuantity ∧ x.remainingQuantity ≤ x.quantity ∧
      (x.status = "open" ∨ x.status = "partially_filled") := by
  induction hb generalizing x with
  | init =>
    rcases hx with hx | hx <;> simp [OrderBook.new] at hx
  | @step b0 e o _ hok ih =>
    refine processOrder_forall
      (fun x => 0 < x.remainingQuantity ∧ x.remainingQuantity ≤ x.quantity ∧
        (x.status = "open" ∨ x.status = "partially_filled")) ?_ _ e o ih ?_ x hx
    · intro t tq ht hpos
      rw [fillTop_of_pos t tq hpos]
      refine ⟨hpos, ?_, Or.inr rfl⟩
      have := ht.2.1
      simp only
      omega
    · intro r hr hle
      have hf := afterStopLoss_fields b0 o
      refine ⟨hr, ?_, Or.inl ?_⟩
      · simp only
        rw [hf.1]
        rw [hok.2] at hle
        exact hle
      · simp only
        rw [hf.2.2.1]
        exact hok.1

/-- Witness for C4: after scenarios S1 and S2 the bid with id 1 rests with 50 of its
100 left and status `partially_filled`. -/
theorem resting_order_invariant_witness :
    exBookS2.m_buyOrders = [exBidAfterS2] ∧
    (0 < exBidAfterS2.remainingQuantity ∧
      exBidAfterS2.remainingQuantity ≤ exBidAfterS2.quantity ∧
      (exBidAfterS2.status = "open" ∨ exBidAfterS2.status = "partially_filled")) :=
  ⟨by decide,
    resting_order_invariant exBookS2
      (ReachableBy.step 2 exSell2 (ReachableBy.step 1 exBuy1 ReachableBy.init ⟨rfl, rfl⟩)
        ⟨rfl, rfl⟩)
      exBidAfterS2 (Or.inl (by decide))⟩

/-! ## Claim C5 -/

/-- C5, as amended.  Book ordering.  In every book state reachable from the empty
book by calls of `processOrder` on orders whose prices and stop prices come from a
set of finite values (no NaN, no infinity) any two of which are equal or at least
`1e-12` apart, as the program evaluates `fabs(p - q) >= 1e-12`, the top `A` of the
bid heap satisfies, for every order `B` on the bid side, `A.price > B.price`, or
`fabs(A.price - B.price) < 1e-12` and `A.recvTimestamp <= B.recvTimestamp`; and the
top `A` of the ask heap satisfies `A.price < B.price`, or
`fabs(A.price - B.price) < 1e-12` and `A.recvTimestamp <= B.recvTimestamp`, for
every ask `B`. -/
theorem top_of_book_is_best (S : Set Double) (hS : SeparatedPrices S) (hF : FinitePrices S)
    (b : OrderBook) (hb : ReachableBy (PricedIn S) b) :
    (∀ A B : Order, b.m_buyOrders.head? = some A → B ∈ b.m_buyOrders →
      A.price > B.price ∨
        (Double.fabs (A.price - B.price) < lit1em12 ∧ A.recvTimestamp ≤ B.recvTimestamp)) ∧
    (∀ A B : Order, b.m_sellOrders.head? = some A → B ∈ b.m_sellOrders →
      A.price < B.price ∨
        (Double.fabs (A.price - B.price) < lit1em12 ∧ A.recvTimestamp ≤ B.recvTimestamp)) := by
  obtain ⟨hB, hA, hP⟩ := reachable_heapOrdered S hS b hb
  constructor
  · intro A B hA' hB'
    have hPA : A.price ∈ S := hP A (Or.inl (List.mem_of_mem_head? hA'))
    have hPB : B.price ∈ S := hP B (Or.inl hB')
    have h := heapOrdered_top_max (buyComparator_weakOrder S hS) b.m_buyOrders hB
      (fun x hx => hP x (Or.inl hx)) A hA' B hB'
    rw [buyComparator_false_iff S hS A B hPA hPB] at h
    rcases Double.lt_or_eq_of_le h.1 with h1 | h1
    · exact Or.inl h1
    · exact Or.inr ⟨(tie_iff_of_separated S hS _ _ hPA hPB).mpr ⟨h1.symm, hF _ hPA⟩,
        h.2 h1.symm (hF _ hPA)⟩
  · intro A B hA' hB'
    have hPA : A.price ∈ S := hP A (Or.inr (List.mem_of_mem_head? hA'))
    have hPB : B.price ∈ S := hP B (Or.inr hB')
    have h := heapOrdered_top_max (sellComparator_weakOrder S hS) b.m_sellOrders hA
      (fun x hx => hP x (Or.inr hx)) A hA' B hB'
    rw [sellComparator_false_iff S hS A B hPA hPB] at h
    rcases Double.lt_or_eq_of_le h.1 with h1 | h1
    · exact Or.inl h1
    · exact Or.inr ⟨(tie_iff_of_separated S hS _ _ hPA hPB).mpr ⟨h1, hF _ hPA⟩,
        h.2 h1 (hF _ hPA)⟩

/-- Witness for C5: the book with the two asks at 50 is reachable through orders
priced in `{0, 50}`; its top is the earlier ask. -/
theorem top_of_book_is_best_witness :
    exBookTwoAsks.m_sellOrders = [exAskA, exAskB] ∧
    (exAskA.price < exAskB.price ∨
      (Double.fabs (exAskA.price - exAskB.price) < lit1em12 ∧
        exAskA.recvTimestamp ≤ exAskB.recvTimestamp)) :=
  ⟨by decide!,
    (top_of_book_is_best {Double.fin 0, Double.fin 50}
      (by
        intro p hp q hq
        simp only [Set.mem_insert_iff, Set.mem_singleton_iff] at hp hq
        rcases hp with rfl | rfl <;> rcases hq with rfl | rfl <;> decide!)
      (by
        intro p hp
        simp only [Set.mem_insert_iff, Set.mem_singleton_iff] at hp
        rcases hp with rfl | rfl <;> rfl)
      exBookTwoAsks
      (ReachableBy.step 2 exAskB
        (ReachableBy.step 1 exAskA ReachableBy.init
          ⟨by simp [exAskA, Order.mk5], by simp [exAskA, Order.mk5]⟩)
        ⟨by simp [exAskB, Order.mk5], by simp [exAskB, Order.mk5]⟩)).2 exAskA exAskB
      (by decide!) (by decide!)⟩

/-- Counterexample to C5 as stated: four limit buys at `1`, `1 + 3/2^42`, `1` and
`1 + 6/2^42`, processed in the order received on the empty book.  The bid heap is
then `[bid 1, bid 2, bid 3, bid 4]`: its top is the bid at `1`, while the bid at
`1 + 6/2^42` is on the bid side with a higher price that is not within `1e-12`.
(The comparator is not transitive: bid 4 ties with bid 2, bid 2 ties with bid 1.) -/
theorem top_of_book_counterexample :
    exBookFourBids.m_buyOrders = [exBid1, exBid2, exBid3, exBid4] ∧
    exBookFourBids.m_buyOrders.head? = some exBid1 ∧
    exBid4 ∈ exBookFourBids.m_buyOrders ∧
    ¬ (exBid1.price > exBid4.price ∨
        (Double.fabs (exBid1.price - exBid4.price) < lit1em12 ∧
          exBid1.recvTimestamp ≤ exBid4.recvTimestamp)) := by
  decide!

/-- Two asks at the one price `+inf`, a set of prices that is separated but not
finite: the book that received the later ask first is reachable, its top is the
later ask, and neither `A.price < B.price` nor the tie test holds for the top `A`
and the other ask `B`. -/
theorem top_of_book_infinite_price_example :
    SeparatedPrices {Double.inf false} ∧
    exBookInfAsks.m_sellOrders.head? = some exInfAskB ∧
    exInfAskA ∈ exBookInfAsks.m_sellOrders ∧
    ¬ (exInfAskB.price < exInfAskA.price ∨
        (Double.fabs (exInfAskB.price - exInfAskA.price) < lit1em12 ∧
          exInfAskB.recvTimestamp ≤ exInfAskA.recvTimestamp)) := by
  refine ⟨?_, by decide!, by decide!, by decide!⟩
  intro p hp q hq
  rw [Set.mem_singleton_iff] at hp hq
  rw [hp, hq]
  exact Or.inl rfl

/-! ## Claim C6 -/

/-- C6, as amended.  Full fill against a larger resting order.  Let `T` be the top
of the opposite side with `T.remainingQuantity > q`, and let a market or limit
order enter with quantity `q > 0` and `remainingQuantity == q`: a limit buy with
price `>= T.price`, or a market buy while `T.price <= 1e15`, against an ask `T`; a
limit sell with price `<= T.price`, or a market sell while `T.price >= 0`, against a
bid `T`.  Then `processOrder` returns the order with status `executed` and
`remainingQuantity` 0, does not touch the order's own side, and replaces `T` on the
opposite side by `T` with `remainingQuantity` reduced by exactly `q` and status
`partially_filled`, every other field (`orderId`, `price`, `quantity`,
`recvTimestamp`) as it was. -/
theorem full_fill_against_larger_top (b : OrderBook) (endProcess : Int) (o T : Order)
    (htype : o.type = "market" ∨ o.type = "limit") (hq : 0 < o.quantity)
    (hrem : o.remainingQuantity = o.quantity) (hlt : o.quantity < T.remainingQuantity) :
    (o.action = "buy" → b.m_sellOrders.head? = some T →
      (o.type = "market" ∧ T.price ≤ lit1e15 ∨ o.type = "limit" ∧ T.price ≤ o.price) →
      (processOrder b endProcess o).2.status = "executed" ∧
      (processOrder b endProcess o).2.remainingQuantity = 0 ∧
      (processOrder b endProcess o).1.m_buyOrders = b.m_buyOrders ∧
      { T with remainingQuantity := T.remainingQuantity - o.quantity,
               status := "partially_filled" } ∈ (processOrder b endProcess o).1.m_sellOrders ∧
      (processOrder b endProcess o).1.m_sellOrders.Perm
        ({ T with remainingQuantity := T.remainingQuantity - o.quantity,
                  status := "partially_filled" } :: b.m_sellOrders.tail)) ∧
    (o.action = "sell" → b.m_buyOrders.head? = some T →
      (o.type = "market" ∧ Double.fin 0 ≤ T.price ∨ o.type = "limit" ∧ o.price ≤ T.price) →
      (processOrder b endProcess o).2.status = "executed" ∧
      (processOrder b endProcess o).2.remainingQuantity = 0 ∧
      (processOrder b endProcess o).1.m_sellOrders = b.m_sellOrders ∧
      { T with remainingQuantity := T.remainingQuantity - o.quantity,
               status := "partially_filled" } ∈ (processOrder b endProcess o).1.m_buyOrders ∧
      (processOrder b endProcess o).1.m_buyOrders.Perm
        ({ T with remainingQuantity := T.remainingQuantity - o.quantity,
                  status := "partially_filled" } :: b.m_buyOrders.tail)) := by
  constructor
  · intro hact hT hcross
    obtain ⟨h1, h2, h3⟩ := processOrder_buy_top b endProcess o T htype hact (by omega)
      (by omega) hT (buyStops_of_crossing o T hcross)
    rw [if_neg (by omega), hrem] at h3
    have hperm : (processOrder b endProcess o).1.m_sellOrders.Perm
        ({ T with remainingQuantity := T.remainingQuantity - o.quantity,
                  status := "partially_filled" } :: b.m_sellOrders.tail) := by
      rw [h3]
      exact (heapPush_perm _ _ _).trans ((heapPop_perm_tail _ _).cons _)
    refine ⟨by rw [h1], by rw [h1], h2, ?_, hperm⟩
    exact hperm.mem_iff.mpr (List.mem_cons_self _ _)
  · intro hact hT hcross
    obtain ⟨h1, h2, h3⟩ := processOrder_sell_top b endProcess o T htype hact (by omega)
      (by omega) hT (sellStops_of_crossing o T hcross)
    rw [if_neg (by omega), hrem] at h3
    have hperm : (processOrder b endProcess o).1.m_buyOrders.Perm
        ({ T with remainingQuantity := T.remainingQuantity - o.quantity,
                  status := "partially_filled" } :: b.m_buyOrders.tail) := by
      rw [h3]
      exact (heapPush_perm _ _ _).trans ((heapPop_perm_tail _ _).cons _)
    refine ⟨by rw [h1], by rw [h1], h2, ?_, hperm⟩
    exact hperm.mem_iff.mpr (List.mem_cons_self _ _)

/-- Witness for C6: scenario S3, the market buy for 50 against the ask at 51 for
100; the ask stays with 50 left, its timestamp and identity unchanged. -/
theorem full_fill_against_larger_top_witness :
    exBookS3.m_sellOrders = [exAsk51] ∧
    (processOrder exBookS3 2 exMarketBuy50).2.status = "executed" ∧
    (processOrder exBookS3 2 exMarketBuy50).2.remainingQuantity = 0 ∧
    { exAsk51 with remainingQuantity := 50, status := "partially_filled" }
      ∈ (processOrder exBookS3 2 exMarketBuy50).1.m_sellOrders :=
  have h := (full_fill_against_larger_top exBookS3 2 exMarketBuy50 exAsk51 (Or.inl rfl)
    (by decide) rfl (by decide)).1 rfl (by decide!) (Or.inl ⟨rfl, by decide!⟩)
  ⟨by decide!, h.1, h.2.1, h.2.2.2.1⟩

/-- Counterexample to C6 as stated: the top ask `T` rests at `2e15` with 10 left;
a market buy for 4 ends `processOrder` with status `open` and its 4 still
remaining, and `T` keeps its 10, because the source gives a market buy the
effective price `1e15`. -/
theorem full_fill_market_counterexample :
    exBookHighAsks.m_sellOrders.head? = some exHighAskA ∧
    exMarketBuy4.type = "market" ∧ exMarketBuy4.action = "buy" ∧
    0 < exMarketBuy4.quantity ∧ exMarketBuy4.quantity < exHighAskA.remainingQuantity ∧
    (processOrder exBookHighAsks 3 exMarketBuy4).2.status = "open" ∧
    (processOrder exBookHighAsks 3 exMarketBuy4).2.remainingQuantity = 4 ∧
    (processOrder exBookHighAsks 3 exMarketBuy4).1.m_sellOrders.head? = some exHighAskA := by
  decide!

/-! ## Claim C7 -/

/-- C7. A limit order that does not cross rests.  For every book and every limit
order with quantity `q > 0`, `remainingQuantity == q` and status `open`: if it is a
buy with price `p` and the ask side is empty or its top ask has a price above `p`,
then `processOrder` leaves the ask side unchanged, pushes exactly that order onto
the bid side and returns the order as it came (status `open`, remaining `q`);
symmetrically for a sell when the bid side is empty or its top bid has a price
below `p`. -/
theorem non_crossing_limit_rests (b : OrderBook) (endProcess : Int) (o : Order)
    (htype : o.type = "limit") (hq : 0 < o.quantity) (hrem : o.remainingQuantity = o.quantity)
    (hstatus : o.status = "open") :
    (o.action = "buy" →
      (b.m_sellOrders = [] ∨ ∃ t, b.m_sellOrders.head? = some t ∧ o.price < t.price) →
      (processOrder b endProcess o).1.m_sellOrders = b.m_sellOrders ∧
      (processOrder b endProcess o).1.m_buyOrders
          = heapPush BuyOrderComparator b.m_buyOrders o ∧
      (processOrder b endProcess o).1.m_buyOrders.Perm (o :: b.m_buyOrders) ∧
      (processOrder b endProcess o).2 = o ∧
      (processOrder b endProcess o).2.status = "open" ∧
      (processOrder b endProcess o).2.remainingQuantity = o.quantity) ∧
    (o.action = "sell" →
      (b.m_buyOrders = [] ∨ ∃ t, b.m_buyOrders.head? = some t ∧ t.price < o.price) →
      (processOrder b endProcess o).1.m_buyOrders = b.m_buyOrders ∧
      (processOrder b endProcess o).1.m_sellOrders
          = heapPush SellOrderComparator b.m_sellOrders o ∧
      (processOrder b endProcess o).1.m_sellOrders.Perm (o :: b.m_sellOrders) ∧
      (processOrder b endProcess o).2 = o ∧
      (processOrder b endProcess o).2.status = "open" ∧
      (processOrder b endProcess o).2.remainingQuantity = o.quantity) := by
  have hc : ¬ o.type = "cancel" := by rw [htype]; decide
  have hsl : ¬ o.type = "stop-loss" := by rw [htype]; decide
  have hnm : ¬ o.type = "market" := by rw [htype]; decide
  rw [processOrder_of_not_cancel b endProcess o hc, afterStopLoss_of_ne b o hsl]
  simp only [recordLatency_buyOrders, recordLatency_sellOrders]
  constructor
  · intro hact hbook
    have hb : o.isBuy = true := (isBuy_iff o).mpr hact
    have hcross : buyCross b o = (o, b.m_sellOrders) := by
      apply crossLoop_stop
      rcases hbook with h | ⟨t, ht, hp⟩
      · exact Or.inl h
      · exact Or.inr ⟨t, ht, by simp [buyStops, hnm, hp]⟩
    rw [dispatchOrder_buy b o (Or.inr htype) hb, hcross]
    rw [if_pos ⟨by simp only; omega, htype⟩]
    exact ⟨rfl, rfl, heapPush_perm _ _ _, rfl, hstatus, hrem⟩
  · intro hact hbook
    have hb : o.isBuy = false := isBuy_of_sell o hact
    have hs : o.isSell = true := (isSell_iff o).mpr hact
    have hcross : sellCross b o = (o, b.m_buyOrders) := by
      apply crossLoop_stop
      rcases hbook with h | ⟨t, ht, hp⟩
      · exact Or.inl h
      · exact Or.inr ⟨t, ht, by simp [sellStops, hnm, hp]⟩
    rw [dispatchOrder_sell b o (Or.inr htype) hb hs, hcross]
    rw [if_pos ⟨by simp only; omega, htype⟩]
    exact ⟨rfl, rfl, heapPush_perm _ _ _, rfl, hstatus, hrem⟩

/-- Witness for C7: scenario S1, the limit buy at 50 for 100 on the empty book. -/
theorem non_crossing_limit_rests_witness :
    (processOrder OrderBook.new 1 exBuy1).1.m_sellOrders = [] ∧
    (processOrder OrderBook.new 1 exBuy1).1.m_buyOrders = [exBuy1] ∧
    (processOrder OrderBook.new 1 exBuy1).2.status = "open" ∧
    (processOrder OrderBook.new 1 exBuy1).2.remainingQuantity = 100 :=
  have h := (non_crossing_limit_rests OrderBook.new 1 exBuy1 rfl (by decide) rfl rfl).1 rfl
    (Or.inl rfl)
  ⟨h.1, h.2.1.trans (by decide), h.2.2.2.2.1, h.2.2.2.2.2⟩

/-! ## Claim C8 -/

/-- C8, as amended.  Fill-or-kill is all-or-nothing and decided by aggregate
liquidity.  For every fok order with a price `p` that is not NaN and that enters
with `remainingQuantity == quantity == q`: if it is a buy, the ask queue is in heap
order, any two ask prices are equal or at least `1e-12` apart, as the program
evaluates `p1 == p2` and `fabs(p1 - p2) >= 1e-12` (so that no ask price is NaN), and
the sum of `remainingQuantity` over the asks with price `<= p` is below `2^64`, then
`processOrder` ends with `remainingQuantity == 0` if and only if that sum is
`>= q`, and otherwise with status `fok_no_fill`.  Symmetrically for a sell and the
bids with price `>= p`. -/
theorem fok_all_or_nothing (b : OrderBook) (endProcess : Int) (o : Order)
    (htype : o.type = "fok") (hrem : o.remainingQuantity = o.quantity)
    (hnan : o.price.isNaN = false) :
    (o.action = "buy" → isHeap SellOrderComparator b.m_sellOrders = true →
      (∀ x ∈ b.m_sellOrders, ∀ y ∈ b.m_sellOrders,
        Double.eq x.price y.price = true ∨ lit1em12 ≤ Double.fabs (x.price - y.price)) →
      ((b.m_sellOrders.filter fun a => decide (a.price ≤ o.price)).map
        Order.remainingQuantity).sum < 2 ^ 64 →
      ((processOrder b endProcess o).2.remainingQuantity = 0 ↔
        o.quantity ≤ ((b.m_sellOrders.filter fun a => decide (a.price ≤ o.price)).map
          Order.remainingQuantity).sum) ∧
      (¬ o.quantity ≤ ((b.m_sellOrders.filter fun a => decide (a.price ≤ o.price)).map
          Order.remainingQuantity).sum →
        (processOrder b endProcess o).2.status = "fok_no_fill")) ∧
    (o.action = "sell" → isHeap BuyOrderComparator b.m_buyOrders = true →
      (∀ x ∈ b.m_buyOrders, ∀ y ∈ b.m_buyOrders,
        Double.eq x.price y.price = true ∨ lit1em12 ≤ Double.fabs (x.price - y.price)) →
      ((b.m_buyOrders.filter fun a => decide (o.price ≤ a.price)).map
        Order.remainingQuantity).sum < 2 ^ 64 →
      ((processOrder b endProcess o).2.remainingQuantity = 0 ↔
        o.quantity ≤ ((b.m_buyOrders.filter fun a => decide (o.price ≤ a.price)).map
          Order.remainingQuantity).sum) ∧
      (¬ o.quantity ≤ ((b.m_buyOrders.filter fun a => decide (o.price ≤ a.price)).map
          Order.remainingQuantity).sum →
        (processOrder b endProcess o).2.status = "fok_no_fill")) := by
  have hc : ¬ o.type = "cancel" := by rw [htype]; decide
  have hsl : ¬ o.type = "stop-loss" := by rw [htype]; decide
  rw [processOrder_of_not_cancel b endProcess o hc, afterStopLoss_of_ne b o hsl,
    dispatchOrder_fok b o htype]
  constructor
  · intro hact hheap hsep hfit
    obtain ⟨h1, h2⟩ := fok_buy_outcome b o htype hact hnan ((isHeap_iff _ _).mp hheap) hsep
      hfit
    rw [hrem] at h1 h2
    by_cases hf : fokFeasible b o = true
    · have hle := h1.mp hf
      rw [if_pos hf, if_pos ((isBuy_iff o).mpr hact)]
      refine ⟨⟨fun _ => hle, fun _ => ?_⟩, fun hn => absurd hle hn⟩
      show (buyCross b o).1.remainingQuantity = 0
      rw [h2]
      omega
    · have hn : ¬ o.quantity ≤ _ := fun h => hf (h1.mpr h)
      rw [if_neg hf]
      refine ⟨⟨fun h => ?_, fun h => absurd h hn⟩, fun _ => rfl⟩
      have h0 : o.quantity = 0 := h
      omega
  · intro hact hheap hsep hfit
    obtain ⟨h1, h2⟩ := fok_sell_outcome b o htype hact hnan ((isHeap_iff _ _).mp hheap) hsep
      hfit
    rw [hrem] at h1 h2
    by_cases hf : fokFeasible b o = true
    · have hle := h1.mp hf
      rw [if_pos hf, if_neg (by rw [isBuy_of_sell o hact]; decide)]
      refine ⟨⟨fun _ => hle, fun _ => ?_⟩, fun hn => absurd hle hn⟩
      show (sellCross b o).1.remainingQuantity = 0
      rw [h2]
      omega
    · have hn : ¬ o.quantity ≤ _ := fun h => hf (h1.mpr h)
      rw [if_neg hf]
      refine ⟨⟨fun h => ?_, fun h => absurd h hn⟩, fun _ => rfl⟩
      have h0 : o.quantity = 0 := h
      omega

/-- Witness for C8: against the single ask for 10 at 50 of scenario S6 a
fill-or-kill buy for 5 at 50 is filled whole, and the one for 20 is killed. -/
theorem fok_all_or_nothing_witness :
    (processOrder exBookS6 3 exFokBuy5).2.remainingQuantity = 0 ∧
    (processOrder exBookS6 2 exFokBuy20).2.status = "fok_no_fill" :=
  ⟨((fok_all_or_nothing exBookS6 3 exFokBuy5 rfl rfl rfl).1 rfl (by decide!)
      (by decide!) (by decide!)).1.mpr (by decide!),
    ((fok_all_or_nothing exBookS6 2 exFokBuy20 rfl rfl rfl).1 rfl (by decide!)
      (by decide!) (by decide!)).2 (by decide!)⟩

/-- Counterexample to C8 as stated: an ask at `50 + 2^-41` received first and an ask
at 50 received second rest with 10 each; the comparator treats the two prices as
equal, so the earlier, dearer ask is the top.  A fill-or-kill buy for 5 at 50 finds
10 resting at prices `<= 50`, yet the scan stops at the top and the order is killed:
status `fok_no_fill`, `remainingQuantity` 5. -/
theorem fok_aggregate_counterexample :
    exBookNearAsks.m_sellOrders = [exAskNear, exAskAt50] ∧
    exFokBuy5.type = "fok" ∧ exFokBuy5.action = "buy" ∧
    exFokBuy5.remainingQuantity = exFokBuy5.quantity ∧ exFokBuy5.quantity = 5 ∧
    ((exBookNearAsks.m_sellOrders.filter fun a => decide (a.price ≤ exFokBuy5.price)).map
      Order.remainingQuantity).sum = 10 ∧
    (processOrder exBookNearAsks 3 exFokBuy5).2.status = "fok_no_fill" ∧
    (processOrder exBookNearAsks 3 exFokBuy5).2.remainingQuantity = 5 := by
  decide!

/-- A fill-or-kill buy whose price is NaN: no ask has a price `<= NaN`, yet the scan
of `handleFOK` stops on `effectiveBuyPrice < topSell.price`, which is false for a
NaN, and the order is filled whole from the ask at 50. -/
theorem fok_nan_price_example :
    exBookS6.m_sellOrders = [exAsk50] ∧
    ((exBookS6.m_sellOrders.filter fun a => decide (a.price ≤ exNanFokBuy.price)).map
      Order.remainingQuantity).sum = 0 ∧
    (processOrder exBookS6 2 exNanFokBuy).2.remainingQuantity = 0 ∧
    (processOrder exBookS6 2 exNanFokBuy).1.m_sellOrders
      = [{ exAsk50 with remainingQuantity := 5, status := "partially_filled" }] := by
  decide!

/-! ## Claim C9 -/

/-- C9, as amended.  A killed fill-or-kill changes nothing.  For every book and
every fok order that enters with `remainingQuantity == quantity` and a status other
than `fok_no_fill`: if `processOrder` ends with status `fok_no_fill`, both sides of
the book are as before the call and the order's `remainingQuantity` equals its
quantity; and processing the order a second time, as first submitted or as
returned, again leaves both sides as they were and returns the same order (same
status, same quantities). -/
theorem killed_fok_changes_nothing (b : OrderBook) (endProcess : Int) (o : Order)
    (htype : o.type = "fok") (hrem : o.remainingQuantity = o.quantity)
    (hentry : o.status ≠ "fok_no_fill")
    (hend : (processOrder b endProcess o).2.status = "fok_no_fill") :
    (processOrder b endProcess o).1.m_buyOrders = b.m_buyOrders ∧
    (processOrder b endProcess o).1.m_sellOrders = b.m_sellOrders ∧
    (processOrder b endProcess o).2.remainingQuantity = o.quantity ∧
    ∀ endProcess2 : Int,
      (processOrder (processOrder b endProcess o).1 endProcess2 o).1.m_buyOrders
          = b.m_buyOrders ∧
      (processOrder (processOrder b endProcess o).1 endProcess2 o).1.m_sellOrders
          = b.m_sellOrders ∧
      (processOrder (processOrder b endProcess o).1 endProcess2 o).2
          = (processOrder b endProcess o).2 ∧
      (processOrder (processOrder b endProcess o).1 endProcess2
          (processOrder b endProcess o).2).1.m_buyOrders = b.m_buyOrders ∧
      (processOrder (processOrder b endProcess o).1 endProcess2
          (processOrder b endProcess o).2).1.m_sellOrders = b.m_sellOrders ∧
      (processOrder (processOrder b endProcess o).1 endProcess2
          (processOrder b endProcess o).2).2 = (processOrder b endProcess o).2 := by
  have hf : fokFeasible b o = false := by
    cases h : fokFeasible b o with
    | false => rfl
    | true =>
      have := processOrder_fok_filled_status b endProcess o htype h
      rw [hend] at this
      exact absurd this.symm hentry
  obtain ⟨h1, h2, h3⟩ := processOrder_fok_killed b endProcess o htype hf
  refine ⟨h1, h2, by rw [h3], ?_⟩
  intro e2
  have hf1 : fokFeasible (processOrder b endProcess o).1 o = false := by
    rw [fokFeasible_congr b _ o o h1 h2 rfl rfl rfl rfl]
    exact hf
  have hf2 : fokFeasible (processOrder b endProcess o).1 (processOrder b endProcess o).2
      = false := by
    rw [fokFeasible_congr b _ o _ h1 h2 (by rw [h3]) (by rw [h3]; exact hrem.symm)
      (by rw [h3]) (by rw [h3])]
    exact hf
  obtain ⟨k1, k2, k3⟩ := processOrder_fok_killed (processOrder b endProcess o).1 e2 o htype hf1
  obtain ⟨m1, m2, m3⟩ := processOrder_fok_killed (processOrder b endProcess o).1 e2
    (processOrder b endProcess o).2 (by rw [h3]; exact htype) hf2
  refine ⟨k1.trans h1, k2.trans h2, k3.trans h3.symm, m1.trans h1, m2.trans h2, ?_⟩
  rw [m3, h3]

/-- Witness for C9: scenario S6, the fill-or-kill buy for 20 against the single ask
for 10 is killed and the ask stays. -/
theorem killed_fok_changes_nothing_witness :
    (processOrder exBookS6 2 exFokBuy20).2.status = "fok_no_fill" ∧
    (processOrder exBookS6 2 exFokBuy20).1.m_sellOrders = [exAsk50] ∧
    (processOrder exBookS6 2 exFokBuy20).2.remainingQuantity = 20 :=
  have h := killed_fok_changes_nothing exBookS6 2 exFokBuy20 rfl rfl (by decide) (by decide!)
  ⟨by decide!, h.2.1.trans (by decide!), h.2.2.1⟩

/-- Counterexample to C9 as stated: a fill-or-kill buy for 5 at 50 whose status
already reads `fok_no_fill` on entry meets an ask for 10 at 50.  `processOrder`
ends with status `fok_no_fill` (the branch that fills never assigns a status), yet
the ask has lost 5 and the order's `remainingQuantity` is 0, not its quantity 5. -/
theorem killed_fok_stale_status_counterexample :
    exFokBuyStale.type = "fok" ∧ exFokBuyStale.remainingQuantity = exFokBuyStale.quantity ∧
    exBookS6.m_sellOrders = [exAsk50] ∧
    (processOrder exBookS6 3 exFokBuyStale).2.status = "fok_no_fill" ∧
    (processOrder exBookS6 3 exFokBuyStale).1.m_sellOrders
      = [{ exAsk50 with remainingQuantity := 5, status := "partially_filled" }] ∧
    (processOrder exBookS6 3 exFokBuyStale).2.remainingQuantity = 0 ∧
    exFokBuyStale.quantity = 5 := by
  decide!

/-! ## Claim C10 -/

/-- C10. For every book state and every order whose type is `cancel`, whatever its
other fields, `processOrder` sets the status to `cancelled`, leaves both sides of
the book as they were and leaves `remainingQuantity` unchanged; processing the
cancel once more (the same request, or the order as returned) again leaves both
sides as they were. -/
theorem cancel_leaves_book (b : OrderBook) (endProcess : Int) (o : Order)
    (h : o.type = "cancel") :
    (processOrder b endProcess o).2.status = "cancelled" ∧
    (processOrder b endProcess o).1.m_buyOrders = b.m_buyOrders ∧
    (processOrder b endProcess o).1.m_sellOrders = b.m_sellOrders ∧
    (processOrder b endProcess o).2.remainingQuantity = o.remainingQuantity ∧
    ∀ endProcess2 : Int,
      (processOrder (processOrder b endProcess o).1 endProcess2 o).1.m_buyOrders
          = b.m_buyOrders ∧
      (processOrder (processOrder b endProcess o).1 endProcess2 o).1.m_sellOrders
          = b.m_sellOrders ∧
      (processOrder (processOrder b endProcess o).1 endProcess2
          (processOrder b endProcess o).2).1.m_buyOrders = b.m_buyOrders ∧
      (processOrder (processOrder b endProcess o).1 endProcess2
          (processOrder b endProcess o).2).1.m_sellOrders = b.m_sellOrders ∧
      (processOrder (processOrder b endProcess o).1 endProcess2
          (processOrder b endProcess o).2).2 = (processOrder b endProcess o).2 := by
  rw [processOrder_cancel b endProcess o h]
  refine ⟨rfl, rfl, rfl, rfl, ?_⟩
  intro e2
  rw [processOrder_cancel _ e2 o h, processOrder_cancel _ e2 { o with status := "cancelled" } h]
  exact ⟨rfl, rfl, rfl, rfl, rfl⟩

/-- Witness for C10: the cancel request of the repository's test, sent to the book
of scenario S2, is answered `cancelled` and the resting bid stays. -/
theorem cancel_leaves_book_witness :
    (processOrder exBookS2 3 exCancel).2.status = "cancelled" ∧
    (processOrder exBookS2 3 exCancel).1.m_buyOrders = exBookS2.m_buyOrders ∧
    exBookS2.m_buyOrders ≠ [] :=
  ⟨(cancel_leaves_book exBookS2 3 exCancel rfl).1,
    (cancel_leaves_book exBookS2 3 exCancel rfl).2.1, by decide⟩

/-! ## Claim C11 -/

/-- C11, evaluated at scenario S5, where the source departs from the claim.  The
book holds one ask at 50 for 10 and the ioc buy at 49 for 5 enters with status
`open` and `remainingQuantity == quantity`.  `processOrder` leaves the ask side
untouched and returns `remainingQuantity` 0, as the claim says; but `handleIOC`
compares `remainingQuantity` with the original quantity after it has set it to 0, so
the flag is true, no status is assigned, and the order ends with status `open`
instead of `ioc_no_fill`. -/
theorem ioc_status_at_scenario_S5 :
    exBookS6.m_sellOrders = [exAsk50] ∧
    exIocBuy49.type = "ioc" ∧ exIocBuy49.action = "buy" ∧ exIocBuy49.status = "open" ∧
    exIocBuy49.remainingQuantity = exIocBuy49.quantity ∧ 0 < exIocBuy49.quantity ∧
    exIocBuy49.price < exAsk50.price ∧
    (handleIOC exBookS6 exIocBuy49).2.2 = true ∧
    (processOrder exBookS6 2 exIocBuy49).1.m_sellOrders = [exAsk50] ∧
    (processOrder exBookS6 2 exIocBuy49).2.remainingQuantity = 0 ∧
    (processOrder exBookS6 2 exIocBuy49).2.status = "open" ∧
    (processOrder exBookS6 2 exIocBuy49).2.status ≠ "ioc_no_fill" := by
  decide!

/-! ## Claim C12 -/

/-- C12, as amended.  Market order status.  For every book and every market buy or
sell order entering with status `open` and `remainingQuantity == quantity > 0`, the
quantity traded is `quantity` minus the final `remainingQuantity`, it is what the
opposite side lost, and after `processOrder` the status is `executed` if the final
`remainingQuantity` is 0, `partially_filled` if some but not all of the quantity
traded, and still `open` if nothing traded, for example against an empty opposite
side. -/
theorem market_order_status (b : OrderBook) (endProcess : Int) (o : Order)
    (htype : o.type = "market") (hact : o.action = "buy" ∨ o.action = "sell")
    (hstatus : o.status = "open") (hrem : o.remainingQuantity = o.quantity)
    (hq : 0 < o.quantity) :
    (processOrder b endProcess o).2.remainingQuantity ≤ o.quantity ∧
    (o.action = "buy" →
      restingTotal (processOrder b endProcess o).1.m_sellOrders + o.quantity
        = restingTotal b.m_sellOrders + (processOrder b endProcess o).2.remainingQuantity) ∧
    (o.action = "sell" →
      restingTotal (processOrder b endProcess o).1.m_buyOrders + o.quantity
        = restingTotal b.m_buyOrders + (processOrder b endProcess o).2.remainingQuantity) ∧
    ((processOrder b endProcess o).2.remainingQuantity = 0 →
      (processOrder b endProcess o).2.status = "executed") ∧
    (0 < (processOrder b endProcess o).2.remainingQuantity →
      (processOrder b endProcess o).2.remainingQuantity < o.quantity →
      (processOrder b endProcess o).2.status = "partially_filled") ∧
    ((processOrder b endProcess o).2.remainingQuantity = o.quantity →
      (processOrder b endProcess o).2.status = "open") ∧
    (o.action = "buy" → b.m_sellOrders = [] →
      (processOrder b endProcess o).2.remainingQuantity = o.quantity) ∧
    (o.action = "sell" → b.m_buyOrders = [] →
      (processOrder b endProcess o).2.remainingQuantity = o.quantity) := by
  have hc : ¬ o.type = "cancel" := by rw [htype]; decide
  have hsl : ¬ o.type = "stop-loss" := by rw [htype]; decide
  have hnl : ¬ o.type = "limit" := by rw [htype]; decide
  rw [processOrder_of_not_cancel b endProcess o hc, afterStopLoss_of_ne b o hsl]
  simp only [recordLatency_buyOrders, recordLatency_sellOrders]
  rcases hact with hact | hact
  · have hb : o.isBuy = true := (isBuy_iff o).mpr hact
    have hns : ¬ o.action = "sell" := by rw [hact]; decide
    obtain ⟨-, -, -, -, -, b6, -⟩ := aggressor_projections o _ (buyCross_aggressor b o).1
    have hle := (buyCross_aggressor b o).2
    have hcons := crossLoop_conservation SellOrderComparator (buyStops o)
      b.m_sellOrders.length o b.m_sellOrders
    have hempty : b.m_sellOrders = [] → (buyCross b o).1.remainingQuantity = o.quantity := by
      intro he
      unfold buyCross
      rw [crossLoop_stop _ _ _ _ _ (Or.inl he)]
      exact hrem
    change restingTotal (buyCross b o).2 + o.remainingQuantity
      = restingTotal b.m_sellOrders + (buyCross b o).1.remainingQuantity at hcons
    rw [dispatchOrder_buy b o (Or.inl htype) hb, if_neg (fun h => hnl h.2)]
    split_ifs with h1 h2 <;> dsimp only
    · refine ⟨by omega, fun _ => by omega, fun h => absurd h hns,
        fun _ => rfl, fun h => by omega, fun h => by omega,
        fun _ he => hempty he, fun h => absurd h hns⟩
    · refine ⟨by omega, fun _ => by omega, fun h => absurd h hns,
        fun h => by omega, fun _ _ => rfl, fun h => by omega,
        fun _ he => hempty he, fun h => absurd h hns⟩
    · refine ⟨by omega, fun _ => by omega, fun h => absurd h hns,
        fun h => by omega, fun _ _ => by omega, fun _ => by rw [b6, hstatus],
        fun _ he => hempty he, fun h => absurd h hns⟩
  · have hb : o.isBuy = false := isBuy_of_sell o hact
    have hs : o.isSell = true := (isSell_iff o).mpr hact
    have hnb : ¬ o.action = "buy" := by rw [hact]; decide
    obtain ⟨-, -, -, -, -, s6, -⟩ := aggressor_projections o _ (sellCross_aggressor b o).1
    have hle := (sellCross_aggressor b o).2
    have hcons := crossLoop_conservation BuyOrderComparator (sellStops o)
      b.m_buyOrders.length o b.m_buyOrders
    have hempty : b.m_buyOrders = [] → (sellCross b o).1.remainingQuantity = o.quantity := by
      intro he
      unfold sellCross
      rw [crossLoop_stop _ _ _ _ _ (Or.inl he)]
      exact hrem
    change restingTotal (sellCross b o).2 + o.remainingQuantity
      = restingTotal b.m_buyOrders + (sellCross b o).1.remainingQuantity at hcons
    rw [dispatchOrder_sell b o (Or.inl htype) hb hs, if_neg (fun h => hnl h.2)]
    split_ifs with h1 h2 <;> dsimp only
    · refine ⟨by omega, fun h => absurd h hnb, fun _ => by omega,
        fun _ => rfl, fun h => by omega, fun h => by omega,
        fun h => absurd h hnb, fun _ he => hempty he⟩
    · refine ⟨by omega, fun h => absurd h hnb, fun _ => by omega,
        fun h => by omega, fun _ _ => rfl, fun h => by omega,
        fun h => absurd h hnb, fun _ he => hempty he⟩
    · refine ⟨by omega, fun h => absurd h hnb, fun _ => by omega,
        fun h => by omega, fun _ _ => by omega, fun _ => by rw [s6, hstatus],
        fun h => absurd h hnb, fun _ he => hempty he⟩

/-- Witness for C12: scenario S3, the market buy for 50 against the ask at 51 for
100 ends `executed`. -/
theorem market_order_status_witness :
    restingTotal exBookS3.m_sellOrders = 100 ∧
    restingTotal (processOrder exBookS3 2 exMarketBuy50).1.m_sellOrders = 50 ∧
    (processOrder exBookS3 2 exMarketBuy50).2.remainingQuantity = 0 ∧
    (processOrder exBookS3 2 exMarketBuy50).2.status = "executed" :=
  have h := market_order_status exBookS3 2 exMarketBuy50 rfl (Or.inl rfl) rfl rfl (by decide)
  have h0 : (processOrder exBookS3 2 exMarketBuy50).2.remainingQuantity = 0 := by decide!
  ⟨by decide!, by decide!, h0, h.2.2.2.1 h0⟩

/-- Counterexample to C12 as stated: a market buy for 50 on the empty book trades
nothing and ends `processOrder` with status `open`, not `rejected`. -/
theorem market_untraded_status_counterexample :
    OrderBook.new.m_sellOrders = [] ∧
    exMarketBuy50.type = "market" ∧ exMarketBuy50.action = "buy" ∧
    exMarketBuy50.status = "open" ∧
    exMarketBuy50.remainingQuantity = exMarketBuy50.quantity ∧ 0 < exMarketBuy50.quantity ∧
    (processOrder OrderBook.new 2 exMarketBuy50).2.remainingQuantity = exMarketBuy50.quantity ∧
    (processOrder OrderBook.new 2 exMarketBuy50).1.m_sellOrders = [] ∧
    (processOrder OrderBook.new 2 exMarketBuy50).2.status = "open" ∧
    (processOrder OrderBook.new 2 exMarketBuy50).2.status ≠ "rejected" := by
  decide!

/-! ## Claim C13 -/

/-- C13, as amended.  Partially filled limit order.  For every book and every limit
buy or sell order entering with status `open` and `remainingQuantity == quantity`
that trades some but not all of its quantity (the final `remainingQuantity` is
positive and below `quantity`; the difference is what the opposite side lost),
`processOrder` pushes the order with its remainder onto the order's own side, and
the status both of the returned order and of the copy resting on the book is still
`open`: only `remainingQuantity` differs from the order that came in. -/
theorem partially_filled_limit_rests (b : OrderBook) (endProcess : Int) (o : Order)
    (htype : o.type = "limit") (hstatus : o.status = "open")
    (hrem : o.remainingQuantity = o.quantity)
    (hpos : 0 < (processOrder b endProcess o).2.remainingQuantity)
    (hlt : (processOrder b endProcess o).2.remainingQuantity < o.quantity) :
    (processOrder b endProcess o).2.status = "open" ∧
    (processOrder b endProcess o).2
      = { o with remainingQuantity := (processOrder b endProcess o).2.remainingQuantity } ∧
    (o.action = "buy" →
      restingTotal (processOrder b endProcess o).1.m_sellOrders + o.quantity
        = restingTotal b.m_sellOrders + (processOrder b endProcess o).2.remainingQuantity ∧
      (processOrder b endProcess o).1.m_buyOrders
        = heapPush BuyOrderComparator b.m_buyOrders (processOrder b endProcess o).2 ∧
      (processOrder b endProcess o).1.m_buyOrders.Perm
        ((processOrder b endProcess o).2 :: b.m_buyOrders) ∧
      (processOrder b endProcess o).2 ∈ (processOrder b endProcess o).1.m_buyOrders) ∧
    (o.action = "sell" →
      restingTotal (processOrder b endProcess o).1.m_buyOrders + o.quantity
        = restingTotal b.m_buyOrders + (processOrder b endProcess o).2.remainingQuantity ∧
      (processOrder b endProcess o).1.m_sellOrders
        = heapPush SellOrderComparator b.m_sellOrders (processOrder b endProcess o).2 ∧
      (processOrder b endProcess o).1.m_sellOrders.Perm
        ((processOrder b endProcess o).2 :: b.m_sellOrders) ∧
      (processOrder b endProcess o).2 ∈ (processOrder b endProcess o).1.m_sellOrders) := by
  have hc : ¬ o.type = "cancel" := by rw [htype]; decide
  have hsl : ¬ o.type = "stop-loss" := by rw [htype]; decide
  have hioc : ¬ o.type = "ioc" := by rw [htype]; decide
  have hfok : ¬ o.type = "fok" := by rw [htype]; decide
  rw [processOrder_of_not_cancel b endProcess o hc, afterStopLoss_of_ne b o hsl] at hpos hlt ⊢
  simp only [recordLatency_buyOrders, recordLatency_sellOrders] at hpos hlt ⊢
  by_cases hb : o.isBuy = true
  · have hact : o.action = "buy" := (isBuy_iff o).mp hb
    have hns : ¬ o.action = "sell" := by rw [hact]; decide
    obtain ⟨-, -, -, -, -, b6, -⟩ := aggressor_projections o _ (buyCross_aggressor b o).1
    have hcons := crossLoop_conservation SellOrderComparator (buyStops o)
      b.m_sellOrders.length o b.m_sellOrders
    change restingTotal (buyCross b o).2 + o.remainingQuantity
      = restingTotal b.m_sellOrders + (buyCross b o).1.remainingQuantity at hcons
    rw [dispatchOrder_buy b o (Or.inr htype) hb] at hpos hlt ⊢
    by_cases h1 : 0 < (buyCross b o).1.remainingQuantity ∧ o.type = "limit"
    · rw [if_pos h1] at hpos hlt ⊢
      dsimp only at hpos hlt ⊢
      refine ⟨by rw [b6, hstatus], (buyCross_aggressor b o).1, fun _ => ⟨by omega, rfl,
        heapPush_perm _ _ _, ?_⟩, fun h => absurd h hns⟩
      exact (heapPush_perm _ _ _).mem_iff.mpr (List.mem_cons_self _ _)
    · rw [if_neg h1] at hpos
      have h0 : (buyCross b o).1.remainingQuantity = 0 := by
        by_contra hne
        exact h1 ⟨Nat.pos_of_ne_zero hne, htype⟩
      rw [if_pos h0] at hpos
      exact absurd hpos (by dsimp only; omega)
  · have hb' : o.isBuy = false := by simpa using hb
    have hnb : ¬ o.action = "buy" := fun h => hb ((isBuy_iff o).mpr h)
    by_cases hs : o.isSell = true
    · obtain ⟨-, -, -, -, -, s6, -⟩ := aggressor_projections o _ (sellCross_aggressor b o).1
      have hcons := crossLoop_conservation BuyOrderComparator (sellStops o)
        b.m_buyOrders.length o b.m_buyOrders
      change restingTotal (sellCross b o).2 + o.remainingQuantity
        = restingTotal b.m_buyOrders + (sellCross b o).1.remainingQuantity at hcons
      rw [dispatchOrder_sell b o (Or.inr htype) hb' hs] at hpos hlt ⊢
      by_cases h1 : 0 < (sellCross b o).1.remainingQuantity ∧ o.type = "limit"
      · rw [if_pos h1] at hpos hlt ⊢
        dsimp only at hpos hlt ⊢
        refine ⟨by rw [s6, hstatus], (sellCross_aggressor b o).1, fun h => absurd h hnb,
          fun _ => ⟨by omega, rfl, heapPush_perm _ _ _, ?_⟩⟩
        exact (heapPush_perm _ _ _).mem_iff.mpr (List.mem_cons_self _ _)
      · rw [if_neg h1] at hpos
        have h0 : (sellCross b o).1.remainingQuantity = 0 := by
          by_contra hne
          exact h1 ⟨Nat.pos_of_ne_zero hne, htype⟩
        rw [if_pos h0] at hpos
        exact absurd hpos (by dsimp only; omega)
    · rw [dispatchOrder_rejected b o hioc hfok (Or.inr ⟨hb', by simpa using hs⟩)] at hlt
      dsimp only at hlt
      omega

/-- Witness for C13: the limit buy at 50 for 20 against the single ask at 50 for 10
trades 10 and rests with 10 left, status `open`. -/
theorem partially_filled_limit_rests_witness :
    exBookS6.m_sellOrders = [exAsk50] ∧
    (processOrder exBookS6 2 exLimitBuy20).2.remainingQuantity = 10 ∧
    (processOrder exBookS6 2 exLimitBuy20).2.status = "open" ∧
    (processOrder exBookS6 2 exLimitBuy20).2 ∈ (processOrder exBookS6 2 exLimitBuy20).1.m_buyOrders :=
  have h := partially_filled_limit_rests exBookS6 2 exLimitBuy20 rfl rfl rfl (by decide!)
    (by decide!)
  ⟨by decide!, by decide!, h.1, (h.2.2.1 rfl).2.2.2⟩

/-- Counterexample to C13 as stated: the limit buy at 50 for 20 against the single
ask at 50 for 10 trades 10 of its 20; the remainder rests on the bid side, and both
the returned order and the resting copy have status `open`, not
`partially_filled`. -/
theorem partially_filled_limit_counterexample :
    exBookS6.m_sellOrders = [exAsk50] ∧ exLimitBuy20.type = "limit" ∧
    exLimitBuy20.status = "open" ∧ exLimitBuy20.remainingQuantity = exLimitBuy20.quantity ∧
    (processOrder exBookS6 2 exLimitBuy20).1.m_sellOrders = [] ∧
    (processOrder exBookS6 2 exLimitBuy20).2.remainingQuantity = 10 ∧
    (processOrder exBookS6 2 exLimitBuy20).2.status = "open" ∧
    (processOrder exBookS6 2 exLimitBuy20).1.m_buyOrders
      = [{ exLimitBuy20 with remainingQuantity := 10 }] ∧
    (∀ x ∈ (processOrder exBookS6 2 exLimitBuy20).1.m_buyOrders, x.status ≠ "partially_filled") := by
  decide!

/-! ## Claim C14 -/

/-- C14. Market and ioc orders never rest.  For every book and every order whose
type is `market` or `ioc`: after `processOrder` the order's own side (the bids for
a buy, the asks for a sell) is identical to its pre-call state, the opposite side
has not grown, and every order on the opposite side is an order that rested there
before the call, possibly filled in part (same fields except `remainingQuantity`
and `status`), so no copy of the aggressor was inserted.  When the action is
neither `buy` nor `sell`, both sides are identical to their pre-call state. -/
theorem market_and_ioc_never_rest (b : OrderBook) (endProcess : Int) (o : Order)
    (htype : o.type = "market" ∨ o.type = "ioc") :
    (o.action = "buy" →
      (processOrder b endProcess o).1.m_buyOrders = b.m_buyOrders ∧
      (processOrder b endProcess o).1.m_sellOrders.length ≤ b.m_sellOrders.length ∧
      ∀ x ∈ (processOrder b endProcess o).1.m_sellOrders,
        ∃ y ∈ b.m_sellOrders, FilledCopyOf x y) ∧
    (o.action = "sell" →
      (processOrder b endProcess o).1.m_sellOrders = b.m_sellOrders ∧
      (processOrder b endProcess o).1.m_buyOrders.length ≤ b.m_buyOrders.length ∧
      ∀ x ∈ (processOrder b endProcess o).1.m_buyOrders,
        ∃ y ∈ b.m_buyOrders, FilledCopyOf x y) ∧
    (o.action ≠ "buy" → o.action ≠ "sell" →
      (processOrder b endProcess o).1.m_buyOrders = b.m_buyOrders ∧
      (processOrder b endProcess o).1.m_sellOrders = b.m_sellOrders) := by
  have hc : ¬ o.type = "cancel" := by rcases htype with h | h <;> rw [h] <;> decide
  have hsl : ¬ o.type = "stop-loss" := by rcases htype with h | h <;> rw [h] <;> decide
  have hnl : ¬ o.type = "limit" := by rcases htype with h | h <;> rw [h] <;> decide
  have hfok : ¬ o.type = "fok" := by rcases htype with h | h <;> rw [h] <;> decide
  have hbl := crossLoop_length_le SellOrderComparator (buyStops o) b.m_sellOrders.length o
    b.m_sellOrders
  have hbc := crossLoop_filledCopy SellOrderComparator (buyStops o) b.m_sellOrders.length o
    b.m_sellOrders
  have hsl2 := crossLoop_length_le BuyOrderComparator (sellStops o) b.m_buyOrders.length o
    b.m_buyOrders
  have hsc := crossLoop_filledCopy BuyOrderComparator (sellStops o) b.m_buyOrders.length o
    b.m_buyOrders
  change (buyCross b o).2.length ≤ _ at hbl
  change ∀ x ∈ (buyCross b o).2, _ at hbc
  change (sellCross b o).2.length ≤ _ at hsl2
  change ∀ x ∈ (sellCross b o).2, _ at hsc
  rw [processOrder_of_not_cancel b endProcess o hc, afterStopLoss_of_ne b o hsl]
  simp only [recordLatency_buyOrders, recordLatency_sellOrders]
  have hshape := dispatchOrder_shape b o
  refine ⟨?_, ?_, ?_⟩
  · intro hact
    have hb : o.isBuy = true := (isBuy_iff o).mpr hact
    rcases hshape with h | ⟨-, h⟩ | ⟨hf, -⟩ | ⟨-, -, hl, -⟩ | ⟨hf, -⟩
    · rw [h]
      exact ⟨rfl, Nat.le_refl _, fun x hx => ⟨x, hx, rfl⟩⟩
    · rw [h]
      exact ⟨rfl, hbl, hbc⟩
    · rw [hb] at hf
      exact Bool.noConfusion hf
    · exact absurd hl hnl
    · rw [hb] at hf
      exact Bool.noConfusion hf
  · intro hact
    have hb : o.isBuy = false := isBuy_of_sell o hact
    rcases hshape with h | ⟨ht, -⟩ | ⟨-, h⟩ | ⟨ht, -⟩ | ⟨-, -, hl, -⟩
    · rw [h]
      exact ⟨rfl, Nat.le_refl _, fun x hx => ⟨x, hx, rfl⟩⟩
    · rw [hb] at ht
      exact Bool.noConfusion ht
    · rw [h]
      exact ⟨rfl, hsl2, hsc⟩
    · rw [hb] at ht
      exact Bool.noConfusion ht
    · exact absurd hl hnl
  · intro hnb hns
    have hb : o.isBuy = false := by
      cases h : o.isBuy with
      | false => rfl
      | true => exact absurd ((isBuy_iff o).mp h) hnb
    have hs : o.isSell = false := by
      cases h : o.isSell with
      | false => rfl
      | true => exact absurd ((isSell_iff o).mp h) hns
    rcases htype with ht | ht
    · rw [dispatchOrder_rejected b o (by rw [ht]; decide) hfok (Or.inr ⟨hb, hs⟩)]
      exact ⟨rfl, rfl⟩
    · rw [dispatchOrder_ioc b o ht]
      simp [hb, hs]

/-- Witness for C14: the market buy of scenario S3 leaves the bid side empty and the
ask side with its single order. -/
theorem market_and_ioc_never_rest_witness :
    exBookS3.m_buyOrders = [] ∧ exBookS3.m_sellOrders.length = 1 ∧
    (processOrder exBookS3 2 exMarketBuy50).1.m_buyOrders = exBookS3.m_buyOrders ∧
    (processOrder exBookS3 2 exMarketBuy50).1.m_sellOrders.length
      ≤ exBookS3.m_sellOrders.length :=
  have h := (market_and_ioc_never_rest exBookS3 2 exMarketBuy50 (Or.inl rfl)).1 rfl
  ⟨by decide!, by decide!, h.1, h.2.1⟩

/-! ## Claim C15 -/

/-- C15, as amended.  Order state machine.  For every book and every order of a
type other than `ioc` entering `processOrder` with `remainingQuantity == quantity`
(in particular with status `open` and a positive quantity): if the final status is
`open`, then the order is a buy or a sell and, with its discipline taken after any
stop-loss conversion, it is a limit order of which a copy rests on its own side of
the book, or a market order that traded nothing (`remainingQuantity` still equals
`quantity`), or a fok order that passed the feasibility scan and was not killed.
So no cancel order, no order of an unknown type, no order of an unknown side and
no killed fok order finishes with status `open`. -/
theorem open_status_after_processing (b : OrderBook) (endProcess : Int) (o : Order)
    (hrem : o.remainingQuantity = o.quantity) (hioc : o.type ≠ "ioc")
    (hfinal : (processOrder b endProcess o).2.status = "open") :
    (o.type = "limit" ∨ o.type = "market" ∨ o.type = "stop-loss" ∨ o.type = "fok") ∧
    (o.type = "fok" ∨ o.action = "buy" ∨ o.action = "sell") ∧
    (((processOrder b endProcess o).2.type = "limit" ∧
        (o.action = "buy" →
          (processOrder b endProcess o).2 ∈ (processOrder b endProcess o).1.m_buyOrders) ∧
        (o.action = "sell" →
          (processOrder b endProcess o).2 ∈ (processOrder b endProcess o).1.m_sellOrders)) ∨
      ((processOrder b endProcess o).2.type = "market" ∧
        (processOrder b endProcess o).2.remainingQuantity = o.quantity) ∨
      (o.type = "fok" ∧ fokFeasible b o = true)) := by
  have hc : ¬ o.type = "cancel" := by
    intro hc
    rw [processOrder_cancel b endProcess o hc] at hfinal
    dsimp only at hfinal
    exact absurd hfinal (by decide)
  obtain ⟨hq', hr', -, ha', -⟩ := afterStopLoss_fields b o
  rw [processOrder_of_not_cancel b endProcess o hc] at hfinal ⊢
  simp only [recordLatency_buyOrders, recordLatency_sellOrders] at hfinal ⊢
  have htypeEq : (dispatchOrder b (afterStopLoss b o)).2.type = (afterStopLoss b o).type := by
    rw [dispatchOrder_fields]
  rw [htypeEq]
  by_cases hsl : o.type = "stop-loss"
  · have hty := afterStopLoss_type b o hsl
    have hioc' : ¬ (afterStopLoss b o).type = "ioc" := by
      rcases hty with h | h <;> rw [h] <;> decide
    have hfok' : ¬ (afterStopLoss b o).type = "fok" := by
      rcases hty with h | h <;> rw [h] <;> decide
    rcases dispatchOrder_open b (afterStopLoss b o) (by rw [hr', hq', hrem]) hioc' hfinal with
      ⟨h1, h2, h3, h4⟩ | ⟨h1, h2, h3⟩ | ⟨h1, -⟩
    · rw [ha'] at h2 h3 h4
      exact ⟨Or.inr (Or.inr (Or.inl hsl)), Or.inr h2, Or.inl ⟨h1, h3, h4⟩⟩
    · rw [ha'] at h2
      rw [hq'] at h3
      exact ⟨Or.inr (Or.inr (Or.inl hsl)), Or.inr h2, Or.inr (Or.inl ⟨h1, h3⟩)⟩
    · exact absurd h1 hfok'
  · rw [afterStopLoss_of_ne b o hsl] at hfinal ⊢
    rcases dispatchOrder_open b o hrem hioc hfinal with
      ⟨h1, h2, h3, h4⟩ | ⟨h1, h2, h3⟩ | ⟨h1, h2⟩
    · exact ⟨Or.inl h1, Or.inr h2, Or.inl ⟨h1, h3, h4⟩⟩
    · exact ⟨Or.inr (Or.inl h1), Or.inr h2, Or.inr (Or.inl ⟨h1, h3⟩)⟩
    · exact ⟨Or.inr (Or.inr (Or.inr h1)), Or.inl h1, Or.inr (Or.inr ⟨h1, h2⟩)⟩

/-- Witness for C15: scenario S1, the limit buy at 50 for 100 on the empty book ends
with status `open` and rests on the bid side. -/
theorem open_status_after_processing_witness :
    (processOrder OrderBook.new 1 exBuy1).2.status = "open" ∧
    (processOrder OrderBook.new 1 exBuy1).2.type = "limit" ∧
    (processOrder OrderBook.new 1 exBuy1).2 ∈ (processOrder OrderBook.new 1 exBuy1).1.m_buyOrders :=
  have hfin : (processOrder OrderBook.new 1 exBuy1).2.status = "open" := by decide!
  have h := open_status_after_processing OrderBook.new 1 exBuy1 rfl (by decide) hfin
  have ht : (processOrder OrderBook.new 1 exBuy1).2.type = "limit" := by decide!
  ⟨hfin, ht, by
    rcases h.2.2 with h1 | h1 | h1
    · exact h1.2.1 rfl
    · exact absurd (ht.symm.trans h1.1) (by decide)
    · exact absurd h1.1 (by decide)⟩

/-- Counterexample to C15 as stated: a fok buy at 50 for 5 against the ask at 50 for
10 is filled in full and ends with status `open`, as the filling branch assigns no
status; a market sell for 7 on a book without bids trades nothing and ends with
status `open`.  Neither is a limit order and neither rests on the book. -/
theorem open_status_counterexample :
    exFokBuy5.type = "fok" ∧ exFokBuy5.status = "open" ∧
    exFokBuy5.remainingQuantity = exFokBuy5.quantity ∧ 0 < exFokBuy5.quantity ∧
    (processOrder exBookS6 3 exFokBuy5).2.status = "open" ∧
    (processOrder exBookS6 3 exFokBuy5).2.type = "fok" ∧
    (processOrder exBookS6 3 exFokBuy5).2.remainingQuantity = 0 ∧
    (processOrder exBookS6 3 exFokBuy5).1.m_buyOrders = [] ∧
    exMarketSell7.type = "market" ∧ exMarketSell7.status = "open" ∧
    exMarketSell7.remainingQuantity = exMarketSell7.quantity ∧ 0 < exMarketSell7.quantity ∧
    (processOrder exBookS6 3 exMarketSell7).2.status = "open" ∧
    (processOrder exBookS6 3 exMarketSell7).2.type = "market" ∧
    (processOrder exBookS6 3 exMarketSell7).1.m_sellOrders = exBookS6.m_sellOrders ∧
    (processOrder exBookS6 3 exMarketSell7).1.m_buyOrders = [] := by
  decide!

/-! ## Claim C16 -/

/-- C16, as amended.  Average price of a fill.  For every book and every processed
order with a positive filled quantity, in particular one whose fills all occurred
against one resting order, the `average_price` placed in the confirmation by the
worker is the order's own `price` field after processing, not the price of the
resting order: the price the order came with, for every order but a stop-loss
order that was converted to a limit order, for which it is the stop price.  It
equals the price of the resting order exactly when that is also the order's own
price. -/
theorem average_price_is_own_price (b : OrderBook) (endProcess : Int) (o : Order)
    (hfill : 0 < (serverWorkerThread b endProcess o).2.filled_quantity) :
    (serverWorkerThread b endProcess o).2.average_price
      = (processOrder b endProcess o).2.price ∧
    (o.type ≠ "stop-loss" → (serverWorkerThread b endProcess o).2.average_price = o.price) ∧
    (o.type = "stop-loss" →
      (processOrder b endProcess o).2.type = "market" ∧
        (serverWorkerThread b endProcess o).2.average_price = o.price ∨
      (processOrder b endProcess o).2.type = "limit" ∧
        (serverWorkerThread b endProcess o).2.average_price = o.stopPrice) ∧
    (∀ T : Order, (serverWorkerThread b endProcess o).2.average_price = T.price ↔
      (processOrder b endProcess o).2.price = T.price) := by
  have havg : (serverWorkerThread b endProcess o).2.average_price
      = (processOrder b endProcess o).2.price := by
    unfold serverWorkerThread buildConfirmation at hfill ⊢
    dsimp only at hfill ⊢
    rw [if_pos hfill]
  have hf := processOrder_fields b endProcess o
  have hprice : (processOrder b endProcess o).2.price = (afterStopLoss b o).price := by
    rw [hf]
  have htype : (processOrder b endProcess o).2.type = (afterStopLoss b o).type := by
    rw [hf]
  refine ⟨havg, ?_, ?_, fun T => by rw [havg]⟩
  · intro hsl
    rw [havg, hprice, afterStopLoss_of_ne b o hsl]
  · intro hsl
    rw [havg, hprice, htype]
    unfold afterStopLoss handleStopLoss
    rw [if_pos hsl]
    split_ifs
    · exact Or.inl ⟨rfl, rfl⟩
    · exact Or.inr ⟨rfl, rfl⟩
    · exact Or.inl ⟨rfl, rfl⟩
    · exact Or.inr ⟨rfl, rfl⟩

/-- Witness for C16: scenario S2, the limit sell at 49 for 50 filled by the bid
resting at 50; the confirmation carries the average price 49. -/
theorem average_price_is_own_price_witness :
    (serverWorkerThread exBookS1 2 exSell2).2.filled_quantity = 50 ∧
    exSell2.price = Double.fin 49 ∧
    (serverWorkerThread exBookS1 2 exSell2).2.average_price = exSell2.price :=
  ⟨by decide!, by decide!,
    (average_price_is_own_price exBookS1 2 exSell2 (by decide!)).2.1 (by decide)⟩

/-- Counterexample to C16 as stated: in scenario S3 the market buy for 50 is filled
by the single ask resting at 51 and the confirmation carries the average price 0,
the `price` field of the market order; in scenario S2 the limit sell at 49 is
filled by the single bid resting at 50 and the confirmation carries 49. -/
theorem average_price_counterexample :
    exBookS3.m_sellOrders = [exAsk51] ∧ exAsk51.price = Double.fin 51 ∧
    (processOrder exBookS3 2 exMarketBuy50).1.m_sellOrders
      = [{ exAsk51 with remainingQuantity := 50, status := "partially_filled" }] ∧
    (serverWorkerThread exBookS3 2 exMarketBuy50).2.filled_quantity = 50 ∧
    (serverWorkerThread exBookS3 2 exMarketBuy50).2.average_price = Double.fin 0 ∧
    (serverWorkerThread exBookS3 2 exMarketBuy50).2.average_price ≠ exAsk51.price ∧
    exBookS1.m_buyOrders = [exBuy1] ∧ exBuy1.price = Double.fin 50 ∧
    (processOrder exBookS1 2 exSell2).1.m_buyOrders = [exBidAfterS2] ∧
    (serverWorkerThread exBookS1 2 exSell2).2.filled_quantity = 50 ∧
    (serverWorkerThread exBookS1 2 exSell2).2.average_price = Double.fin 49 ∧
    (serverWorkerThread exBookS1 2 exSell2).2.average_price ≠ exBuy1.price := by
  decide!

/-! ## Claim C17 -/

/-- C17, as amended.  Average price without a trade.  For every book and every
order entering with `remainingQuantity == quantity` whose processing traded nothing
(neither side of the book has lost any resting quantity), the `average_price` placed
in the confirmation by the worker is 0, provided the order is of a discipline other
than `ioc`, or its quantity is 0, or its own price is 0; the filled quantity the
worker reports is then 0 for every discipline but `ioc`. -/
theorem average_price_without_trade (b : OrderBook) (endProcess : Int) (o : Order)
    (hrem : o.remainingQuantity = o.quantity)
    (hsells : restingTotal b.m_sellOrders
      ≤ restingTotal (processOrder b endProcess o).1.m_sellOrders)
    (hbuys : restingTotal b.m_buyOrders
      ≤ restingTotal (processOrder b endProcess o).1.m_buyOrders)
    (hioc : o.type ≠ "ioc" ∨ o.quantity = 0 ∨ o.price = Double.fin 0) :
    (serverWorkerThread b endProcess o).2.average_price = Double.fin 0 ∧
    (o.type ≠ "ioc" → (serverWorkerThread b endProcess o).2.filled_quantity = 0) := by
  have hquant := (processOrder_quantities b endProcess o).1
  have hnofill : o.type ≠ "ioc" →
      o.quantity ≤ (processOrder b endProcess o).2.remainingQuantity := by
    intro hni
    by_cases hc : o.type = "cancel"
    · rw [processOrder_cancel b endProcess o hc]
      dsimp only
      omega
    · rw [processOrder_of_not_cancel b endProcess o hc] at hsells hbuys ⊢
      simp only [recordLatency_buyOrders, recordLatency_sellOrders] at hsells hbuys ⊢
      obtain ⟨hq', hr', -⟩ := afterStopLoss_fields b o
      rcases dispatchOrder_untraded b (afterStopLoss b o) (afterStopLoss_not_ioc b o hni)
        hsells hbuys with h | h
      · omega
      · omega
  unfold serverWorkerThread buildConfirmation
  dsimp only
  rw [hquant]
  by_cases hni : o.type = "ioc"
  · refine ⟨?_, fun h => absurd hni h⟩
    rcases hioc with h | h | h
    · exact absurd hni h
    · have h0 : (if o.quantity > (processOrder b endProcess o).2.remainingQuantity then
          o.quantity - (processOrder b endProcess o).2.remainingQuantity else 0) = 0 :=
        if_neg (by omega)
      rw [h0]
      exact if_neg (Nat.lt_irrefl 0)
    · have hsl : ¬ o.type = "stop-loss" := by rw [hni]; decide
      have hp : (processOrder b endProcess o).2.price = o.price := by
        rw [processOrder_fields, afterStopLoss_of_ne b o hsl]
      rw [hp, h]
      split_ifs <;> rfl
  · have hge := hnofill hni
    have h0 : (if o.quantity > (processOrder b endProcess o).2.remainingQuantity then
        o.quantity - (processOrder b endProcess o).2.remainingQuantity else 0) = 0 :=
      if_neg (by omega)
    rw [h0]
    exact ⟨if_neg (Nat.lt_irrefl 0), fun _ => rfl⟩

/-- Witness for C17: scenario S6, the fok buy for 20 against 10 of liquidity is
killed and the confirmation carries the average price 0. -/
theorem average_price_without_trade_witness :
    (processOrder exBookS6 2 exFokBuy20).1.m_sellOrders = exBookS6.m_sellOrders ∧
    (serverWorkerThread exBookS6 2 exFokBuy20).2.average_price = Double.fin 0 :=
  ⟨by decide!,
    (average_price_without_trade exBookS6 2 exFokBuy20 rfl (by decide!) (by decide!)
      (Or.inl (by decide))).1⟩

/-- Counterexample to C17 as stated: in scenario S5 the ioc buy at 49 for 5 trades
nothing against the ask at 50 (both sides of the book are as before), its remainder
is cancelled by setting `remainingQuantity` to 0, and the worker reports the filled
quantity 5 and the average price 49. -/
theorem average_price_untraded_ioc_counterexample :
    exIocBuy49.remainingQuantity = exIocBuy49.quantity ∧
    (processOrder exBookS6 2 exIocBuy49).1.m_sellOrders = exBookS6.m_sellOrders ∧
    (processOrder exBookS6 2 exIocBuy49).1.m_buyOrders = exBookS6.m_buyOrders ∧
    (serverWorkerThread exBookS6 2 exIocBuy49).2.filled_quantity = 5 ∧
    (serverWorkerThread exBookS6 2 exIocBuy49).2.average_price = Double.fin 49 ∧
    (serverWorkerThread exBookS6 2 exIocBuy49).2.average_price ≠ Double.fin 0 := by
  decide!

/-! ## Claim C18 -/

/-- C18. Unknown discipline is rejected.  For every book and every order whose type
is none of `cancel`, `stop-loss`, `ioc`, `fok`, `market`, `limit`, `processOrder`
sets the status to `rejected`, leaves both book sides identical to their pre-call
state and leaves `remainingQuantity`, like every other field, unchanged. -/
theorem unknown_discipline_rejected (b : OrderBook) (endProcess : Int) (o : Order)
    (hcancel : o.type ≠ "cancel") (hstop : o.type ≠ "stop-loss") (hioc : o.type ≠ "ioc")
    (hfok : o.type ≠ "fok") (hmarket : o.type ≠ "market") (hlimit : o.type ≠ "limit") :
    (processOrder b endProcess o).2.status = "rejected" ∧
    (processOrder b endProcess o).1.m_buyOrders = b.m_buyOrders ∧
    (processOrder b endProcess o).1.m_sellOrders = b.m_sellOrders ∧
    (processOrder b endProcess o).2.remainingQuantity = o.remainingQuantity ∧
    (processOrder b endProcess o).2 = { o with status := "rejected" } := by
  have hml : ¬ (o.type = "market" ∨ o.type = "limit") := by
    rintro (h | h)
    · exact hmarket h
    · exact hlimit h
  rw [processOrder_of_not_cancel b endProcess o hcancel, afterStopLoss_of_ne b o hstop,
    dispatchOrder_rejected b o hioc hfok (Or.inl hml)]
  exact ⟨rfl, rfl, rfl, rfl, rfl⟩

/-- Witness for C18: an order of type `iceberg` on the book of scenario S1. -/
theorem unknown_discipline_rejected_witness :
    exIceberg.type = "iceberg" ∧
    (processOrder exBookS1 2 exIceberg).2.status = "rejected" ∧
    (processOrder exBookS1 2 exIceberg).1.m_buyOrders = exBookS1.m_buyOrders ∧
    (processOrder exBookS1 2 exIceberg).1.m_sellOrders = exBookS1.m_sellOrders ∧
    (processOrder exBookS1 2 exIceberg).2.remainingQuantity = 5 :=
  have h := unknown_discipline_rejected exBookS1 2 exIceberg (by decide) (by decide) (by decide)
    (by decide) (by decide) (by decide)
  ⟨rfl, h.1, h.2.1, h.2.2.1, h.2.2.2.1⟩

/-! ## Claim C19 -/

/-- C19, evaluated where the source departs from the claim.  The book holds one bid
at 50 for 100.  A fok order at 50 for 5 whose action is `hold`, neither `buy` nor
`sell`, is not rejected: `handleFOK` takes every order that is not a buy for a sell,
so the order trades 5 against the bid, which is left with 95, and ends with the
status `open` it came with.  An ioc order with the same action leaves the book as
it was but is not rejected either: it ends with status `open` and
`remainingQuantity` 0.  A limit order with the same action is rejected, as the
claim says. -/
theorem unknown_side_at_fok_and_ioc :
    exBookS1.m_buyOrders = [exBuy1] ∧ exBookS1.m_sellOrders = [] ∧
    exFokHold.type = "fok" ∧ exFokHold.action ≠ "buy" ∧ exFokHold.action ≠ "sell" ∧
    (processOrder exBookS1 2 exFokHold).2.status = "open" ∧
    (processOrder exBookS1 2 exFokHold).2.remainingQuantity = 0 ∧
    (processOrder exBookS1 2 exFokHold).1.m_buyOrders
      = [{ exBuy1 with remainingQuantity := 95, status := "partially_filled" }] ∧
    exIocHold.type = "ioc" ∧ exIocHold.action ≠ "buy" ∧ exIocHold.action ≠ "sell" ∧
    (processOrder exBookS1 2 exIocHold).2.status = "open" ∧
    (processOrder exBookS1 2 exIocHold).2.remainingQuantity = 0 ∧
    (processOrder exBookS1 2 exIocHold).1.m_buyOrders = [exBuy1] ∧
    (processOrder exBookS1 2 { exFokHold with type := "limit" }).2.status = "rejected" ∧
    (processOrder exBookS1 2 { exFokHold with type := "limit" }).1.m_buyOrders = [exBuy1] := by
  decide!

/-! ## Claim C20 -/

/-- C20, as amended.  Stop-loss conversion.  For every book and every stop-loss
order: after `processOrder` the type of a buy is `market` exactly when the ask side
is non-empty and the price of its top is `<= stopPrice`, or the ask side is empty
and `stopPrice >= 1e15`; the type of a sell is `market` exactly when the bid side
is non-empty and the price of its top is `>= stopPrice`, or the bid side is empty
and `stopPrice <= 0`.  In every other case the type is `limit` and
`price == stopPrice`.  The type is never left as `stop-loss`. -/
theorem stop_loss_conversion (b : OrderBook) (endProcess : Int) (o : Order)
    (htype : o.type = "stop-loss") :
    (o.action = "buy" →
      ((processOrder b endProcess o).2.type = "market" ↔
        (∃ t, b.m_sellOrders.head? = some t ∧ t.price ≤ o.stopPrice) ∨
          (b.m_sellOrders = [] ∧ lit1e15 ≤ o.stopPrice)) ∧
      ((processOrder b endProcess o).2.type ≠ "market" →
        (processOrder b endProcess o).2.type = "limit" ∧
          (processOrder b endProcess o).2.price = o.stopPrice)) ∧
    (o.action = "sell" →
      ((processOrder b endProcess o).2.type = "market" ↔
        (∃ t, b.m_buyOrders.head? = some t ∧ o.stopPrice ≤ t.price) ∨
          (b.m_buyOrders = [] ∧ o.stopPrice ≤ Double.fin 0)) ∧
      ((processOrder b endProcess o).2.type ≠ "market" →
        (processOrder b endProcess o).2.type = "limit" ∧
          (processOrder b endProcess o).2.price = o.stopPrice)) ∧
    (processOrder b endProcess o).2.type ≠ "stop-loss" := by
  have hf := processOrder_fields b endProcess o
  have hprice : (processOrder b endProcess o).2.price = (afterStopLoss b o).price := by
    rw [hf]
  have htypeEq : (processOrder b endProcess o).2.type = (afterStopLoss b o).type := by
    rw [hf]
  rw [hprice, htypeEq]
  refine ⟨?_, ?_, ?_⟩
  · intro hact
    have hb : o.isBuy = true := (isBuy_iff o).mpr hact
    rw [← bestSell_le_iff]
    unfold afterStopLoss handleStopLoss
    rw [if_pos htype, if_pos hb]
    by_cases h : bestSell b ≤ o.stopPrice
    · rw [if_pos h]
      exact ⟨⟨fun _ => h, fun _ => rfl⟩, fun hne => absurd rfl hne⟩
    · rw [if_neg h]
      exact ⟨⟨fun hm => absurd hm (show ¬ "limit" = "market" by decide), fun h' => absurd h' h⟩, fun _ => ⟨rfl, rfl⟩⟩
  · intro hact
    have hb : ¬ o.isBuy = true := by rw [isBuy_of_sell o hact]; decide
    rw [← bestBuy_ge_iff]
    unfold afterStopLoss handleStopLoss
    rw [if_pos htype, if_neg hb]
    by_cases h : bestBuy b ≥ o.stopPrice
    · rw [if_pos h]
      exact ⟨⟨fun _ => h, fun _ => rfl⟩, fun hne => absurd rfl hne⟩
    · rw [if_neg h]
      exact ⟨⟨fun hm => absurd hm (show ¬ "limit" = "market" by decide), fun h' => absurd h' h⟩, fun _ => ⟨rfl, rfl⟩⟩
  · rcases afterStopLoss_type b o htype with h | h <;> rw [h] <;> decide

/-- Witness for C20: scenario S4, the stop-loss buy with stop price 101 against the
book whose top ask is at 100 becomes a market order. -/
theorem stop_loss_conversion_witness :
    exBookS4.m_sellOrders.head? = some exAsk100 ∧ exAsk100.price ≤ exStopBuy101.stopPrice ∧
    (processOrder exBookS4 2 exStopBuy101).2.type = "market" :=
  have h := (stop_loss_conversion exBookS4 2 exStopBuy101 rfl).1 rfl
  have hT : exBookS4.m_sellOrders.head? = some exAsk100 := by decide!
  have hp : exAsk100.price ≤ exStopBuy101.stopPrice := by decide!
  ⟨hT, hp, h.1.mpr (Or.inl ⟨exAsk100, hT, hp⟩)⟩

/-- Counterexample to C20 as stated: on the empty book a stop-loss sell whose stop
price is 0 becomes a market order, not a limit order at the stop price: with no bid
the source takes the best bid to be `0.0`, and `0.0 >= stopPrice` holds. -/
theorem stop_loss_empty_side_counterexample :
    OrderBook.new.m_buyOrders = [] ∧
    exStopSellZero.type = "stop-loss" ∧ exStopSellZero.action = "sell" ∧
    exStopSellZero.stopPrice = Double.fin 0 ∧
    (processOrder OrderBook.new 2 exStopSellZero).2.type = "market" ∧
    (processOrder OrderBook.new 2 exStopSellZero).2.type ≠ "limit" ∧
    (processOrder OrderBook.new 2 exStopSellZero).2.price ≠ exStopSellZero.stopPrice := by
  decide!

/-! ## Claim C21 -/

/-- C21, as amended.  The effective price of a market buy is `1e15`.  For every
book and every market buy, after `processOrder` the order's `remainingQuantity` is
0, or the ask side is empty, or the top of the ask side has a price above `1e15`.
In particular, when no resting ask is priced above `1e15`, the order's
`remainingQuantity` is 0 or the ask side is empty. -/
theorem market_buy_effective_price (b : OrderBook) (endProcess : Int) (o : Order)
    (htype : o.type = "market") (hact : o.action = "buy") :
    ((processOrder b endProcess o).2.remainingQuantity = 0 ∨
      (processOrder b endProcess o).1.m_sellOrders = [] ∨
      ∃ t, (processOrder b endProcess o).1.m_sellOrders.head? = some t ∧
        lit1e15 < t.price) ∧
    ((∀ x ∈ b.m_sellOrders, x.price ≤ lit1e15) →
      (processOrder b endProcess o).2.remainingQuantity = 0 ∨
        (processOrder b endProcess o).1.m_sellOrders = []) := by
  have hc : ¬ o.type = "cancel" := by rw [htype]; decide
  have hsl : ¬ o.type = "stop-loss" := by rw [htype]; decide
  have hnl : ¬ o.type = "limit" := by rw [htype]; decide
  have hb : o.isBuy = true := (isBuy_iff o).mpr hact
  have hexit := crossLoop_exit SellOrderComparator (buyStops o) b.m_sellOrders.length o
    b.m_sellOrders (Nat.le_refl _)
  have hcopy := crossLoop_filledCopy SellOrderComparator (buyStops o) b.m_sellOrders.length o
    b.m_sellOrders
  change (buyCross b o).1.remainingQuantity = 0 ∨ (buyCross b o).2 = [] ∨
    ∃ t, (buyCross b o).2.head? = some t ∧ buyStops o t = true at hexit
  change ∀ x ∈ (buyCross b o).2, _ at hcopy
  have hrem : (processOrder b endProcess o).2.remainingQuantity
      = (buyCross b o).1.remainingQuantity := by
    rw [processOrder_of_not_cancel b endProcess o hc, afterStopLoss_of_ne b o hsl,
      dispatchOrder_buy b o (Or.inl htype) hb, if_neg (fun h => hnl h.2)]
    split_ifs <;> rfl
  have hsells : (processOrder b endProcess o).1.m_sellOrders = (buyCross b o).2 := by
    rw [processOrder_of_not_cancel b endProcess o hc, afterStopLoss_of_ne b o hsl,
      dispatchOrder_buy b o (Or.inl htype) hb, if_neg (fun h => hnl h.2)]
    split_ifs <;> rfl
  rw [hrem, hsells]
  have hstop : ∀ t, buyStops o t = true → lit1e15 < t.price := by
    intro t ht
    simpa [buyStops, htype] using ht
  constructor
  · rcases hexit with h | h | ⟨t, ht, hs⟩
    · exact Or.inl h
    · exact Or.inr (Or.inl h)
    · exact Or.inr (Or.inr ⟨t, ht, hstop t hs⟩)
  · intro hall
    rcases hexit with h | h | ⟨t, ht, hs⟩
    · exact Or.inl h
    · exact Or.inr h
    · obtain ⟨y, hy, hty⟩ := hcopy t (List.mem_of_mem_head? ht)
      have hp : t.price = y.price := by
        unfold FilledCopyOf at hty
        rw [hty]
      have := hall y hy
      have := hstop t hs
      rw [hp] at this
      exact absurd this (Double.not_lt_of_le (hall y hy))

/-- Witness for C21: scenario S3, the market buy for 50 against the ask at 51 ends
with `remainingQuantity` 0. -/
theorem market_buy_effective_price_witness :
    exBookS3.m_sellOrders = [exAsk51] ∧
    ((processOrder exBookS3 2 exMarketBuy50).2.remainingQuantity = 0 ∨
      (processOrder exBookS3 2 exMarketBuy50).1.m_sellOrders = []) :=
  ⟨by decide!,
    (market_buy_effective_price exBookS3 2 exMarketBuy50 rfl rfl).2 (by
      intro x hx
      have hx' : x = exAsk51 := by
        have : exBookS3.m_sellOrders = [exAsk51] := by decide!
        rw [this] at hx
        simpa using hx
      rw [hx']
      decide!)⟩

/-- Counterexample to C21 as stated: against the two asks resting at `2e15` a market
buy for 4, entering with `remainingQuantity == quantity`, ends `processOrder` with
its 4 still remaining and the ask side not empty. -/
theorem market_buy_bounded_price_counterexample :
    exMarketBuy4.type = "market" ∧ exMarketBuy4.action = "buy" ∧
    exMarketBuy4.remainingQuantity = exMarketBuy4.quantity ∧ 0 < exMarketBuy4.quantity ∧
    (processOrder exBookHighAsks 3 exMarketBuy4).2.remainingQuantity ≠ 0 ∧
    (processOrder exBookHighAsks 3 exMarketBuy4).1.m_sellOrders ≠ [] ∧
    (processOrder exBookHighAsks 3 exMarketBuy4).1.m_sellOrders = [exHighAskA, exHighAskB] := by
  decide!

/-! ## Claim C22 -/

/-- C22. Processed-order counter.  Starting from a freshly constructed `OrderBook`,
whose counter is 0, after any `n` sequential calls of `processOrder`, on orders of
any discipline and side and with any clock readings, `ordersProcessed()` is `n`,
and a further call increments it by exactly 1.  The counter is a `uint64_t`; `n`
and `n + 1` are values of that type, below `2^64`. -/
theorem processed_order_counter (calls : List (Int × Order)) (hn : calls.length < 2 ^ 64) :
    OrderBook.new.m_ordersProcessed = 0 ∧
    (processAll OrderBook.new calls).m_ordersProcessed = calls.length ∧
    (∀ (endProcess : Int) (o : Order), calls.length + 1 < 2 ^ 64 →
      (processOrder (processAll OrderBook.new calls) endProcess o).1.m_ordersProcessed
        = (processAll OrderBook.new calls).m_ordersProcessed + 1) := by
  have h := (processAll_telemetry calls OrderBook.new 0 0 rfl rfl (Nat.le_refl _)
    (Nat.le_refl _)).1
  rw [Nat.zero_add, Nat.mod_eq_of_lt hn] at h
  refine ⟨rfl, h, ?_⟩
  intro e o hn1
  rw [(processOrder_counters _ e o).1, h, Nat.mod_eq_of_lt hn1]

/-- Witness for C22: the limit buy of S1, the limit sell of S2 and a cancel request
leave the counter at 3. -/
theorem processed_order_counter_witness :
    exCallsThree.length = 3 ∧
    (processAll OrderBook.new exCallsThree).m_ordersProcessed = 3 :=
  ⟨rfl, (processed_order_counter exCallsThree (by decide)).2.1⟩

/-! ## Claim C23 -/

/-- C23, as amended.  Latency counters.  After any `n >= 1` sequential
`processOrder` calls on a fresh `OrderBook`, with any per-call latency samples
(each a 64-bit unsigned number of nanoseconds), provided the sum of the samples is
below `2^64` (and `n` is, as a value of the counter's type), `totalLatencyNs()` is
that sum, `ordersProcessed()` is `n`, and
`minLatencyNs() <= totalLatencyNs() / ordersProcessed() <= maxLatencyNs()`. -/
theorem latency_counters_bracket_mean (calls : List (Int × Order))
    (hpos : 1 ≤ calls.length) (hn : calls.length < 2 ^ 64)
    (hsum : (latencySamples calls).sum < 2 ^ 64) :
    (processAll OrderBook.new calls).m_ordersProcessed = calls.length ∧
    (processAll OrderBook.new calls).m_totalLatencyNs = (latencySamples calls).sum ∧
    (processAll OrderBook.new calls).m_minLatencyNs
      ≤ (processAll OrderBook.new calls).m_totalLatencyNs
          / (processAll OrderBook.new calls).m_ordersProcessed ∧
    (processAll OrderBook.new calls).m_totalLatencyNs
        / (processAll OrderBook.new calls).m_ordersProcessed
      ≤ (processAll OrderBook.new calls).m_maxLatencyNs := by
  obtain ⟨h1, h2, h3, h4⟩ := processAll_telemetry calls OrderBook.new 0 0 rfl rfl
    (Nat.le_refl _) (Nat.le_refl _)
  simp only [Nat.zero_add] at h1 h2 h3 h4
  rw [Nat.mod_eq_of_lt hn] at h1
  rw [Nat.mod_eq_of_lt hsum] at h2
  rw [h1, h2]
  refine ⟨rfl, rfl, ?_, ?_⟩
  · exact (Nat.le_div_iff_mul_le (by omega)).mpr h3
  · exact Nat.div_le_of_le_mul (by rw [Nat.mul_comm]; exact h4)

/-- Witness for C23: the three calls with the samples 0, 0 and 2. -/
theorem latency_counters_bracket_mean_witness :
    latencySamples exCallsThree = [0, 0, 2] ∧
    (processAll OrderBook.new exCallsThree).m_totalLatencyNs = 2 ∧
    (processAll OrderBook.new exCallsThree).m_minLatencyNs
      ≤ (processAll OrderBook.new exCallsThree).m_totalLatencyNs
          / (processAll OrderBook.new exCallsThree).m_ordersProcessed ∧
    (processAll OrderBook.new exCallsThree).m_totalLatencyNs
        / (processAll OrderBook.new exCallsThree).m_ordersProcessed
      ≤ (processAll OrderBook.new exCallsThree).m_maxLatencyNs :=
  have hs : latencySamples exCallsThree = [0, 0, 2] := by decide
  have h := latency_counters_bracket_mean exCallsThree (by decide) (by decide)
    (by rw [hs]; decide)
  ⟨hs, by rw [h.2.1, hs]; rfl, h.2.2.1, h.2.2.2⟩

/-- Counterexample to C23 as stated: two calls with the latency samples `2^64 - 1`
and `1`.  The total wraps to 0, so `totalLatencyNs() / ordersProcessed()` is 0,
below `minLatencyNs()`, which is 1. -/
theorem latency_total_wraps_counterexample :
    latencySamples exCallsWrap = [2 ^ 64 - 1, 1] ∧
    (processAll OrderBook.new exCallsWrap).m_ordersProcessed = 2 ∧
    (processAll OrderBook.new exCallsWrap).m_totalLatencyNs = 0 ∧
    (processAll OrderBook.new exCallsWrap).m_minLatencyNs = 1 ∧
    (processAll OrderBook.new exCallsWrap).m_maxLatencyNs = 2 ^ 64 - 1 ∧
    ¬ (processAll OrderBook.new exCallsWrap).m_minLatencyNs
        ≤ (processAll OrderBook.new exCallsWrap).m_totalLatencyNs
            / (processAll OrderBook.new exCallsWrap).m_ordersProcessed := by
  decide!

/-! ## Claim C24 -/

/-- C24. Price dominates in the comparators.  For any two orders `a` and `b` with
`b.price - a.price >= 1e-12`, as the program evaluates this test on the two `double`
values, whatever their timestamps, `BuyOrderComparator(a, b)` is true and
`BuyOrderComparator(b, a)` is false, and `SellOrderComparator(a, b)` is false and
`SellOrderComparator(b, a)` is true. -/
theorem price_dominates_in_comparators (a b : Order) (h : lit1em12 ≤ b.price - a.price) :
    BuyOrderComparator a b = true ∧ BuyOrderComparator b a = false ∧
    SellOrderComparator a b = false ∧ SellOrderComparator b a = true := by
  have hlt : a.price < b.price := Double.lt_of_le_sub lit1em12_pos h
  have h2 : ¬ Double.fabs (b.price - a.price) < lit1em12 := Double.not_fabs_lt_of_le h
  have h1 : ¬ Double.fabs (a.price - b.price) < lit1em12 := by
    rw [Double.fabs_sub_comm]
    exact h2
  unfold BuyOrderComparator SellOrderComparator
  rw [if_neg h1, if_neg h2, if_neg h1, if_neg h2]
  exact ⟨decide_eq_true hlt, decide_eq_false (Double.lt_asymm hlt),
    decide_eq_false (Double.lt_asymm hlt), decide_eq_true hlt⟩

/-- Witness for C24: the orders of the comparator tests, priced 50 and 60, and two
orders priced `0.0` and `1e-12`, whose difference is `1e-12` exactly. -/
theorem price_dominates_in_comparators_witness :
    (exTestOrderA.price = Double.fin 50 ∧ exTestOrderB.price = Double.fin 60 ∧
      BuyOrderComparator exTestOrderA exTestOrderB = true ∧
      BuyOrderComparator exTestOrderB exTestOrderA = false ∧
      SellOrderComparator exTestOrderA exTestOrderB = false ∧
      SellOrderComparator exTestOrderB exTestOrderA = true) ∧
    (exOrderAtZero.price = Double.fin 0 ∧ exOrderAtTolerance.price = lit1em12 ∧
      BuyOrderComparator exOrderAtZero exOrderAtTolerance = true ∧
      BuyOrderComparator exOrderAtTolerance exOrderAtZero = false ∧
      SellOrderComparator exOrderAtZero exOrderAtTolerance = false ∧
      SellOrderComparator exOrderAtTolerance exOrderAtZero = true) :=
  ⟨⟨rfl, rfl, price_dominates_in_comparators exTestOrderA exTestOrderB (by decide!)⟩,
    ⟨rfl, rfl, price_dominates_in_comparators exOrderAtZero exOrderAtTolerance (by decide!)⟩⟩

/-! ## Claim C25

The claim is about the holds of `m_bookMutex` by concurrent workers.  The embedding is
sequential, a call takes the book and returns it, so the acquisitions of the mutex
and the interleavings of workers are not represented, and the claim is not stated
here. -/

/-! ## Claim C26 -/

/-- C26. Conservation in a crossing pass.  For every book and every aggressor, one
call of `matchBuyOrder` reduces the total `remainingQuantity` summed over the ask
side by exactly the amount by which the aggressor's `remainingQuantity` is reduced,
never increases the number of asks, and leaves the bid side unchanged;
symmetrically for `matchSellOrder` with the bid and ask sides exchanged. -/
theorem crossing_pass_conservation (b : OrderBook) (o : Order) :
    ((matchBuyOrder b o).2.remainingQuantity ≤ o.remainingQuantity ∧
      restingTotal (matchBuyOrder b o).1.m_sellOrders ≤ restingTotal b.m_sellOrders ∧
      restingTotal b.m_sellOrders - restingTotal (matchBuyOrder b o).1.m_sellOrders
        = o.remainingQuantity - (matchBuyOrder b o).2.remainingQuantity ∧
      (matchBuyOrder b o).1.m_sellOrders.length ≤ b.m_sellOrders.length ∧
      (matchBuyOrder b o).1.m_buyOrders = b.m_buyOrders) ∧
    ((matchSellOrder b o).2.remainingQuantity ≤ o.remainingQuantity ∧
      restingTotal (matchSellOrder b o).1.m_buyOrders ≤ restingTotal b.m_buyOrders ∧
      restingTotal b.m_buyOrders - restingTotal (matchSellOrder b o).1.m_buyOrders
        = o.remainingQuantity - (matchSellOrder b o).2.remainingQuantity ∧
      (matchSellOrder b o).1.m_buyOrders.length ≤ b.m_buyOrders.length ∧
      (matchSellOrder b o).1.m_sellOrders = b.m_sellOrders) := by
  have hbc := crossLoop_conservation SellOrderComparator (buyStops o)
    b.m_sellOrders.length o b.m_sellOrders
  have hbl := crossLoop_length_le SellOrderComparator (buyStops o) b.m_sellOrders.length o
    b.m_sellOrders
  have hba := (buyCross_aggressor b o).2
  have hsc := crossLoop_conservation BuyOrderComparator (sellStops o)
    b.m_buyOrders.length o b.m_buyOrders
  have hsl := crossLoop_length_le BuyOrderComparator (sellStops o) b.m_buyOrders.length o
    b.m_buyOrders
  have hsa := (sellCross_aggressor b o).2
  change restingTotal (buyCross b o).2 + o.remainingQuantity
    = restingTotal b.m_sellOrders + (buyCross b o).1.remainingQuantity at hbc
  change (buyCross b o).2.length ≤ _ at hbl
  change restingTotal (sellCross b o).2 + o.remainingQuantity
    = restingTotal b.m_buyOrders + (sellCross b o).1.remainingQuantity at hsc
  change (sellCross b o).2.length ≤ _ at hsl
  rw [matchBuyOrder_eq, matchSellOrder_eq]
  dsimp only
  refine ⟨⟨hba, by omega, by omega, hbl, rfl⟩, ⟨hsa, by omega, by omega, hsl, rfl⟩⟩

/-! ## Claim C27 -/

/-- C27, as amended.  The source's ioc fill test.  For every book and every ioc
order, the result returned by `handleIOC` is true exactly when the order entered
with a positive `remainingQuantity`, whether or not anything traded: the comparison
with the original quantity is made after `remainingQuantity` was set to 0.  So
`processOrder` assigns no status to an ioc order that enters with a positive
`remainingQuantity` (it keeps the status it came with), and reports `ioc_no_fill`
only for an ioc order that enters with `remainingQuantity` 0 and a quantity other
than 0 (`executed` when the quantity is 0).  In both cases `remainingQuantity` is
0 afterwards. -/
theorem ioc_fill_test (b : OrderBook) (endProcess : Int) (o : Order) (htype : o.type = "ioc") :
    ((handleIOC b o).2.2 = true ↔ 0 < o.remainingQuantity) ∧
    (0 < o.remainingQuantity → (processOrder b endProcess o).2.status = o.status) ∧
    (o.remainingQuantity = 0 →
      (processOrder b endProcess o).2.status
        = if o.quantity = 0 then "executed" else "ioc_no_fill") ∧
    (processOrder b endProcess o).2.remainingQuantity = 0 := by
  refine ⟨?_, ?_, ?_, ?_⟩
  · rw [handleIOC_flag]
    exact decide_eq_true_iff
  · intro hpos
    rw [processOrder_ioc b endProcess o htype hpos]
  · intro hz
    rw [processOrder_ioc_zero b endProcess o htype hz]
  · by_cases hpos : 0 < o.remainingQuantity
    · rw [processOrder_ioc b endProcess o htype hpos]
    · rw [processOrder_ioc_zero b endProcess o htype (by omega)]

/-- Witness for C27: the ioc buy of scenario S5 enters with `remainingQuantity` 5;
the flag is true and the status stays `open`. -/
theorem ioc_fill_test_witness :
    exIocBuy49.remainingQuantity = 5 ∧ exIocBuy49.status = "open" ∧
    (handleIOC exBookS6 exIocBuy49).2.2 = true ∧
    (processOrder exBookS6 2 exIocBuy49).2.status = "open" :=
  have h := ioc_fill_test exBookS6 2 exIocBuy49 rfl
  ⟨rfl, rfl, h.1.mpr (by decide), h.2.1 (by decide)⟩

/-- Counterexample to C27 as stated: the ioc buy at 50 for 5 trades 5 against the
ask at 50, and the ioc buy at 49 for 5 of scenario S5 trades nothing; for both the
result returned by `handleIOC` is true, and `processOrder` ends with status `open`,
not `ioc_no_fill`. -/
theorem ioc_fill_test_counterexample :
    exIocBuy50.type = "ioc" ∧
    (handleIOC exBookS6 exIocBuy50).2.2 = true ∧
    (processOrder exBookS6 2 exIocBuy50).2.status = "open" ∧
    (processOrder exBookS6 2 exIocBuy50).2.status ≠ "ioc_no_fill" ∧
    restingTotal (processOrder exBookS6 2 exIocBuy50).1.m_sellOrders = 5 ∧
    exIocBuy49.type = "ioc" ∧
    (handleIOC exBookS6 exIocBuy49).2.2 = true ∧
    (processOrder exBookS6 2 exIocBuy49).2.status ≠ "ioc_no_fill" := by
  decide!

/-! ## Claim C28 -/

/-- C28. The book is never crossed.  Let `S` be a set of prices any two of which are
equal or at least `1e-12` apart, as the program evaluates `p == q` and
`fabs(p - q) >= 1e-12` (infinite prices are allowed; a NaN fails both tests), and
let the prices at which the input orders can rest (the limit price of a limit order,
the stop price of a stop-loss order) come from `S`.  Then in every book state
reachable from the empty book by a sequence of `processOrder` calls on such orders
(in particular orders with status `open` and `remainingQuantity == quantity`), every
resting bid's price is strictly less than every resting ask's price. -/
theorem book_never_crossed (S : Set Double) (hS : SeparatedPrices S) (b : OrderBook)
    (hb : ReachableBy (RestsPricedIn S) b) :
    ∀ x ∈ b.m_buyOrders, ∀ y ∈ b.m_sellOrders, x.price < y.price :=
  (reachable_uncrossed S hS b hb).2.2.2

/-- Witness for C28: the book with the bid at 50 and the ask at 51 is reachable
through orders priced in `{50, 51}`. -/
theorem book_never_crossed_witness :
    exBookBothSides.m_buyOrders = [exBuy1] ∧ exBookBothSides.m_sellOrders = [exAsk51] ∧
    exBuy1.price < exAsk51.price :=
  have hB : exBookBothSides.m_buyOrders = [exBuy1] := by decide!
  have hA : exBookBothSides.m_sellOrders = [exAsk51] := by decide!
  ⟨hB, hA,
    book_never_crossed {Double.fin 50, Double.fin 51}
      (by
        intro p hp q hq
        simp only [Set.mem_insert_iff, Set.mem_singleton_iff] at hp hq
        rcases hp with rfl | rfl <;> rcases hq with rfl | rfl <;> decide!)
      exBookBothSides
      (ReachableBy.step 2 exAsk51
        (ReachableBy.step 1 exBuy1 ReachableBy.init
          ⟨fun _ => by simp [exBuy1, Order.mk5], fun h => absurd h (by decide)⟩)
        ⟨fun _ => by simp [exAsk51, Order.mk5], fun h => absurd h (by decide)⟩)
      exBuy1 (by rw [hB]; exact List.mem_singleton_self _)
      exAsk51 (by rw [hA]; exact List.mem_singleton_self _)⟩

/-! ## Claim C29 -/

/-- C29, as amended.  Reported fills are real fills.  For every book and every
order of a discipline other than `ioc` entering with
`remainingQuantity == quantity`, the `filled_quantity` the worker reports equals
the quantity traded against the book, the decrease of the total
`remainingQuantity` summed over the opposite side during the call: the ask side
for a buy, the bid side for every other order. -/
theorem reported_fill_is_traded (b : OrderBook) (endProcess : Int) (o : Order)
    (hrem : o.remainingQuantity = o.quantity) (hioc : o.type ≠ "ioc") :
    (o.action = "buy" →
      restingTotal (serverWorkerThread b endProcess o).1.m_sellOrders
        ≤ restingTotal b.m_sellOrders ∧
      (serverWorkerThread b endProcess o).2.filled_quantity
        = restingTotal b.m_sellOrders
          - restingTotal (serverWorkerThread b endProcess o).1.m_sellOrders) ∧
    (o.action ≠ "buy" →
      restingTotal (serverWorkerThread b endProcess o).1.m_buyOrders
        ≤ restingTotal b.m_buyOrders ∧
      (serverWorkerThread b endProcess o).2.filled_quantity
        = restingTotal b.m_buyOrders
          - restingTotal (serverWorkerThread b endProcess o).1.m_buyOrders) := by
  have hquant := (processOrder_quantities b endProcess o).1
  unfold serverWorkerThread buildConfirmation
  dsimp only
  rw [hquant]
  by_cases hc : o.type = "cancel"
  · rw [processOrder_cancel b endProcess o hc]
    simp only [recordLatency_buyOrders, recordLatency_sellOrders]
    have h0 : (if o.quantity > o.remainingQuantity then o.quantity - o.remainingQuantity
        else 0) = 0 := if_neg (by omega)
    rw [h0]
    exact ⟨fun _ => ⟨Nat.le_refl _, by omega⟩, fun _ => ⟨Nat.le_refl _, by omega⟩⟩
  · rw [processOrder_of_not_cancel b endProcess o hc]
    simp only [recordLatency_buyOrders, recordLatency_sellOrders]
    obtain ⟨hq', hr', -, ha', -⟩ := afterStopLoss_fields b o
    obtain ⟨hle, hbuy, hsell⟩ := dispatchOrder_traded b (afterStopLoss b o)
      (afterStopLoss_not_ioc b o hioc) (by rw [hr', hq', hrem])
    rw [hq'] at hle hbuy hsell
    have hf : (if o.quantity > (dispatchOrder b (afterStopLoss b o)).2.remainingQuantity then
        o.quantity - (dispatchOrder b (afterStopLoss b o)).2.remainingQuantity else 0)
        = o.quantity - (dispatchOrder b (afterStopLoss b o)).2.remainingQuantity := by
      split_ifs <;> omega
    rw [hf]
    constructor
    · intro hact
      have hb : (afterStopLoss b o).isBuy = true := (isBuy_iff _).mpr (ha'.trans hact)
      have := (hbuy hb).1
      exact ⟨by omega, by omega⟩
    · intro hact
      have hb : (afterStopLoss b o).isBuy = false := by
        cases h : (afterStopLoss b o).isBuy with
        | false => rfl
        | true => exact absurd (ha' ▸ (isBuy_iff _).mp h) hact
      have := (hsell hb).1
      exact ⟨by omega, by omega⟩

/-- Witness for C29: scenario S3, the market buy for 50 is reported as filled for 50
and the ask side went from 100 to 50. -/
theorem reported_fill_is_traded_witness :
    restingTotal exBookS3.m_sellOrders = 100 ∧
    restingTotal (serverWorkerThread exBookS3 2 exMarketBuy50).1.m_sellOrders = 50 ∧
    (serverWorkerThread exBookS3 2 exMarketBuy50).2.filled_quantity
      = restingTotal exBookS3.m_sellOrders
        - restingTotal (serverWorkerThread exBookS3 2 exMarketBuy50).1.m_sellOrders :=
  ⟨by decide!, by decide!,
    ((reported_fill_is_traded exBookS3 2 exMarketBuy50 rfl (by decide)).1 rfl).2⟩

/-- Counterexample to C29 as stated: in scenario S5 the ioc buy at 49 for 5 trades
nothing, the ask side holds 10 before and after the call, and the worker reports
the filled quantity 5. -/
theorem reported_fill_ioc_counterexample :
    exIocBuy49.remainingQuantity = exIocBuy49.quantity ∧
    restingTotal exBookS6.m_sellOrders = 10 ∧
    restingTotal (serverWorkerThread exBookS6 2 exIocBuy49).1.m_sellOrders = 10 ∧
    (serverWorkerThread exBookS6 2 exIocBuy49).1.m_buyOrders = exBookS6.m_buyOrders ∧
    (serverWorkerThread exBookS6 2 exIocBuy49).2.filled_quantity = 5 ∧
    (serverWorkerThread exBookS6 2 exIocBuy49).2.filled_quantity
      ≠ restingTotal exBookS6.m_sellOrders
        - restingTotal (serverWorkerThread exBookS6 2 exIocBuy49).1.m_sellOrders := by
  decide!

/-! ## Claim C30 -/

/-- C30. JSON round trip.  A `std::map` from strings to strings is the list of its
entries in strictly increasing key order.  For every such map `m` in which no key
and no value contains a double quote or a backslash,
`parseJsonString(buildJsonString(m)) == m`, the empty map and empty keys or values
included; the loop of `parseJsonString` yields `m` with any number of turns allowed
that is at least the number of entries. -/
theorem json_round_trip (m : List (List Char × List Char))
    (hm : m.Pairwise (fun a b => strLess a.1 b.1 = true))
    (hclean : ∀ kv ∈ m, (∀ c ∈ kv.1, c ≠ quoteChar ∧ c ≠ backslashChar) ∧
      (∀ c ∈ kv.2, c ≠ quoteChar ∧ c ≠ backslashChar)) :
    parseJsonString (buildJsonString m) = m ∧
    ∀ fuel, m.length ≤ fuel → parseJsonLoop (buildJsonString m) fuel 0 [] = m := by
  have hloop : ∀ fuel, m.length ≤ fuel → parseJsonLoop (buildJsonString m) fuel 0 [] = m := by
    intro fuel hfuel
    cases m with
    | nil =>
      cases fuel with
      | zero => rfl
      | succ n =>
        have hnone : strFind (buildJsonString []) quoteChar 0 = none := by decide
        simp only [parseJsonLoop, hnone]
    | cons kv rest =>
      have hj : buildJsonString (kv :: rest)
          = [] ++ (segmentsText (withSeparators [lbraceChar] (kv :: rest)) ++ [rbraceChar]) := by
        rw [buildJsonString_clean _ hclean]
        simp [withSeparators, segmentsText]
      rw [parseJsonLoop_segments (buildJsonString (kv :: rest)) [rbraceChar] (by decide)
        (withSeparators [lbraceChar] (kv :: rest)) [] fuel 0 [] hj rfl
        (withSeparators_clean _ _ (by decide) hclean)
        (by rw [withSeparators_length]; exact hfuel)]
      rw [foldl_withSeparators]
      exact foldl_mapAssign_sorted (kv :: rest) [] hm
  refine ⟨?_, hloop⟩
  unfold parseJsonString
  apply hloop
  rw [buildJsonString_clean _ hclean]
  have := segmentsText_length (withSeparators [] m)
  rw [withSeparators_length] at this
  simp only [List.length_cons, List.length_append, List.length_nil]
  omega

/-- Witness for C30: the five fields of a confirmation. -/
theorem json_round_trip_witness :
    exConfirmationMap.length = 5 ∧
    parseJsonString (buildJsonString exConfirmationMap) = exConfirmationMap :=
  ⟨rfl, (json_round_trip exConfirmationMap (by decide) (by decide)).1⟩

end OrderBookSystem
